import Mathlib

/-!
# DeNoising: Haar wavelet denoising (sshudler/DeNoising)

A shallow embedding of `NoiseCleaner.cpp`, with what it uses of `Utils.h`, and of
`CompareFloatBuffers` and `ReadFileFloat` of `Utils.cpp`.

* Buffers (`float*`, `cl_mem`) are lists over an ordered field `K`; a read is
  `List.getD _ _ 0`, a write is `List.set`.  The arithmetic of the transforms is carried out
  in `K`, so the rounding of their `float` operations is not part of the model.  The buffers
  of `CompareFloatBuffers` hold values of binary32 (`float`), and its subtraction rounds.
* The constants `INV_SQRT_2` and `SQRT_2` of `NoiseCleaner.cpp` are parameters of the
  transforms; `INV_SQRT_2_f32` and `SQRT_2_f32` are the values the two `float` literals of
  the source denote.
* Loop counters and lengths are natural numbers (lengths are taken inside the range of
  `int`, where `int w = buffLen` keeps the value); the 32-bit arithmetic of `GetNumLevels`
  and of `dataLen - 1`, `currLevels - 1` is explicit, as are the 32-bit products
  `numThreadsLeft*numGroups`, `numGroups*dataLen` and `width*height` of the host code.
* The routines that drive the device act on a `Device`: the content of the device buffers
  and the allocations and runtime calls issued so far.  A routine ends in a `Run`: it
  returns, the process is ended by `OpenCLEnv::CheckForError`, or it runs into undefined
  behaviour.
* The kernels are in `HWT_kernels.cl`, which is not among the sources; what a dispatch does
  to the buffers follows the specification, the dispatch itself follows the host code.
* A text file of numbers is the list of its values together with whether whitespace follows
  the last one; a `std::fstream` reading it is its remaining values and its state bits.
* The cells the CPU transforms read and write are listed, loop by loop, by
  `ForwardHaarTransformCPUAccesses` and `InverseHaarTransformCPUAccesses`.
-/

namespace DeNoising

variable {K : Type} [LinearOrderedField K]

/-! ## Constants of `NoiseCleaner.cpp` -/

/-- The tile edge `#define TILE_SIZE 16`. -/
def TILE_SIZE : Nat := 16

/-- The value of the literal `0.70710678118654752440f`: the `float` nearest to it,
`11863283 / 2^24`. -/
def INV_SQRT_2_f32 : ℚ := 11863283 / 16777216

/-- The value of the literal `1.41421356237309504880f`: the `float` nearest to it,
`11863283 / 2^23`. -/
def SQRT_2_f32 : ℚ := 11863283 / 8388608

/-! ## `CNoiseCleaner::GetNumLevels` -/

/-- The expression `(unsigned int)(log((double)buffLen) / log(2.0))`, with the quotient of
the two logarithms taken as the binary logarithm rounded down. -/
def logQuotient (buffLen : Nat) : Nat := Nat.log 2 buffLen

/-- `CNoiseCleaner::GetNumLevels(buffLen, numLevels)`: the first component is the returned
`bool`, the second the value stored in `numLevels`.  The shift `1 << numLevels` is a 32-bit
shift and the comparison is made between 32-bit unsigned values. -/
def GetNumLevels (buffLen : Nat) : Bool × Nat :=
  (decide ((1 <<< logQuotient buffLen) % 2 ^ 32 = buffLen), logQuotient buffLen)

/-! ## `memcpy` on buffers -/

/-- `memcpy(dst, src, n * sizeof(float))`: the first `n` cells of `dst` are replaced by the
first `n` cells of `src`. -/
def memcpy (dst src : List K) (n : Nat) : List K :=
  src.take n ++ dst.drop n

/-! ## `CNoiseCleaner::ForwardHaarTransformCPU` -/

/-- Body of the `for` loop of `ForwardHaarTransformCPU` at index `i`:
`pOutBuff[i] = (pTempIn[2*i] + pTempIn[2*i + 1]) * INV_SQRT_2;`
`pOutBuff[i+w] = (pTempIn[2*i] - pTempIn[2*i + 1]) * INV_SQRT_2;` -/
def fwdBody (INV_SQRT_2 : K) (pTempIn : List K) (w : Nat) (pOutBuff : List K) (i : Nat) :
    List K :=
  (pOutBuff.set i ((pTempIn.getD (2 * i) 0 + pTempIn.getD (2 * i + 1) 0) * INV_SQRT_2)).set
    (i + w) ((pTempIn.getD (2 * i) 0 - pTempIn.getD (2 * i + 1) 0) * INV_SQRT_2)

/-- The loop `for (i = 0; i < w; i++)` of `ForwardHaarTransformCPU`. -/
def fwdFor (INV_SQRT_2 : K) (pTempIn : List K) (w : Nat) (pOutBuff : List K) : List K :=
  (List.range w).foldl (fwdBody INV_SQRT_2 pTempIn w) pOutBuff

/-- The loop `while (w > 1)` of `ForwardHaarTransformCPU`: halve `w`, run the `for` loop,
copy the first `w * 2` cells of `pOutBuff` back to `pTempIn`.  The result is the final
`pOutBuff`.  `w` is the value of `int w = buffLen` for a length inside the range of `int`,
`buffLen ≤ 2 ^ 31 - 1`; for a longer buffer the source's `w` is negative and its loop does not
run. -/
def fwdWhile (INV_SQRT_2 : K) (w : Nat) (pTempIn pOutBuff : List K) : List K :=
  if 1 < w then
    fwdWhile INV_SQRT_2 (w / 2)
      (memcpy pTempIn (fwdFor INV_SQRT_2 pTempIn (w / 2) pOutBuff) (w / 2 * 2))
      (fwdFor INV_SQRT_2 pTempIn (w / 2) pOutBuff)
  else pOutBuff
termination_by w
decreasing_by omega

/-- `CNoiseCleaner::ForwardHaarTransformCPU(pInBuff, buffLen, pOutBuff, globalOffset)`;
`pTempIn` is a fresh buffer of `buffLen` cells filled from `pInBuff`, the result is the
content of `pOutBuff` on return (`globalOffset` is not used by the source). -/
def ForwardHaarTransformCPU (INV_SQRT_2 : K) (pInBuff : List K) (buffLen : Nat)
    (pOutBuff : List K) : List K :=
  fwdWhile INV_SQRT_2 buffLen (memcpy (List.replicate buffLen 0) pInBuff buffLen) pOutBuff

/-! ## `CNoiseCleaner::InverseHaarTransformCPU` -/

/-- Body of the `for` loop of `InverseHaarTransformCPU` at index `i`:
`pOutBuff[2*i] = (pTempIn[i] + pTempIn[i+w]) * SQRT_2 * 0.5f;`
`pOutBuff[2*i + 1] = (pTempIn[i] * SQRT_2) - pOutBuff[2*i];` -/
def invBody (SQRT_2 : K) (pTempIn : List K) (w : Nat) (pOutBuff : List K) (i : Nat) :
    List K :=
  (pOutBuff.set (2 * i) ((pTempIn.getD i 0 + pTempIn.getD (i + w) 0) * SQRT_2 * (1 / 2))).set
    (2 * i + 1)
    (pTempIn.getD i 0 * SQRT_2 -
      (pOutBuff.set (2 * i)
        ((pTempIn.getD i 0 + pTempIn.getD (i + w) 0) * SQRT_2 * (1 / 2))).getD (2 * i) 0)

/-- The loop `for (i = 0; i < w; i++)` of `InverseHaarTransformCPU`. -/
def invFor (SQRT_2 : K) (pTempIn : List K) (w : Nat) (pOutBuff : List K) : List K :=
  (List.range w).foldl (invBody SQRT_2 pTempIn w) pOutBuff

/-- The loop `while (w < buffLen)` of `InverseHaarTransformCPU`: run the `for` loop, copy the
first `w * 2` cells of `pOutBuff` back to `pTempIn`, double `w`.  The counter starts at `1`
and is only doubled, so it stays positive.  The result is the pair of `pTempIn` and
`pOutBuff` at the exit of the loop. -/
def invWhile (SQRT_2 : K) (buffLen : Nat) (w : Nat) (hw : 0 < w) (pTempIn pOutBuff : List K) :
    List K × List K :=
  if w < buffLen then
    invWhile SQRT_2 buffLen (w * 2) (by omega)
      (memcpy pTempIn (invFor SQRT_2 pTempIn w pOutBuff) (w * 2))
      (invFor SQRT_2 pTempIn w pOutBuff)
  else (pTempIn, pOutBuff)
termination_by buffLen - w
decreasing_by omega

/-- `CNoiseCleaner::InverseHaarTransformCPU(pInBuff, buffLen, pOutBuff, globalOffset)`;
`pTempIn` is a fresh buffer of `buffLen` cells filled from `pInBuff`, the result is the
content of `pOutBuff` on return (`globalOffset` is not used by the source). -/
def InverseHaarTransformCPU (SQRT_2 : K) (pInBuff : List K) (buffLen : Nat)
    (pOutBuff : List K) : List K :=
  (invWhile SQRT_2 buffLen 1 Nat.one_pos
    (memcpy (List.replicate buffLen 0) pInBuff buffLen) pOutBuff).2

/-! ## The recursive Haar decomposition -/

/-- The half-length low-pass signal `(x[2i] + x[2i+1]) * INV_SQRT_2`, `i < N/2`. -/
def haarLow (INV_SQRT_2 : K) (x : List K) : List K :=
  (List.range (x.length / 2)).map fun i => (x.getD (2 * i) 0 + x.getD (2 * i + 1) 0) * INV_SQRT_2

/-- The half-length detail signal `(x[2i] - x[2i+1]) * INV_SQRT_2`, `i < N/2`. -/
def haarHigh (INV_SQRT_2 : K) (x : List K) : List K :=
  (List.range (x.length / 2)).map fun i => (x.getD (2 * i) 0 - x.getD (2 * i + 1) 0) * INV_SQRT_2

/-- The `L`-level recursive Haar decomposition: the upper half holds the details of `x`,
the lower half the decomposition of the low-pass signal; with no level left the signal is
returned as it is. -/
def haarDecomp (INV_SQRT_2 : K) : Nat → List K → List K
  | 0, x => x
  | L + 1, x => haarDecomp INV_SQRT_2 L (haarLow INV_SQRT_2 x) ++ haarHigh INV_SQRT_2 x

/-- One reconstruction level: from `w` scaling coefficients `a` and `w` details `d`, the
`2 * w` samples `out[2i] = (a[i] + d[i]) * SQRT_2 * 0.5`, `out[2i+1] = a[i] * SQRT_2 - out[2i]`. -/
def haarUnstep (SQRT_2 : K) (a d : List K) : List K :=
  (List.range (2 * a.length)).map fun j =>
    if j % 2 = 0 then (a.getD (j / 2) 0 + d.getD (j / 2) 0) * SQRT_2 * (1 / 2)
    else a.getD (j / 2) 0 * SQRT_2 - (a.getD (j / 2) 0 + d.getD (j / 2) 0) * SQRT_2 * (1 / 2)

/-- The `L`-level recursive Haar reconstruction of a coefficient vector of length `2 ^ L`:
reconstruct the lower half with `L - 1` levels, then apply one level with the upper half as
details. -/
def haarRecon (SQRT_2 : K) : Nat → List K → List K
  | 0, y => y
  | L + 1, y => haarUnstep SQRT_2 (haarRecon SQRT_2 L (y.take (2 ^ L))) (y.drop (2 ^ L))

/-- The `enum KernelIndices` of `NoiseCleaner.h`. -/
inductive KernelIndices where
  | FWT_KERNEL_IDX
  | IWT_KERNEL
  | MAT_TRANSPOSE_KERNEL
  | MAT_HT_THRESH_KERNEL
  | MAT_ST_THRESH_KERNEL
  deriving DecidableEq

/-- The integer value of an enumerator of `KernelIndices`. -/
def KernelIndices.toNat : KernelIndices → Nat
  | .FWT_KERNEL_IDX => 0
  | .IWT_KERNEL => 1
  | .MAT_TRANSPOSE_KERNEL => 2
  | .MAT_HT_THRESH_KERNEL => 3
  | .MAT_ST_THRESH_KERNEL => 4

/-- The table `CNoiseCleaner::KERNEL_NAMES`; `m_kernels[i]` is the kernel of the program
with the name `KERNEL_NAMES[i]`. -/
def KERNEL_NAMES : List String :=
  ["FWT_kernel", "IWT_kernel", "Mat_Transpose_kernel", "Mat_HT_Threshold_kernel",
    "Mat_ST_Threshold_kernel"]

/-- The name of the kernel held in `m_kernels[idx]`. -/
def kernelName (idx : KernelIndices) : String := KERNEL_NAMES.getD idx.toNat ""

/-- The device buffers (`cl_mem` handles) a routine of `CNoiseCleaner` works with. -/
inductive Mem where
  | inBuff
  | outBuff
  | partBuff
  deriving DecidableEq

/-- The status `CL_SUCCESS`. -/
def CL_SUCCESS : Int := 0

/-- What the routines see of `OpenCLEnv`: the work-group size queried for each kernel, and
the status returned by the `n`-th status-returning call into the OpenCL runtime. -/
structure OpenCLEnv where
  m_kernelWorkGroupSizes : KernelIndices → Nat
  clErr : Nat → Int

/-- Host allocations and calls into the OpenCL runtime, as they are issued. -/
inductive Event where
  | newFloats (cells : Nat)
  | clCreateBuffer (m : Mem) (bytes : Nat)
  | clEnqueueWriteBuffer (m : Mem) (bytes : Nat)
  | clEnqueueNDRangeKernel (kernel : KernelIndices) (buffers : List Mem) (scalars : List Nat)
      (globalWorkItems localWorkItems : List Nat)
  | clWaitForEvents
  | clGetEventProfilingInfo
  | clEnqueueCopyBuffer (src dst : Mem) (bytes : Nat)
  | clEnqueueReadBuffer (m : Mem) (bytes : Nat)
  | clReleaseMemObject (m : Mem)
  deriving DecidableEq

/-- The state the routines act on: the content of the device buffers, the allocations and
runtime calls issued so far, and the number of status-returning runtime calls made so far. -/
structure Device (K : Type) where
  mem : Mem → List K
  events : List Event
  calls : Nat

/-- How a host routine ends: it returns a value, the process is ended by `exit(code)`
(inside `OpenCLEnv::CheckForError`), or it runs into an operation whose behaviour C++ leaves
undefined (a shift by a count outside `0..31`). -/
inductive Run (α : Type) where
  | ret (a : α)
  | exit (code : Int)
  | ub

/-- Sequencing of host statements: what follows runs only when the first part returns. -/
def Run.bind {α β : Type} : Run α → (α → Run β) → Run β
  | .ret a, f => f a
  | .exit code, _ => .exit code
  | .ub, _ => .ub

/-- `OpenCLEnv::CheckForError(clErr, message)`: on a status other than `CL_SUCCESS` the
process is ended with `exit(1)`. -/
def CheckForError (clErr : Int) : Run Unit :=
  if clErr ≠ CL_SUCCESS then .exit 1 else .ret ()

/-- An allocation or release: it is recorded, no status is looked at. -/
def Device.record {α : Type} (d : Device α) (e : Event) : Device α :=
  { d with events := d.events ++ [e] }

/-- A status-returning runtime call followed by `CheckForError`: the call is recorded, its
effect on the device buffers takes place when the status is `CL_SUCCESS`, and any other
status ends the process. -/
def OpenCLEnv.checked {α : Type} (env : OpenCLEnv) (e : Event)
    (effect : (Mem → List α) → Mem → List α) (d : Device α) : Run (Device α) :=
  (CheckForError (env.clErr d.calls)).bind fun _ =>
    .ret { mem := effect d.mem, events := d.events ++ [e], calls := d.calls + 1 }

/-- `OpenCLEnv::GetKernelTime(event)`: two calls of `clGetEventProfilingInfo`, each followed
by `CheckForError`; the time itself is only printed and is not kept. -/
def GetKernelTime {α : Type} (env : OpenCLEnv) (d : Device α) : Run (Device α) :=
  (env.checked .clGetEventProfilingInfo id d).bind fun d =>
    env.checked .clGetEventProfilingInfo id d

/-- The tail common to every dispatch: `clWaitForEvents`, `CheckForError`,
`GetKernelTime`. -/
def waitAndTime {α : Type} (env : OpenCLEnv) (d : Device α) : Run (Device α) :=
  (env.checked .clWaitForEvents id d).bind fun d => GetKernelTime env d

/-! ## Kernels of `HWT_kernels.cl` -/

/-- Modelled from the spec: the hard-threshold kernel of `HWT_kernels.cl`, which is not among
the sources; on one coefficient, `in` if `|in| > thresh`, else `0`. -/
def Mat_HT_Threshold (thresh a : K) : K :=
  if |a| > thresh then a else 0

/-- The sign of a coefficient: `1`, `-1` or `0`. -/
def sgn (a : K) : K :=
  if 0 < a then 1 else if a < 0 then -1 else 0

/-- Modelled from the spec: the soft-threshold kernel of `HWT_kernels.cl`, which is not among
the sources; on one coefficient, `sign(in) * max(|in| - thresh, 0)`. -/
def Mat_ST_Threshold (thresh a : K) : K :=
  sgn a * max (|a| - thresh) 0

/-- Modelled from the spec: the work item `gid` of the threshold kernel with the given name
(`HWT_kernels.cl` is not among the sources); it rewrites cell `gid` of the output from cell
`gid` of the input, and a work item beyond the end of the coefficient buffer does nothing. -/
def thresholdWorkItem (name : String) (thresh : K) (gInBuff gOutBuff : Mem)
    (mem : Mem → List K) (gid : Nat) : Mem → List K :=
  if gid < (mem gInBuff).length then
    if name = "Mat_HT_Threshold_kernel" then
      Function.update mem gOutBuff
        ((mem gOutBuff).set gid (Mat_HT_Threshold thresh ((mem gInBuff).getD gid 0)))
    else if name = "Mat_ST_Threshold_kernel" then
      Function.update mem gOutBuff
        ((mem gOutBuff).set gid (Mat_ST_Threshold thresh ((mem gInBuff).getD gid 0)))
    else mem
  else mem

/-- Modelled from the spec: the work item `(x, y)` of `Mat_Transpose_kernel`
(`HWT_kernels.cl` is not among the sources); inside the matrix it moves the cell of row `y`,
column `x` of the `width × height` input to row `x`, column `y` of the output, and a work
item outside the matrix does nothing. -/
def transposeWorkItem (width height : Nat) (gInBuff gOutBuff : Mem)
    (mem : Mem → List K) (p : Nat × Nat) : Mem → List K :=
  if p.1 < width ∧ p.2 < height then
    Function.update mem gOutBuff
      ((mem gOutBuff).set (p.1 * height + p.2) ((mem gInBuff).getD (p.2 * width + p.1) 0))
  else mem

/-- Row `r` of a buffer holding rows of `dataLen` cells. -/
def rowOf (dataLen : Nat) (m : List K) (r : Nat) : List K :=
  (m.drop (r * dataLen)).take dataLen

/-- Rewrite each of the first `numGroups` rows of `b` from the same row of `a` and of `b`. -/
def mapRows (numGroups dataLen : Nat) (f : List K → List K → List K) (a b : List K) : List K :=
  ((List.range numGroups).map fun r => f (rowOf dataLen a r) (rowOf dataLen b r)).flatten ++
    b.drop (numGroups * dataLen)

/-- Modelled from the spec: one dispatch of `FWT_kernel` (`HWT_kernels.cl` is not among the
sources) with `numThreadsLeft * numGroups` work items: on each of the `numGroups` signals it
performs `currLevels` consecutive forward levels on the current low-pass part, the first
`2 * numThreadsLeft` cells of the running buffer, and writes the coefficients to the output
buffer.  The spec does not say where the running signal is kept between two dispatches; here
it is kept in the input buffer, as the CPU form keeps it in `pTempIn`. -/
def FWT_kernel (INV_SQRT_2 : K) (gInBuff gOutBuff : Mem) (currLevels dataLen : Nat)
    (numThreadsLeft numGroups : Nat) (mem : Mem → List K) : Mem → List K :=
  let step := fun (a b : List K) =>
    haarDecomp INV_SQRT_2 currLevels (a.take (2 * numThreadsLeft)) ++
      b.drop (2 * numThreadsLeft)
  Function.update
    (Function.update mem gOutBuff (mapRows numGroups dataLen step (mem gInBuff) (mem gOutBuff)))
    gInBuff (mapRows numGroups dataLen step (mem gInBuff) (mem gInBuff))

/-- Modelled from the spec: one dispatch of `IWT_kernel` (`HWT_kernels.cl` is not among the
sources) with one work group per signal: on each of the `numGroups` signals it performs
`currLevels` inverse levels, on the first `2 ^ currLevels` cells, in the buffer it is given. -/
def IWT_kernel (SQRT_2 : K) (gInBuff : Mem) (currLevels dataLen numGroups : Nat)
    (mem : Mem → List K) : Mem → List K :=
  let step := fun (a _ : List K) =>
    haarRecon SQRT_2 currLevels (a.take (2 ^ currLevels)) ++ a.drop (2 ^ currLevels)
  Function.update mem gInBuff (mapRows numGroups dataLen step (mem gInBuff) (mem gInBuff))

/-! ## Host routines of `CNoiseCleaner` that drive the device -/

/-- The value of `n - 1` in 32-bit unsigned arithmetic. -/
def subOne32 (n : Nat) : Nat := (n + (2 ^ 32 - 1)) % 2 ^ 32

/-- The statements `GetNumLevels(m_oclEnv.m_kernelWorkGroupSizes[kernel], maxLevelsOnDevice);
maxLevelsOnDevice++;` of `ForwardHaarTransformGPU` and `InverseHaarTransformGPU`: the value
stored by `GetNumLevels` (its returned `bool` is not looked at), plus one. -/
def maxLevelsOnDevice (env : OpenCLEnv) (kernel : KernelIndices) : Nat :=
  (GetNumLevels (env.m_kernelWorkGroupSizes kernel)).2 + 1

/-- `CNoiseCleaner::MatrixThreshGPU(gInBuff, gOutBuff, dataLen, thresh, kernelTime,
isSoftThresh)`: the kernel is chosen by `isSoftThresh`, the grid is `dataLen` rounded up to
a multiple of the group size `256`, and the routine returns `true`. -/
def MatrixThreshGPU (env : OpenCLEnv) (gInBuff gOutBuff : Mem) (dataLen : Nat) (thresh : K)
    (isSoftThresh : Bool) (d : Device K) : Run (Bool × Device K) :=
  let kernelIdx :=
    if isSoftThresh then KernelIndices.MAT_ST_THRESH_KERNEL
    else KernelIndices.MAT_HT_THRESH_KERNEL
  let localWorkItems := 256
  let globalWorkItems := (subOne32 dataLen / localWorkItems + 1) * localWorkItems
  (env.checked
    (.clEnqueueNDRangeKernel kernelIdx [gInBuff, gOutBuff] [] [globalWorkItems]
      [localWorkItems])
    (fun mem => (List.range globalWorkItems).foldl
      (thresholdWorkItem (kernelName kernelIdx) thresh gInBuff gOutBuff) mem) d).bind fun d =>
  (waitAndTime env d).bind fun d => .ret (true, d)

/-- `CNoiseCleaner::TransposeMatrixGPU(gInBuff, gOutBuff, width, height, kernelTime)`: a
two-dimensional grid of tiles of edge `TILE_SIZE`, each extent rounded up to a multiple of
the tile edge (`width` and `height` are the dimensions of a matrix, so `width - 1` and
`height - 1` are taken for positive values); the routine returns `true`. -/
def TransposeMatrixGPU (env : OpenCLEnv) (gInBuff gOutBuff : Mem) (width height : Nat)
    (d : Device K) : Run (Bool × Device K) :=
  let localWorkItems := [TILE_SIZE, TILE_SIZE]
  let globalWorkItems :=
    [((width - 1) / TILE_SIZE + 1) * TILE_SIZE, ((height - 1) / TILE_SIZE + 1) * TILE_SIZE]
  (env.checked
    (.clEnqueueNDRangeKernel .MAT_TRANSPOSE_KERNEL [gInBuff, gOutBuff] [width, height]
      globalWorkItems localWorkItems)
    (fun mem =>
      (List.product (List.range (((width - 1) / TILE_SIZE + 1) * TILE_SIZE))
        (List.range (((height - 1) / TILE_SIZE + 1) * TILE_SIZE))).foldl
        (transposeWorkItem width height gInBuff gOutBuff) mem) d).bind fun d =>
  (waitAndTime env d).bind fun d => .ret (true, d)

/-- The loop `while (numThreadsLeft > 0)` of `ForwardHaarTransformGPU`; the result holds
`numThreadsLeft` and `numLevelsLeft` at the exit of the loop.  With `currLevels = 0` the
shift `1 << (currLevels - 1)` has no defined value; for `currLevels ≤ 31` it is
`2 ^ (currLevels - 1)`, the value taken here.  The product `numThreadsLeft*numGroups` is a
32-bit product, and the dispatch covers as many signals as its global size holds rows of
`numThreadsLeft` work items. -/
def fwdGPUWhile (env : OpenCLEnv) (INV_SQRT_2 : K) (gInBuff gOutBuff gPartialBuff : Mem)
    (numGroups dataLen maxLevelsOnDevice : Nat) (numThreadsLeft numLevelsLeft : Nat)
    (d : Device K) : Run (Nat × Nat × Device K) :=
  if 0 < numThreadsLeft then
    if (if numLevelsLeft < maxLevelsOnDevice then numLevelsLeft
        else maxLevelsOnDevice) = 0 then .ub
    else
      let currLevels :=
        if numLevelsLeft < maxLevelsOnDevice then numLevelsLeft else maxLevelsOnDevice
      let localWorkItems := 1 <<< subOne32 currLevels
      let globalWorkItems := (numThreadsLeft * numGroups) % 2 ^ 32
      (env.checked
        (.clEnqueueNDRangeKernel .FWT_KERNEL_IDX [gInBuff, gOutBuff, gPartialBuff]
          [currLevels, dataLen] [globalWorkItems] [localWorkItems])
        (FWT_kernel INV_SQRT_2 gInBuff gOutBuff currLevels dataLen numThreadsLeft
          (globalWorkItems / numThreadsLeft))
        d).bind fun d =>
      (waitAndTime env d).bind fun d =>
        fwdGPUWhile env INV_SQRT_2 gInBuff gOutBuff gPartialBuff numGroups dataLen
          maxLevelsOnDevice (numThreadsLeft >>> currLevels) (numLevelsLeft - currLevels) d
  else .ret (numThreadsLeft, numLevelsLeft, d)
termination_by numThreadsLeft
decreasing_by
  rw [Nat.shiftRight_eq_div_pow]
  exact Nat.div_lt_self (by assumption) (Nat.one_lt_two_pow (by assumption))

/-- `CNoiseCleaner::ForwardHaarTransformGPU(gInBuff, gOutBuff, gPartialBuff, numGroups,
numLevels, dataLen, globalOffset, kernelTime)`; the routine returns `true`.  The offset
`globalOffset`, `0` at every call, and the time, which is only printed, are left out. -/
def ForwardHaarTransformGPU (env : OpenCLEnv) (INV_SQRT_2 : K)
    (gInBuff gOutBuff gPartialBuff : Mem) (numGroups numLevels dataLen : Nat) (d : Device K) :
    Run (Bool × Device K) :=
  let numThreadsLeft := dataLen >>> 1
  let numLevelsLeft := numLevels
  (fwdGPUWhile env INV_SQRT_2 gInBuff gOutBuff gPartialBuff numGroups dataLen
    (maxLevelsOnDevice env .FWT_KERNEL_IDX) numThreadsLeft numLevelsLeft d).bind fun r =>
      .ret (true, r.2.2)

/-- `CNoiseCleaner::InverseHaarTransformGPU(gInBuff, gOutBuff, gPartialBuff, numGroups,
numLevels, dataLen, globalOffset, kernelTime)`: one dispatch of `IWT_kernel` on `gInBuff`,
then a copy of `numGroups*dataLen` floats, a 32-bit product, from `gInBuff` to `gOutBuff`;
the routine returns `true`.  With `currLevels = 0` the shift `1 << (currLevels - 1)` has no
defined value; for `currLevels ≤ 31` it is `2 ^ (currLevels - 1)`, the value taken here.  The
offset `globalOffset`, `0` at every call, and the time, which is only printed, are left
out. -/
def InverseHaarTransformGPU (env : OpenCLEnv) (SQRT_2 : K)
    (gInBuff gOutBuff gPartialBuff : Mem) (numGroups numLevels dataLen : Nat) (d : Device K) :
    Run (Bool × Device K) :=
  let numLevelsLeft := numLevels
  let currLevels :=
    if numLevelsLeft < maxLevelsOnDevice env .IWT_KERNEL then numLevelsLeft
    else maxLevelsOnDevice env .IWT_KERNEL
  if currLevels = 0 then .ub
  else
    let localWorkItems := 1 <<< subOne32 currLevels
    let globalWorkItems := localWorkItems * numGroups
    (env.checked
      (.clEnqueueNDRangeKernel .IWT_KERNEL [gInBuff] [currLevels, dataLen] [globalWorkItems]
        [localWorkItems])
      (IWT_kernel SQRT_2 gInBuff currLevels dataLen numGroups) d).bind fun d =>
    (waitAndTime env d).bind fun d =>
    (env.checked
      (.clEnqueueCopyBuffer gInBuff gOutBuff ((numGroups * dataLen) % 2 ^ 32 * 4))
      (fun mem => Function.update mem gOutBuff
        (memcpy (mem gOutBuff) (mem gInBuff) ((numGroups * dataLen) % 2 ^ 32))) d).bind
      fun d =>
    (env.checked .clWaitForEvents id d).bind fun d => .ret (true, d)

/-! ## `CNoiseCleaner::CleanNoise` -/

/-- The conversion of a `bool` to the `int` a function returns. -/
def intOfBool : Bool → Int
  | true => 1
  | false => 0

/-- The conversion `(char)(v * 255.f)` stored in an `unsigned char` cell: the product is
truncated toward zero and kept modulo `256`.  This is the value for a product inside the range
of `int`; outside it C++ gives the conversion no defined value. -/
def toGrayLevel [FloorRing K] (v : K) : Nat :=
  ((if 0 ≤ v * 255 then ⌊v * 255⌋ else ⌈v * 255⌉) % 256).toNat

/-- `clCreateBuffer` of `cells` floats without host data: the buffer is recorded and its
cells, which the source leaves uninitialised, are taken as `0`. -/
def Device.create (d : Device K) (m : Mem) (cells : Nat) : Device K :=
  { mem := Function.update d.mem m (List.replicate cells 0)
    events := d.events ++ [.clCreateBuffer m (cells * 4)]
    calls := d.calls }

/-- `CNoiseCleaner::CleanNoise(in, out, width, height, thresh, isSoftThresh)`: the result is
the returned `int`, the content of `out` on return and the state of the device.  The two
early exits are the statements `return false;` of the source.  `numPixels = width*height`
and `gBuffSize = numPixels * sizeof(float)` are 32-bit values; a device buffer of
`gBuffSize` bytes holds `gBuffSize / 4` floats. -/
def CleanNoise [FloorRing K] (env : OpenCLEnv) (INV_SQRT_2 SQRT_2 : K) (inp out : List Nat)
    (width height : Nat) (thresh : K) (isSoftThresh : Bool) (d : Device K) :
    Run (Int × List Nat × Device K) :=
  if (GetNumLevels width).1 = false then .ret (intOfBool false, out, d)
  else if (GetNumLevels height).1 = false then .ret (intOfBool false, out, d)
  else
    let numLevelsWidth := (GetNumLevels width).2
    let numLevelsHeight := (GetNumLevels height).2
    let numPixels := (width * height) % 2 ^ 32
    let pInFloatsMatrix : List K := (List.range numPixels).map fun i => (inp.getD i 0 : K) / 255
    let gBuffSize := (numPixels * 4) % 2 ^ 32
    let d := ((((d.record (.newFloats numPixels)).create .inBuff (gBuffSize / 4)).create
      .outBuff (gBuffSize / 4)).create .partBuff width)
    (env.checked (.clEnqueueWriteBuffer .inBuff gBuffSize)
      (fun mem => Function.update mem .inBuff
        (memcpy (mem .inBuff) pInFloatsMatrix (gBuffSize / 4)))
      d).bind fun d =>
    (ForwardHaarTransformGPU env INV_SQRT_2 .inBuff .outBuff .partBuff height numLevelsWidth
      width d).bind fun r =>
    if r.1 = false then .ret (1, out, r.2)
    else
    (TransposeMatrixGPU env .outBuff .inBuff width height r.2).bind fun r =>
    if r.1 = false then .ret (1, out, r.2)
    else
    (ForwardHaarTransformGPU env INV_SQRT_2 .inBuff .outBuff .partBuff width numLevelsHeight
      height r.2).bind fun r =>
    if r.1 = false then .ret (1, out, r.2)
    else
    (MatrixThreshGPU env .outBuff .inBuff numPixels thresh isSoftThresh r.2).bind fun r =>
    if r.1 = false then .ret (1, out, r.2)
    else
    (InverseHaarTransformGPU env SQRT_2 .inBuff .outBuff .partBuff width numLevelsHeight
      height r.2).bind fun r =>
    if r.1 = false then .ret (1, out, r.2)
    else
    (TransposeMatrixGPU env .outBuff .inBuff height width r.2).bind fun r =>
    if r.1 = false then .ret (1, out, r.2)
    else
    (InverseHaarTransformGPU env SQRT_2 .inBuff .outBuff .partBuff height numLevelsWidth
      width r.2).bind fun r =>
    if r.1 = false then .ret (1, out, r.2)
    else
    (env.checked (.clEnqueueReadBuffer .outBuff gBuffSize) id r.2).bind fun d =>
    .ret (0,
      (List.range numPixels).foldl
        (fun o i => o.set i (toGrayLevel ((memcpy pInFloatsMatrix (d.mem .outBuff)
          (gBuffSize / 4)).getD i 0))) out,
      ((d.record (.clReleaseMemObject .inBuff)).record (.clReleaseMemObject .outBuff)).record
        (.clReleaseMemObject .partBuff))

/-! ## Fixtures of the self tests -/

/-- An environment in which every runtime call succeeds and every kernel has the work-group
size `256`. -/
def okEnv : OpenCLEnv :=
  { m_kernelWorkGroupSizes := fun _ => 256
    clErr := fun _ => CL_SUCCESS }

/-- A device whose input buffer holds `buf` and whose other buffers hold as many zeros. -/
def deviceWith (buf : List K) : Device K :=
  { mem := fun m => if m = Mem.inBuff then buf else List.replicate buf.length 0
    events := []
    calls := 0 }

/-- The input `tempBuff` of `CNoiseCleaner::TestMatThreshGPU`. -/
def tempBuff : List ℚ := [0, -1, 2, -3, 4]

/-- The input `pTempBuff` of `CNoiseCleaner::TestMatTransposeGPU`: the 512 × 512 matrix
filled row by row with `0, 1, 2, ...`. -/
def pTempBuff : List ℚ := (List.range (512 * 512)).map fun n : Nat => (n : ℚ)

/-! ## `OpenCLEnv::CompareFloatBuffers` (`Utils.cpp`)

The outcome of the tolerance test depends on the rounding of the `float` subtraction, so here
the values are those of IEEE 754 binary32 and the subtraction rounds. -/

/-- A value of the type `float`, IEEE 754 binary32: a finite value, given by the rational
number it stands for, an infinity with its sign, or a NaN.  The sign of a zero is not kept:
the comparison does not tell the two zeros apart. -/
inductive float where
  | finite (value : ℚ)
  | infinity (negative : Bool)
  | nan

/-- The nearest integer, a tie going to the even one. -/
def roundHalfEven (x : ℚ) : Int :=
  if x - ⌊x⌋ < 1 / 2 then ⌊x⌋
  else if 1 / 2 < x - ⌊x⌋ then ⌊x⌋ + 1
  else if ⌊x⌋ % 2 = 0 then ⌊x⌋
  else ⌊x⌋ + 1

/-- The exponent of the spacing of the binary32 values around `x`: 24 significant bits
counted from the leading bit of `x`, and never below `2 ^ (-149)`, the spacing of the
subnormal values. -/
def ulpExponent (x : ℚ) : Int :=
  max (Int.log 2 |x| - 23) (-149)

/-- The number `x` rounded to binary32 precision, to nearest and a tie to the even
significand, the rounding mode a C++ program runs in unless it changes it; the exponent is
not bounded above here, the overflow is decided in `float.sub`. -/
def roundF32 (x : ℚ) : ℚ :=
  roundHalfEven (x / 2 ^ ulpExponent x) * 2 ^ ulpExponent x

/-- The largest finite `float`, `(2 ^ 24 - 1) * 2 ^ 104`. -/
def FLT_MAX : ℚ := (2 ^ 24 - 1) * 2 ^ 104

/-- The `float` subtraction `x - y`: a NaN operand gives a NaN, as does the difference of two
infinities of one sign; the difference of two finite values is the exact difference rounded,
and an infinity when the rounded value is beyond `FLT_MAX`. -/
def float.sub : float → float → float
  | .nan, _ => .nan
  | .finite _, .nan => .nan
  | .infinity _, .nan => .nan
  | .infinity s, .infinity t => if s = t then .nan else .infinity s
  | .infinity s, .finite _ => .infinity s
  | .finite _, .infinity t => .infinity (!t)
  | .finite p, .finite q =>
    if FLT_MAX < |roundF32 (p - q)| then .infinity (decide (p - q < 0))
    else .finite (roundF32 (p - q))

/-- The function `fabs`.  Whether the call takes the `float` or converts it to `double`, the
value is the same: every `float` is a `double`. -/
def float.fabs : float → float
  | .finite q => .finite |q|
  | .infinity _ => .infinity false
  | .nan => .nan

/-- The comparison `x > y`, false when an operand is a NaN. -/
def float.gt : float → float → Bool
  | .finite p, .finite q => decide (q < p)
  | .finite _, .infinity t => t
  | .infinity s, .finite _ => !s
  | .infinity s, .infinity t => !s && t
  | .nan, _ => false
  | .finite _, .nan => false
  | .infinity _, .nan => false

/-- The value of the literal `0.001f`: the `float` nearest to `0.001`, `8589935 / 2 ^ 33`. -/
def EPSILON_f32 : ℚ := 8589935 / 8589934592

/-- The local constant `const float EPSILON = 0.001f;` of `CompareFloatBuffers`. -/
def EPSILON : float := .finite EPSILON_f32

/-- The loop of `CompareFloatBuffers` from index `i` on, with `remaining` indices left:
`if (fabs(pInBuff1[i] - pInBuff2[i]) > EPSILON) return false;`, and `true` when the loop runs
out. -/
def compareFrom (pInBuff1 pInBuff2 : List float) : Nat → Nat → Bool
  | 0, _ => true
  | remaining + 1, i =>
    if ((pInBuff1.getD i (.finite 0)).sub (pInBuff2.getD i (.finite 0))).fabs.gt EPSILON then
      false
    else compareFrom pInBuff1 pInBuff2 remaining (i + 1)

/-- `OpenCLEnv::CompareFloatBuffers(pInBuff1, pInBuff2, buffLen)`. -/
def CompareFloatBuffers (pInBuff1 pInBuff2 : List float) (buffLen : Nat) : Bool :=
  compareFrom pInBuff1 pInBuff2 buffLen 0

/-! ## The cells the CPU transforms read and write -/

/-- The three buffers of `ForwardHaarTransformCPU` and `InverseHaarTransformCPU`: the
argument `pInBuff`, the local copy `pTempIn` and the argument `pOutBuff`. -/
inductive Buffer where
  | input
  | temp
  | output
  deriving DecidableEq

/-- One access to a cell: the buffer, the index of the cell, and whether the cell is
written (otherwise it is read). -/
structure Access where
  buffer : Buffer
  index : Nat
  isWrite : Bool
  deriving DecidableEq

/-- The accesses of `memcpy(dst, src, n * sizeof(float))`, cell by cell. -/
def memcpyAccesses (dst src : Buffer) (n : Nat) : List Access :=
  ((List.range n).map fun j => [Access.mk src j false, Access.mk dst j true]).flatten

/-- The accesses of the body of the `for` loop of `ForwardHaarTransformCPU` at index `i`:
`pOutBuff[i] = (pTempIn[2*i] + pTempIn[2*i + 1]) * INV_SQRT_2;`
`pOutBuff[i+w] = (pTempIn[2*i] - pTempIn[2*i + 1]) * INV_SQRT_2;` -/
def fwdBodyAccesses (w i : Nat) : List Access :=
  [⟨.temp, 2 * i, false⟩, ⟨.temp, 2 * i + 1, false⟩, ⟨.output, i, true⟩,
   ⟨.temp, 2 * i, false⟩, ⟨.temp, 2 * i + 1, false⟩, ⟨.output, i + w, true⟩]

/-- The accesses of the loop `for (i = 0; i < w; i++)` of `ForwardHaarTransformCPU`. -/
def fwdForAccesses (w : Nat) : List Access :=
  ((List.range w).map (fwdBodyAccesses w)).flatten

/-- The accesses of the loop `while (w > 1)` of `ForwardHaarTransformCPU` started at a width
`w` that is not negative: halve `w`, run the `for` loop, copy the first `w * 2` cells of
`pOutBuff` to `pTempIn`. -/
def fwdWhileAccesses (w : Nat) : List Access :=
  if 1 < w then
    fwdForAccesses (w / 2) ++ memcpyAccesses .temp .output (w / 2 * 2) ++
      fwdWhileAccesses (w / 2)
  else []
termination_by w
decreasing_by omega

/-- The accesses of `ForwardHaarTransformCPU(pInBuff, buffLen, pOutBuff, globalOffset)` for an
`unsigned int buffLen`, `buffLen < 2 ^ 32`: the copy of `pInBuff` to `pTempIn`, then the loop
started at `int w = buffLen`.  A length of `2 ^ 31` or more gives a negative `w`, with which
the loop `while (w > 1)` does not run, as it does not with `w = 0`. -/
def ForwardHaarTransformCPUAccesses (buffLen : Nat) : List Access :=
  memcpyAccesses .temp .input buffLen ++
    fwdWhileAccesses (if buffLen < 2 ^ 31 then buffLen else 0)

/-- The accesses of the body of the `for` loop of `InverseHaarTransformCPU` at index `i`:
`pOutBuff[2*i] = (pTempIn[i] + pTempIn[i+w]) * SQRT_2 * 0.5f;`
`pOutBuff[2*i + 1] = (pTempIn[i] * SQRT_2) - pOutBuff[2*i];` -/
def invBodyAccesses (w i : Nat) : List Access :=
  [⟨.temp, i, false⟩, ⟨.temp, i + w, false⟩, ⟨.output, 2 * i, true⟩,
   ⟨.temp, i, false⟩, ⟨.output, 2 * i, false⟩, ⟨.output, 2 * i + 1, true⟩]

/-- The accesses of the loop `for (i = 0; i < w; i++)` of `InverseHaarTransformCPU`. -/
def invForAccesses (w : Nat) : List Access :=
  ((List.range w).map (invBodyAccesses w)).flatten

/-- The accesses of the loop `while (w < buffLen)` of `InverseHaarTransformCPU`: run the `for`
loop, copy the first `w * 2` cells of `pOutBuff` to `pTempIn`, double `w`. -/
def invWhileAccesses (buffLen : Nat) (w : Nat) (hw : 0 < w) : List Access :=
  if w < buffLen then
    invForAccesses w ++ memcpyAccesses .temp .output (w * 2) ++
      invWhileAccesses buffLen (w * 2) (by omega)
  else []
termination_by buffLen - w
decreasing_by omega

/-- The accesses of `InverseHaarTransformCPU(pInBuff, buffLen, pOutBuff, globalOffset)`: the
copy of `pInBuff` to `pTempIn`, then the loop started at `w = 1`. -/
def InverseHaarTransformCPUAccesses (buffLen : Nat) : List Access :=
  memcpyAccesses .temp .input buffLen ++ invWhileAccesses buffLen 1 Nat.one_pos

/-! ## `OpenCLEnv::ReadFileFloat` (`Utils.cpp`) -/

/-- A text file of floating-point values separated by whitespace: the values in file order,
and whether whitespace follows the last value (or is all there is, when there is no
value). -/
structure FloatFile (α : Type) where
  values : List α
  trailingWhitespace : Bool

/-- The state of a `std::fstream` opened for reading on such a file: the values not yet
read, whether whitespace follows the last of them, and the state bits `eofbit` and
`failbit`. -/
structure fstream (α : Type) where
  rest : List α
  trailingWhitespace : Bool
  eofbit : Bool
  failbit : Bool

/-- `fh.good()`: no state bit is set. -/
def fstream.good {α : Type} (fh : fstream α) : Bool :=
  !fh.eofbit && !fh.failbit

/-- `fh >> token` for a `float token` (formatted input of the standard library); the result
is the stream and the content of `token` afterwards.  On a stream that is not good the
extraction fails.  Otherwise leading whitespace is skipped; at the end of the file `eofbit`
and `failbit` are set and no value is stored; else the characters of the next value are read,
and `eofbit` is set when the reading runs into the end of the file, that is when the value is
the last one and no whitespace follows it. -/
def fstream.extract {α : Type} (fh : fstream α) (token : α) : fstream α × α :=
  if fh.good = false then ({ fh with failbit := true }, token)
  else
    match fh.rest with
    | [] => ({ fh with eofbit := true, failbit := true }, token)
    | v :: rest =>
      ({ rest := rest
         trailingWhitespace := fh.trailingWhitespace
         eofbit := rest.isEmpty && !fh.trailingWhitespace
         failbit := false }, v)

/-- The loop `while (fh.good()) { fh >> token; dataRead.push_back(token); }` of
`ReadFileFloat`; the result is `dataRead` at the exit of the loop. -/
def readWhile {α : Type} (fh : fstream α) (token : α) (dataRead : List α) : List α :=
  if fh.good = true then
    readWhile (fh.extract token).1 (fh.extract token).2 (dataRead ++ [(fh.extract token).2])
  else dataRead
termination_by fh.rest.length + (if fh.good = true then 1 else 0)
decreasing_by
  rename_i h
  rw [if_pos h, fstream.extract, if_neg (by rw [h]; exact Bool.noConfusion)]
  cases fh.rest with
  | nil => simp [fstream.good]
  | cons v rest =>
    simp only [List.length_cons]
    split_ifs <;> omega

/-- `OpenCLEnv::ReadFileFloat(filename, data, len)` with the three pointers not null: `file`
is the file of that name, if it can be opened for reading, `data` the array `*data` points to
on entry (`none` for `NULL`), `len` the content of `*len` on entry and `token` the content of
the local `token`, which the source does not initialise.  The result is the returned `bool`,
the array `*data` points to on return and the content of `*len` on return; `*len` is a 32-bit
unsigned value, and cells of the new array that `memcpy` does not reach are taken as `0`. -/
def ReadFileFloat (file : Option (FloatFile K)) (data : Option (List K))
    (len : Nat) (token : K) : Bool × Option (List K) × Nat :=
  match file with
  | none => (false, data, len)
  | some f =>
    let fh : fstream K :=
      { rest := f.values, trailingWhitespace := f.trailingWhitespace
        eofbit := false, failbit := false }
    let dataRead := (readWhile fh token []).dropLast
    match data with
    | some a => (false, some a, len)
    | none =>
      (true,
        some (memcpy (List.replicate dataRead.length 0) dataRead (dataRead.length % 2 ^ 32)),
        dataRead.length % 2 ^ 32)

/-! ## Dispatch grids -/

/-- The number `g` is the smallest multiple of `t` that is at least `n`. -/
def IsRoundedUp (t n g : Nat) : Prop :=
  t ∣ g ∧ n ≤ g ∧ ∀ m, t ∣ m → n ≤ m → g ≤ m

/-! ## Reading the record of a run -/

/-- The argument `currLevels` of a dispatch of `FWT_kernel`; nothing for any other event. -/
def fwdLevelOf : Event → Option Nat
  | .clEnqueueNDRangeKernel .FWT_KERNEL_IDX _ (currLevels :: _) _ _ => some currLevels
  | _ => none

/-- The values of `currLevels` of the dispatches of `FWT_kernel` in a record, in the order
of the dispatches. -/
def fwdDispatchLevels (events : List Event) : List Nat :=
  events.filterMap fwdLevelOf

/-- Whether an event is a dispatch of `FWT_kernel`. -/
def isFwdDispatch : Event → Bool
  | .clEnqueueNDRangeKernel .FWT_KERNEL_IDX _ _ _ _ => true
  | _ => false

/-- The dispatches of `FWT_kernel` in a record, in the order they were issued. -/
def fwdDispatches (events : List Event) : List Event :=
  events.filter isFwdDispatch

/-- The values of `(numThreadsLeft, numLevelsLeft)` at the start of each iteration of the loop
`while (numThreadsLeft > 0)` of `ForwardHaarTransformGPU`, which passes from
`(numThreadsLeft, numLevelsLeft)` to `(numThreadsLeft >> currLevels,
numLevelsLeft - currLevels)`; an iteration with `currLevels = 0` is the last one listed. -/
def fwdIterations (maxLevelsOnDevice : Nat) (numThreadsLeft numLevelsLeft : Nat) :
    List (Nat × Nat) :=
  if 0 < numThreadsLeft then
    if (if numLevelsLeft < maxLevelsOnDevice then numLevelsLeft
        else maxLevelsOnDevice) = 0 then [(numThreadsLeft, numLevelsLeft)]
    else
      let currLevels :=
        if numLevelsLeft < maxLevelsOnDevice then numLevelsLeft else maxLevelsOnDevice
      (numThreadsLeft, numLevelsLeft) ::
        fwdIterations maxLevelsOnDevice (numThreadsLeft >>> currLevels)
          (numLevelsLeft - currLevels)
  else []
termination_by numThreadsLeft
decreasing_by
  rw [Nat.shiftRight_eq_div_pow]
  exact Nat.div_lt_self (by assumption) (Nat.one_lt_two_pow (by assumption))

/-- A stage of the pipeline as the specification lists it: the kind of the stage, the buffer
it reads, the buffer it writes, and its parameters. -/
inductive Stage where
  | forward (gInBuff gOutBuff : Mem) (numGroups numLevels dataLen : Nat)
  | transpose (gInBuff gOutBuff : Mem) (width height : Nat)
  | threshold (gInBuff gOutBuff : Mem) (dataLen : Nat)
  | inverse (gInBuff gOutBuff : Mem) (numGroups numLevels dataLen : Nat)
  deriving DecidableEq

/-- The buffer a stage reads. -/
def Stage.reads : Stage → Mem
  | .forward gInBuff _ _ _ _ => gInBuff
  | .transpose gInBuff _ _ _ => gInBuff
  | .threshold gInBuff _ _ => gInBuff
  | .inverse gInBuff _ _ _ _ => gInBuff

/-- The buffer a stage writes. -/
def Stage.writes : Stage → Mem
  | .forward _ gOutBuff _ _ _ => gOutBuff
  | .transpose _ gOutBuff _ _ => gOutBuff
  | .threshold _ gOutBuff _ => gOutBuff
  | .inverse _ gOutBuff _ _ _ => gOutBuff

/-- The host routine that carries out a stage, called with the parameters of the stage. -/
def Stage.run (env : OpenCLEnv) (INV_SQRT_2 SQRT_2 thresh : K) (isSoftThresh : Bool) :
    Stage → Device K → Run (Bool × Device K)
  | .forward gInBuff gOutBuff numGroups numLevels dataLen, d =>
    ForwardHaarTransformGPU env INV_SQRT_2 gInBuff gOutBuff .partBuff numGroups numLevels
      dataLen d
  | .transpose gInBuff gOutBuff width height, d =>
    TransposeMatrixGPU env gInBuff gOutBuff width height d
  | .threshold gInBuff gOutBuff dataLen, d =>
    MatrixThreshGPU env gInBuff gOutBuff dataLen thresh isSoftThresh d
  | .inverse gInBuff gOutBuff numGroups numLevels dataLen, d =>
    InverseHaarTransformGPU env SQRT_2 gInBuff gOutBuff .partBuff numGroups numLevels dataLen d

/-- Stages carried out one after the other; a stage that returns `false` ends the sequence
with `false`. -/
def runStages (env : OpenCLEnv) (INV_SQRT_2 SQRT_2 thresh : K) (isSoftThresh : Bool) :
    List Stage → Device K → Run (Bool × Device K)
  | [], d => .ret (true, d)
  | s :: rest, d =>
    (s.run env INV_SQRT_2 SQRT_2 thresh isSoftThresh d).bind fun r =>
      if r.1 = false then .ret (false, r.2)
      else runStages env INV_SQRT_2 SQRT_2 thresh isSoftThresh rest r.2

/-- The stages of the denoising pipeline in the order and with the parameters the
specification gives for a `width × height` image. -/
def specStages (width height : Nat) : List Stage :=
  [.forward .inBuff .outBuff height (Nat.log 2 width) width,
   .transpose .outBuff .inBuff width height,
   .forward .inBuff .outBuff width (Nat.log 2 height) height,
   .threshold .outBuff .inBuff (width * height),
   .inverse .inBuff .outBuff width (Nat.log 2 height) height,
   .transpose .outBuff .inBuff height width,
   .inverse .inBuff .outBuff height (Nat.log 2 width) width]

/-- Each stage of the list reads the buffer the stage before it wrote. -/
def chained : List Stage → Bool
  | s :: t :: rest => decide (t.reads = s.writes) && chained (t :: rest)
  | _ => true

/-! ## Failing runtime calls -/

/-- The runtime calls number `c`, ..., `c + T - 1` decide how `run` ends: when all of them
succeed it returns a value with the property `post`, and when one of them fails the process
is ended with `exit(1)`. -/
def Window (env : OpenCLEnv) {X : Type} (post : X → Prop) (T c : Nat) (run : Run X) : Prop :=
  ((∀ m, c ≤ m → m < c + T → env.clErr m = CL_SUCCESS) → ∃ x, run = .ret x ∧ post x) ∧
  ((∃ m, c ≤ m ∧ m < c + T ∧ env.clErr m ≠ CL_SUCCESS) → run = .exit 1)

/-- The number of status-returning runtime calls of a run of `CleanNoise` on a
`2 ^ a × 2 ^ b` image in which every call succeeds: the upload, four calls for each dispatch
of the two forward transforms, four for each transpose and for the threshold, six for each
inverse transform, and the download. -/
def cleanNoiseCalls (env : OpenCLEnv) (a b : Nat) : Nat :=
  1 + 4 * ((a + maxLevelsOnDevice env .FWT_KERNEL_IDX - 1) / maxLevelsOnDevice env .FWT_KERNEL_IDX)
    + 4 + 4 * ((b + maxLevelsOnDevice env .FWT_KERNEL_IDX - 1) /
      maxLevelsOnDevice env .FWT_KERNEL_IDX) + 4 + 6 + 4 + 6 + 1

/-- An environment in which the runtime call number `n` fails with the status `-5`
(`CL_OUT_OF_RESOURCES`) and every other call succeeds. -/
def failingEnv (n : Nat) : OpenCLEnv :=
  { m_kernelWorkGroupSizes := fun _ => 256
    clErr := fun m => if m = n then -5 else CL_SUCCESS }

/-! ## Further fixtures -/

/-- An environment in which every runtime call succeeds and every kernel has the work-group
size `G`. -/
def envWith (G : Nat) : OpenCLEnv :=
  { m_kernelWorkGroupSizes := fun _ => G
    clErr := fun _ => CL_SUCCESS }

/-! ## Buffers -/

theorem getD_set_eq (l : List K) (i j : Nat) (a : K) :
    (l.set i a).getD j 0 = if i = j ∧ i < l.length then a else l.getD j 0 := by
  simp only [List.getD_eq_getElem?_getD, List.getElem?_set]
  by_cases h : i = j
  · subst h
    by_cases h2 : i < l.length
    · simp [h2]
    · simp [h2, List.getElem?_eq_none (Nat.le_of_not_lt h2)]
  · simp [h]

theorem ext_getD {l₁ l₂ : List K} (hl : l₁.length = l₂.length)
    (h : ∀ j, j < l₁.length → l₁.getD j 0 = l₂.getD j 0) : l₁ = l₂ := by
  apply List.ext_getElem hl
  intro n h1 h2
  have := h n h1
  simpa [List.getD_eq_getElem?_getD, List.getElem?_eq_getElem h1,
    List.getElem?_eq_getElem h2] using this

theorem getD_take_of_lt (l : List K) (n j : Nat) (h : j < n) :
    (l.take n).getD j 0 = l.getD j 0 := by
  simp only [List.getD_eq_getElem?_getD, List.getElem?_take, h, if_true]

theorem getD_append_left (l₁ l₂ : List K) (j : Nat) (h : j < l₁.length) :
    (l₁ ++ l₂).getD j 0 = l₁.getD j 0 := by
  simp only [List.getD_eq_getElem?_getD, List.getElem?_append_left h]

theorem getD_append_right (l₁ l₂ : List K) (j : Nat) (h : l₁.length ≤ j) :
    (l₁ ++ l₂).getD j 0 = l₂.getD (j - l₁.length) 0 := by
  simp only [List.getD_eq_getElem?_getD, List.getElem?_append_right h]

theorem getD_drop_add (l : List K) (n j : Nat) :
    (l.drop n).getD j 0 = l.getD (n + j) 0 := by
  simp only [List.getD_eq_getElem?_getD, List.getElem?_drop]

theorem getD_map_range (f : Nat → K) (n j : Nat) (h : j < n) :
    ((List.range n).map f).getD j 0 = f j := by
  simp [List.getD_eq_getElem?_getD, List.getElem?_map, List.getElem?_range h]

theorem getD_of_length_le (l : List K) (i : Nat) (h : l.length ≤ i) : l.getD i 0 = 0 := by
  rw [List.getD_eq_getElem?_getD, List.getElem?_eq_none h]
  rfl

/-! ## `GetNumLevels` -/

theorem GetNumLevels_eq (N : Nat) (h1 : 1 ≤ N) (h2 : N < 2 ^ 32) :
    GetNumLevels N = (decide (2 ^ Nat.log 2 N = N), Nat.log 2 N) := by
  have hle : 2 ^ Nat.log 2 N ≤ N := Nat.pow_log_le_self 2 (by omega)
  have hlt : 2 ^ Nat.log 2 N < 2 ^ 32 := lt_of_le_of_lt hle h2
  simp only [GetNumLevels, logQuotient, Nat.one_shiftLeft, Nat.mod_eq_of_lt hlt]

theorem GetNumLevels_iff (N : Nat) (h1 : 1 ≤ N) (h2 : N < 2 ^ 32) :
    (GetNumLevels N).1 = true ↔ ∃ k, N = 2 ^ k := by
  rw [GetNumLevels_eq N h1 h2]
  simp only [decide_eq_true_eq]
  constructor
  · intro h
    exact ⟨_, h.symm⟩
  · rintro ⟨k, rfl⟩
    rw [Nat.log_pow (by norm_num)]

/-- C4: for a 32-bit length `N ≥ 1`, `GetNumLevels` returns true exactly for the powers of
two, and then `2 ^ numLevels = N`; `256` gives true with 8 levels, `200` gives false. -/
theorem GetNumLevels_spec (N : Nat) (h1 : 1 ≤ N) (h2 : N < 2 ^ 32) :
    ((GetNumLevels N).1 = true ↔ ∃ k, N = 2 ^ k) ∧
    ((GetNumLevels N).1 = true → 2 ^ (GetNumLevels N).2 = N) ∧
    GetNumLevels 256 = (true, 8) ∧ (GetNumLevels 200).1 = false := by
  refine ⟨GetNumLevels_iff N h1 h2, ?_, ?_, ?_⟩
  · rw [GetNumLevels_eq N h1 h2]
    simp only [decide_eq_true_eq]
    exact fun h => h
  · rw [GetNumLevels_eq 256 (by norm_num) (by norm_num)]
    have : Nat.log 2 256 = 8 := by
      rw [show (256 : Nat) = 2 ^ 8 by norm_num, Nat.log_pow (by norm_num)]
    simp [this]
  · rw [GetNumLevels_eq 200 (by norm_num) (by norm_num)]
    have : Nat.log 2 200 = 7 := by
      rw [Nat.log_eq_iff (by norm_num)]
      norm_num
    simp [this]

theorem GetNumLevels_spec_witness :
    1 ≤ 256 ∧ 256 < 2 ^ 32 ∧ ((GetNumLevels 256).1 = true ↔ ∃ k, 256 = 2 ^ k) ∧
    ((GetNumLevels 256).1 = true → 2 ^ (GetNumLevels 256).2 = 256) ∧
    GetNumLevels 256 = (true, 8) ∧ (GetNumLevels 200).1 = false :=
  ⟨by decide, by decide, GetNumLevels_spec 256 (by decide) (by decide)⟩

/-! ## The forward transform -/

theorem fwdBody_length (c : K) (t : List K) (w : Nat) (out : List K) (i : Nat) :
    (fwdBody c t w out i).length = out.length := by
  simp [fwdBody]

theorem fwdPartial_length (c : K) (t : List K) (w : Nat) (out : List K) (n : Nat) :
    ((List.range n).foldl (fwdBody c t w) out).length = out.length := by
  induction n with
  | zero => simp
  | succ n ih => simp [List.range_succ, List.foldl_append, fwdBody_length, ih]

theorem fwdPartial_getD (c : K) (t : List K) (w : Nat) (out : List K) (n : Nat)
    (hn : n ≤ w) (hout : 2 * w ≤ out.length) (j : Nat) :
    ((List.range n).foldl (fwdBody c t w) out).getD j 0 =
      if j < n then (t.getD (2 * j) 0 + t.getD (2 * j + 1) 0) * c
      else if w ≤ j ∧ j < w + n then
        (t.getD (2 * (j - w)) 0 - t.getD (2 * (j - w) + 1) 0) * c
      else out.getD j 0 := by
  induction n with
  | zero =>
    rw [List.range_zero, List.foldl_nil, if_neg (by omega), if_neg (by omega)]
  | succ n ih =>
    have ih := ih (by omega)
    rw [List.range_succ, List.foldl_append, List.foldl_cons, List.foldl_nil, fwdBody,
      getD_set_eq, getD_set_eq, List.length_set, fwdPartial_length, ih]
    by_cases h1 : n + w = j
    · have e : j - w = n := by omega
      rw [if_pos ⟨h1, by omega⟩, if_neg (by omega), if_pos ⟨by omega, by omega⟩, e]
    · rw [if_neg (fun h => h1 h.1)]
      by_cases h2 : n = j
      · subst h2
        rw [if_pos ⟨rfl, by omega⟩, if_pos (by omega)]
      · rw [if_neg (fun h => h2 h.1)]
        split_ifs <;> first | rfl | (exfalso; omega)

theorem haarLow_length (c : K) (x : List K) : (haarLow c x).length = x.length / 2 := by
  simp [haarLow]

theorem haarHigh_length (c : K) (x : List K) : (haarHigh c x).length = x.length / 2 := by
  simp [haarHigh]

theorem haarLow_getD (c : K) (x : List K) (i : Nat) (h : i < x.length / 2) :
    (haarLow c x).getD i 0 = (x.getD (2 * i) 0 + x.getD (2 * i + 1) 0) * c := by
  rw [haarLow, getD_map_range _ _ _ h]

theorem haarHigh_getD (c : K) (x : List K) (i : Nat) (h : i < x.length / 2) :
    (haarHigh c x).getD i 0 = (x.getD (2 * i) 0 - x.getD (2 * i + 1) 0) * c := by
  rw [haarHigh, getD_map_range _ _ _ h]

theorem take_length_half {α : Type} (t : List α) (w : Nat) (ht : 2 * w ≤ t.length) :
    (t.take (2 * w)).length / 2 = w := by
  rw [List.length_take, Nat.min_eq_left ht]
  omega

theorem fwdFor_eq (c : K) (t : List K) (w : Nat) (out : List K)
    (ht : 2 * w ≤ t.length) (hout : 2 * w ≤ out.length) :
    fwdFor c t w out =
      haarLow c (t.take (2 * w)) ++ (haarHigh c (t.take (2 * w)) ++ out.drop (2 * w)) := by
  have hl := take_length_half t w ht
  have hlow : (haarLow c (t.take (2 * w))).length = w := by rw [haarLow_length, hl]
  have hhigh : (haarHigh c (t.take (2 * w))).length = w := by rw [haarHigh_length, hl]
  apply ext_getD
  · rw [fwdFor, fwdPartial_length, List.length_append, List.length_append, hlow, hhigh,
      List.length_drop]
    omega
  · intro j _
    rw [fwdFor, fwdPartial_getD c t w out w le_rfl hout j]
    by_cases h1 : j < w
    · rw [if_pos h1, getD_append_left _ _ _ (by rw [hlow]; exact h1), haarLow, hl,
        getD_map_range _ _ _ h1, getD_take_of_lt _ _ _ (by omega),
        getD_take_of_lt _ _ _ (by omega)]
    · rw [if_neg h1, getD_append_right _ _ _ (by rw [hlow]; omega), hlow]
      by_cases h2 : j < 2 * w
      · rw [if_pos ⟨by omega, by omega⟩, getD_append_left _ _ _ (by rw [hhigh]; omega),
          haarHigh, hl, getD_map_range _ _ _ (by omega), getD_take_of_lt _ _ _ (by omega),
          getD_take_of_lt _ _ _ (by omega)]
      · rw [if_neg (by omega), getD_append_right _ _ _ (by rw [hhigh]; omega), hhigh,
          getD_drop_add]
        congr 1
        omega

theorem fwdWhile_one (c : K) (t out : List K) : fwdWhile c 1 t out = out := by
  rw [fwdWhile]
  simp

theorem fwdWhile_step (c : K) (l : Nat)
    (ih : ∀ t out : List K, 2 ^ l ≤ t.length → 2 ^ l ≤ out.length →
      t.take (2 ^ l) = out.take (2 ^ l) →
      fwdWhile c (2 ^ l) t out = haarDecomp c l (t.take (2 ^ l)) ++ out.drop (2 ^ l))
    (t out : List K) (ht : 2 ^ (l + 1) ≤ t.length) (hout : 2 ^ (l + 1) ≤ out.length) :
    fwdWhile c (2 ^ (l + 1)) t out =
      haarDecomp c (l + 1) (t.take (2 ^ (l + 1))) ++ out.drop (2 ^ (l + 1)) := by
  have hp : 1 < 2 ^ (l + 1) := Nat.one_lt_two_pow (by omega)
  have hd : 2 ^ (l + 1) / 2 = 2 ^ l := by rw [pow_succ]; omega
  have hm : 2 ^ l * 2 = 2 * 2 ^ l := by omega
  have h2 : 2 ^ (l + 1) = 2 * 2 ^ l := by rw [pow_succ]; omega
  rw [h2] at ht hout
  have hl := take_length_half t (2 ^ l) ht
  have hlow : (haarLow c (t.take (2 * 2 ^ l))).length = 2 ^ l := by rw [haarLow_length, hl]
  have hfor := fwdFor_eq c t (2 ^ l) out ht hout
  rw [fwdWhile, if_pos hp, hd, hm, hfor, ih]
  · rw [haarDecomp, ← h2, memcpy]
    have e1 : List.take (2 ^ l) (List.take (2 ^ (l + 1))
        (haarLow c (List.take (2 ^ (l + 1)) t) ++
          (haarHigh c (List.take (2 ^ (l + 1)) t) ++ List.drop (2 ^ (l + 1)) out)) ++
        List.drop (2 ^ (l + 1)) t) = haarLow c (List.take (2 ^ (l + 1)) t) := by
      rw [List.take_append_of_le_length, List.take_take, Nat.min_eq_left (by omega),
        List.take_left']
      · rw [h2]; exact hlow
      · rw [List.length_take, List.length_append, h2, hlow]
        omega
    rw [e1, List.drop_left', List.append_assoc]
    rw [h2]; exact hlow
  · rw [memcpy, List.length_append, List.length_take, List.length_drop, List.length_append,
      hlow]
    omega
  · rw [List.length_append, hlow]
    omega
  · rw [memcpy, List.take_append_of_le_length, List.take_take, Nat.min_eq_left (by omega)]
    rw [List.length_take, List.length_append, hlow]
    omega

theorem fwdWhile_pow (c : K) (l : Nat) : ∀ t out : List K, 2 ^ l ≤ t.length →
    2 ^ l ≤ out.length → t.take (2 ^ l) = out.take (2 ^ l) →
    fwdWhile c (2 ^ l) t out = haarDecomp c l (t.take (2 ^ l)) ++ out.drop (2 ^ l) := by
  induction l with
  | zero =>
    intro t out _ _ h
    rw [pow_zero, fwdWhile_one, haarDecomp]
    rw [pow_zero] at h
    rw [h, List.take_append_drop]
  | succ l ih =>
    intro t out ht hout _
    exact fwdWhile_step c l ih t out ht hout

theorem memcpy_fresh (x : List K) : memcpy (List.replicate x.length 0) x x.length = x := by
  simp [memcpy]

theorem ForwardHaarTransformCPU_eq (c : K) (L : Nat) (x out : List K) (hL : 1 ≤ L)
    (hx : x.length = 2 ^ L) (hout : out.length = 2 ^ L) :
    ForwardHaarTransformCPU c x (2 ^ L) out = haarDecomp c L x := by
  obtain ⟨l, rfl⟩ : ∃ l, L = l + 1 := ⟨L - 1, by omega⟩
  rw [ForwardHaarTransformCPU, ← hx, memcpy_fresh, hx,
    fwdWhile_step c l (fwdWhile_pow c l) x out (by omega) (by omega), ← hx, List.take_length,
    hx, ← hout, List.drop_length, List.append_nil]

theorem fwdPartial_frame (c : K) (t : List K) (w : Nat) (out : List K) (n : Nat)
    (hn : n ≤ w) (j : Nat) (hj : 2 * w ≤ j) :
    ((List.range n).foldl (fwdBody c t w) out).getD j 0 = out.getD j 0 := by
  induction n with
  | zero => rfl
  | succ n ih =>
    rw [List.range_succ, List.foldl_append, List.foldl_cons, List.foldl_nil, fwdBody,
      getD_set_eq, getD_set_eq, if_neg (by omega), if_neg (by omega), ih (by omega)]

theorem fwdWhile_frame (c : K) (w : Nat) : ∀ (t out : List K) (j : Nat), w ≤ j →
    (fwdWhile c w t out).getD j 0 = out.getD j 0 := by
  induction w using Nat.strong_induction_on with
  | _ w ih =>
    intro t out j hj
    rw [fwdWhile]
    by_cases h : 1 < w
    · rw [if_pos h, ih (w / 2) (by omega) _ _ j (by omega), fwdFor,
        fwdPartial_frame c t (w / 2) out (w / 2) le_rfl j (by omega)]
    · rw [if_neg h]

theorem haarDecomp_length (c : K) (L : Nat) : ∀ x : List K, x.length = 2 ^ L →
    (haarDecomp c L x).length = 2 ^ L := by
  induction L with
  | zero => intro x hx; exact hx
  | succ L ih =>
    intro x hx
    have h2 : x.length / 2 = 2 ^ L := by rw [hx, pow_succ]; omega
    rw [haarDecomp, List.length_append, ih _ (by rw [haarLow_length, h2]), haarHigh_length, h2,
      pow_succ]
    omega

/-- C5: on a signal of length `N = 2 ^ L`, `L ≥ 1`, `ForwardHaarTransformCPU` returns the
`L`-level recursive Haar decomposition: positions `[N/2, N)` hold the details
`(x[2i] - x[2i+1]) * INV_SQRT_2`, positions `[0, N/2)` hold the forward transform of the
low-pass signal `(x[2i] + x[2i+1]) * INV_SQRT_2` (that signal itself when its length is 1);
and the loop started at a width `w ≤ N` leaves every position `j ≥ w` of `pOutBuff` as it was.
`L ≤ 30` keeps `N` inside the range of `int w = buffLen`. -/
theorem ForwardHaarTransformCPU_decomp (INV_SQRT_2 : K) (L : Nat) (x out : List K)
    (hL : 1 ≤ L) (hL30 : L ≤ 30) (hx : x.length = 2 ^ L) (hout : out.length = 2 ^ L) :
    ForwardHaarTransformCPU INV_SQRT_2 x (2 ^ L) out = haarDecomp INV_SQRT_2 L x ∧
    (∀ i, i < 2 ^ (L - 1) →
      (ForwardHaarTransformCPU INV_SQRT_2 x (2 ^ L) out).getD (2 ^ (L - 1) + i) 0 =
        (x.getD (2 * i) 0 - x.getD (2 * i + 1) 0) * INV_SQRT_2) ∧
    (L = 1 → (ForwardHaarTransformCPU INV_SQRT_2 x (2 ^ L) out).take 1 =
      [(x.getD 0 0 + x.getD 1 0) * INV_SQRT_2]) ∧
    (2 ≤ L → ∀ out' : List K, out'.length = 2 ^ (L - 1) →
      (ForwardHaarTransformCPU INV_SQRT_2 x (2 ^ L) out).take (2 ^ (L - 1)) =
        ForwardHaarTransformCPU INV_SQRT_2 (haarLow INV_SQRT_2 x) (2 ^ (L - 1)) out') ∧
    (∀ (w : Nat) (t o : List K) (j : Nat), w ≤ 2 ^ L → w ≤ j →
      (fwdWhile INV_SQRT_2 w t o).getD j 0 = o.getD j 0) := by
  obtain ⟨l, rfl⟩ : ∃ l, L = l + 1 := ⟨L - 1, by omega⟩
  have hp : 2 ^ (l + 1) = 2 ^ l * 2 := pow_succ 2 l
  have h2 : x.length / 2 = 2 ^ l := by omega
  have hlow : (haarLow INV_SQRT_2 x).length = 2 ^ l := by rw [haarLow_length, h2]
  have hdl : (haarDecomp INV_SQRT_2 l (haarLow INV_SQRT_2 x)).length = 2 ^ l :=
    haarDecomp_length INV_SQRT_2 l _ hlow
  have e := ForwardHaarTransformCPU_eq INV_SQRT_2 (l + 1) x out hL hx hout
  rw [e, Nat.add_sub_cancel]
  refine ⟨rfl, ?_, ?_, ?_, fun w t o j _ hj => fwdWhile_frame INV_SQRT_2 w t o j hj⟩
  · intro i hi
    rw [haarDecomp, getD_append_right _ _ _ (by rw [hdl]; omega), hdl, Nat.add_sub_cancel_left,
      haarHigh_getD _ _ _ (by omega)]
  · intro h1
    have hl0 : l = 0 := by omega
    subst hl0
    rw [haarDecomp, haarDecomp, List.take_left' (by rw [hlow]; rfl)]
    apply ext_getD
    · rw [hlow]
      rfl
    · intro j hj
      rw [hlow] at hj
      have hj0 : j = 0 := by
        rw [pow_zero] at hj
        omega
      subst hj0
      rw [haarLow_getD _ _ _ (by omega)]
      rfl
  · intro hl out' hout'
    rw [haarDecomp, List.take_left' hdl,
      ForwardHaarTransformCPU_eq INV_SQRT_2 l _ out' (by omega) hlow hout']

theorem ForwardHaarTransformCPU_decomp_witness :
    ForwardHaarTransformCPU (1 / 2 : ℚ) [1, 2, 3, 4] (2 ^ 2) [0, 0, 0, 0] =
      haarDecomp (1 / 2) 2 [1, 2, 3, 4] ∧
    (∀ out' : List ℚ, out'.length = 2 ^ (2 - 1) →
      (ForwardHaarTransformCPU (1 / 2 : ℚ) [1, 2, 3, 4] (2 ^ 2) [0, 0, 0, 0]).take (2 ^ (2 - 1)) =
        ForwardHaarTransformCPU (1 / 2) (haarLow (1 / 2) [1, 2, 3, 4]) (2 ^ (2 - 1)) out') := by
  obtain ⟨h1, _, _, h4, _⟩ := ForwardHaarTransformCPU_decomp (1 / 2 : ℚ) 2 [1, 2, 3, 4]
    [0, 0, 0, 0] (by decide) (by decide) rfl rfl
  exact ⟨h1, h4 (le_refl 2)⟩

/-! ## Norm preservation -/

theorem invBody_length (s : K) (t : List K) (w : Nat) (out : List K) (i : Nat) :
    (invBody s t w out i).length = out.length := by
  simp [invBody]

theorem invPartial_length (s : K) (t : List K) (w : Nat) (out : List K) (n : Nat) :
    ((List.range n).foldl (invBody s t w) out).length = out.length := by
  induction n with
  | zero => simp
  | succ n ih => simp [List.range_succ, List.foldl_append, invBody_length, ih]

theorem invPartial_getD (s : K) (t : List K) (w : Nat) (out : List K) (n : Nat)
    (hn : n ≤ w) (hout : 2 * w ≤ out.length) (j : Nat) :
    ((List.range n).foldl (invBody s t w) out).getD j 0 =
      if j < 2 * n then
        (if j % 2 = 0 then (t.getD (j / 2) 0 + t.getD (j / 2 + w) 0) * s * (1 / 2)
         else t.getD (j / 2) 0 * s - (t.getD (j / 2) 0 + t.getD (j / 2 + w) 0) * s * (1 / 2))
      else out.getD j 0 := by
  induction n with
  | zero =>
    rw [List.range_zero, List.foldl_nil, if_neg (by omega)]
  | succ n ih =>
    have ih := ih (by omega)
    rw [List.range_succ, List.foldl_append, List.foldl_cons, List.foldl_nil, invBody,
      getD_set_eq, getD_set_eq, getD_set_eq, List.length_set, invPartial_length, ih]
    by_cases h1 : 2 * n + 1 = j
    · have e : j / 2 = n := by omega
      rw [if_pos ⟨h1, by omega⟩, if_pos ⟨rfl, by omega⟩, if_pos (by omega), if_neg (by omega), e]
    · rw [if_neg (fun h => h1 h.1)]
      by_cases h2 : 2 * n = j
      · have e : j / 2 = n := by omega
        rw [if_pos ⟨h2, by omega⟩, if_pos (by omega), if_pos (by omega), e]
      · rw [if_neg (fun h => h2 h.1)]
        split_ifs <;> first | rfl | (exfalso; omega)

theorem haarUnstep_length (s : K) (a d : List K) : (haarUnstep s a d).length = 2 * a.length := by
  simp [haarUnstep]

theorem invFor_eq (s : K) (t : List K) (w : Nat) (out : List K)
    (ht : 2 * w ≤ t.length) (hout : 2 * w ≤ out.length) :
    invFor s t w out =
      haarUnstep s (t.take w) ((t.drop w).take w) ++ out.drop (2 * w) := by
  have hl : (t.take w).length = w := by rw [List.length_take]; omega
  have hu : (haarUnstep s (t.take w) ((t.drop w).take w)).length = 2 * w := by
    rw [haarUnstep_length, hl]
  apply ext_getD
  · rw [invFor, invPartial_length, List.length_append, hu, List.length_drop]
    omega
  · intro j _
    rw [invFor, invPartial_getD s t w out w le_rfl hout j]
    by_cases h1 : j < 2 * w
    · rw [if_pos h1, getD_append_left _ _ _ (by rw [hu]; exact h1), haarUnstep, hl,
        getD_map_range _ _ _ h1, getD_take_of_lt _ _ _ (by omega),
        getD_take_of_lt _ _ _ (by omega), getD_drop_add, Nat.add_comm w]
    · rw [if_neg h1, getD_append_right _ _ _ (by rw [hu]; omega), hu, getD_drop_add]
      congr 1
      omega

theorem invWhile_ge (s : K) (N w : Nat) (hw : 0 < w) (t o : List K) (h : N ≤ w) :
    invWhile s N w hw t o = (t, o) := by
  rw [invWhile, if_neg (by omega)]

theorem invWhile_lt (s : K) (N w : Nat) (hw : 0 < w) (t o : List K) (h : w < N) :
    invWhile s N w hw t o =
      invWhile s N (w * 2) (by omega) (memcpy t (invFor s t w o) (w * 2)) (invFor s t w o) := by
  rw [invWhile, if_pos h]

theorem invWhile_double (s : K) (k : Nat) : ∀ (w N : Nat) (hw : 0 < w) (t o : List K),
    w * 2 ^ k = N →
    invWhile s (N * 2) w hw t o =
      (memcpy (invWhile s N w hw t o).1
          (invFor s (invWhile s N w hw t o).1 N (invWhile s N w hw t o).2) (N * 2),
        invFor s (invWhile s N w hw t o).1 N (invWhile s N w hw t o).2) := by
  induction k with
  | zero =>
    intro w N hw t o h
    have e : w = N := by simpa using h
    subst e
    rw [invWhile_lt s (w * 2) w hw t o (by omega), invWhile_ge s (w * 2) (w * 2) _ _ _ le_rfl,
      invWhile_ge s w w hw t o le_rfl]
  | succ k ih =>
    intro w N hw t o h
    have hk : 0 < 2 ^ k := Nat.pos_pow_of_pos k (by norm_num)
    have h2 : w * 2 * 2 ^ k = N := by rw [← h, pow_succ]; ring
    have hlt : w < N := by
      rw [← h2]
      calc w < w * 2 := by omega
        _ ≤ w * 2 * 2 ^ k := Nat.le_mul_of_pos_right _ hk
    rw [invWhile_lt s (N * 2) w hw t o (by omega), ih (w * 2) N (by omega) _ _ h2,
      ← invWhile_lt s N w hw t o hlt]

theorem haarRecon_length (s : K) (L : Nat) : ∀ y : List K, y.length = 2 ^ L →
    (haarRecon s L y).length = 2 ^ L := by
  induction L with
  | zero => intro y hy; exact hy
  | succ L ih =>
    intro y hy
    have hp : 2 ^ (L + 1) = 2 ^ L * 2 := pow_succ 2 L
    rw [haarRecon, haarUnstep_length, ih _ (by rw [List.length_take]; omega), hp]
    omega

theorem invWhile_pow (s : K) (L : Nat) : ∀ y out : List K, 2 ^ L ≤ y.length →
    2 ^ L ≤ out.length →
    (invWhile s (2 ^ L) 1 Nat.one_pos y out).1 =
        haarRecon s L (y.take (2 ^ L)) ++ y.drop (2 ^ L) ∧
    (invWhile s (2 ^ L) 1 Nat.one_pos y out).2.drop (2 ^ L) = out.drop (2 ^ L) ∧
    (invWhile s (2 ^ L) 1 Nat.one_pos y out).2.length = out.length ∧
    (1 ≤ L → (invWhile s (2 ^ L) 1 Nat.one_pos y out).2.take (2 ^ L) =
        haarRecon s L (y.take (2 ^ L))) := by
  induction L with
  | zero =>
    intro y out _ _
    rw [pow_zero, invWhile_ge s 1 1 _ y out le_rfl]
    refine ⟨?_, rfl, rfl, fun h => absurd h (by omega)⟩
    rw [haarRecon, List.take_append_drop]
  | succ L ih =>
    intro y out hy hout
    have hp : 2 ^ (L + 1) = 2 ^ L * 2 := pow_succ 2 L
    have hN : 0 < 2 ^ L := Nat.pos_pow_of_pos L (by norm_num)
    rw [hp] at hy hout ⊢
    obtain ⟨hT, hOd, hOl, _⟩ := ih y out (by omega) (by omega)
    have hR : (haarRecon s L (y.take (2 ^ L))).length = 2 ^ L :=
      haarRecon_length s L _ (by rw [List.length_take]; omega)
    rw [invWhile_double s L 1 (2 ^ L) Nat.one_pos y out (by rw [one_mul])]
    generalize (invWhile s (2 ^ L) 1 Nat.one_pos y out).1 = T at hT
    generalize (invWhile s (2 ^ L) 1 Nat.one_pos y out).2 = O at hOd hOl
    have hTl : T.length = y.length := by
      rw [hT, List.length_append, hR, List.length_drop]
      omega
    have hTt : T.take (2 ^ L) = haarRecon s L (y.take (2 ^ L)) := by
      rw [hT, List.take_left' hR]
    have hTd : T.drop (2 ^ L) = y.drop (2 ^ L) := by
      rw [hT, List.drop_left' hR]
    have hrec : haarRecon s (L + 1) (y.take (2 ^ L * 2)) =
        haarUnstep s (T.take (2 ^ L)) ((T.drop (2 ^ L)).take (2 ^ L)) := by
      rw [haarRecon, List.take_take, Nat.min_eq_left (by omega), hTt, hTd, List.drop_take]
      congr 2
      omega
    have hfor : invFor s T (2 ^ L) O =
        haarRecon s (L + 1) (y.take (2 ^ L * 2)) ++ O.drop (2 * 2 ^ L) := by
      rw [invFor_eq s T (2 ^ L) O (by omega) (by omega), hrec]
    have hRl : (haarRecon s (L + 1) (y.take (2 ^ L * 2))).length = 2 ^ L * 2 := by
      rw [haarRecon_length s (L + 1) _ (by rw [List.length_take, hp]; omega), hp]
    have hdd : O.drop (2 * 2 ^ L) = out.drop (2 ^ L * 2) := by
      rw [show 2 * 2 ^ L = 2 ^ L + 2 ^ L by omega, ← List.drop_drop, hOd, List.drop_drop]
      congr 1
      omega
    have hTdd : T.drop (2 ^ L * 2) = y.drop (2 ^ L * 2) := by
      rw [show 2 ^ L * 2 = 2 ^ L + 2 ^ L by omega, ← List.drop_drop, hTd, List.drop_drop]
    rw [hfor, hdd]
    refine ⟨?_, ?_, ?_, fun _ => ?_⟩
    · show memcpy T _ _ = _
      rw [memcpy, List.take_left' hRl, hTdd]
    · show List.drop _ (_ ++ _) = _
      rw [List.drop_left' hRl]
    · show List.length (_ ++ _) = _
      rw [List.length_append, hRl, List.length_drop]
      omega
    · show List.take _ (_ ++ _) = _
      rw [List.take_left' hRl]

theorem InverseHaarTransformCPU_eq (s : K) (L : Nat) (y out : List K) (hL : 1 ≤ L)
    (hy : y.length = 2 ^ L) (hout : out.length = 2 ^ L) :
    InverseHaarTransformCPU s y (2 ^ L) out = haarRecon s L y := by
  obtain ⟨_, _, hl, ht⟩ := invWhile_pow s L y out (by omega) (by omega)
  have h1 := ht hL
  rw [InverseHaarTransformCPU, ← hy, memcpy_fresh, hy]
  rw [← hy, List.take_length, hy] at h1
  rw [← h1]
  exact (List.take_of_length_le (by omega)).symm

theorem haarUnstep_low_high (c s : K) (h : c * s = 1) (x : List K) (n : Nat)
    (hx : x.length = 2 * n) : haarUnstep s (haarLow c x) (haarHigh c x) = x := by
  have h2 : x.length / 2 = n := by omega
  apply ext_getD
  · rw [haarUnstep_length, haarLow_length]
    omega
  · intro j hj
    rw [haarUnstep_length, haarLow_length, h2] at hj
    have hj2 : j / 2 < n := by omega
    rw [haarUnstep, haarLow_length, h2, getD_map_range _ _ _ hj, haarLow, haarHigh, h2,
      getD_map_range _ _ _ hj2, getD_map_range _ _ _ hj2]
    by_cases hm : j % 2 = 0
    · have e : 2 * (j / 2) = j := by omega
      rw [if_pos hm, e]
      linear_combination (List.getD x j 0) * h
    · have e : 2 * (j / 2) + 1 = j := by omega
      rw [if_neg hm, e]
      linear_combination (List.getD x j 0) * h

theorem haarRecon_haarDecomp (c s : K) (h : c * s = 1) (L : Nat) : ∀ x : List K,
    x.length = 2 ^ L → haarRecon s L (haarDecomp c L x) = x := by
  induction L with
  | zero => intro x _; rfl
  | succ L ih =>
    intro x hx
    have hp : 2 ^ (L + 1) = 2 ^ L * 2 := pow_succ 2 L
    have h2 : x.length / 2 = 2 ^ L := by omega
    have hlow : (haarLow c x).length = 2 ^ L := by rw [haarLow_length, h2]
    have hdl : (haarDecomp c L (haarLow c x)).length = 2 ^ L := haarDecomp_length c L _ hlow
    rw [haarRecon, haarDecomp, List.take_left' hdl, List.drop_left' hdl, ih _ hlow]
    exact haarUnstep_low_high c s h x (2 ^ L) (by omega)

theorem roundTrip_exact (c s : K) (h : c * s = 1) (L : Nat) (x out₀ out₁ : List K)
    (hL : 1 ≤ L) (hx : x.length = 2 ^ L) (h₀ : out₀.length = 2 ^ L)
    (h₁ : out₁.length = 2 ^ L) :
    InverseHaarTransformCPU s (ForwardHaarTransformCPU c x (2 ^ L) out₀) (2 ^ L) out₁ = x := by
  rw [ForwardHaarTransformCPU_eq c L x out₀ hL hx h₀,
    InverseHaarTransformCPU_eq s L _ out₁ hL (haarDecomp_length c L x hx) h₁,
    haarRecon_haarDecomp c s h L x hx]

/-! ## The round trip -/

theorem roundTrip_f32_value :
    InverseHaarTransformCPU SQRT_2_f32
      (ForwardHaarTransformCPU INV_SQRT_2_f32 [1048576, 0] 2 [0, 0]) 2 [0, 0] =
      [140737483538089 / 134217728, 0] := by
  have hf : ForwardHaarTransformCPU INV_SQRT_2_f32 [1048576, 0] 2 [0, 0] =
      [11863283 / 16, 11863283 / 16] := by
    rw [ForwardHaarTransformCPU, fwdWhile, if_pos (by norm_num), fwdWhile, if_neg (by norm_num)]
    simp [fwdFor, fwdBody, memcpy, List.range_succ, INV_SQRT_2_f32]
    norm_num
  rw [hf, InverseHaarTransformCPU, invWhile, if_pos (by norm_num), invWhile,
    if_neg (by norm_num)]
  simp [invFor, invBody, memcpy, List.range_succ, SQRT_2_f32]
  norm_num

/-- C1 (as stated, refuted): with the values of the two `float` literals of the source for
`INV_SQRT_2` and `SQRT_2`, the reconstruction of the length-2 signal `[1048576, 0]` misses
its first sample by more than `0.001`. -/
theorem roundTrip_f32_counterexample :
    ¬ |(InverseHaarTransformCPU SQRT_2_f32
          (ForwardHaarTransformCPU INV_SQRT_2_f32 [1048576, 0] (2 ^ 1) [0, 0])
          (2 ^ 1) [0, 0]).getD 0 0 - ([1048576, 0] : List ℚ).getD 0 0| ≤ 1 / 1000 := by
  rw [show (2 : Nat) ^ 1 = 2 by norm_num, roundTrip_f32_value]
  norm_num [abs_le]

theorem haarLow_bound (c : K) (hc : 0 ≤ c) (x : List K) (B : K) (hB : 0 ≤ B)
    (hx : ∀ i, |x.getD i 0| ≤ B) (i : Nat) : |(haarLow c x).getD i 0| ≤ 2 * c * B := by
  by_cases h : i < x.length / 2
  · rw [haarLow_getD c x i h, abs_mul, abs_of_nonneg hc]
    have h1 := abs_add (x.getD (2 * i) 0) (x.getD (2 * i + 1) 0)
    have h2 := hx (2 * i)
    have h3 := hx (2 * i + 1)
    calc |x.getD (2 * i) 0 + x.getD (2 * i + 1) 0| * c ≤ (B + B) * c :=
          mul_le_mul_of_nonneg_right (by linarith) hc
      _ = 2 * c * B := by ring
  · rw [getD_of_length_le _ _ (by rw [haarLow_length]; omega), abs_zero]
    positivity

theorem roundTrip_error (c s : K) (hc : 0 ≤ c) (hs : 0 ≤ s) (hp : c * s ≤ 1) (L : Nat) :
    ∀ (x : List K) (B : K), x.length = 2 ^ L → 0 ≤ B → (∀ i, |x.getD i 0| ≤ B) →
      ∀ j, j < 2 ^ L →
        |(haarRecon s L (haarDecomp c L x)).getD j 0 - x.getD j 0| ≤
          (L : K) * (1 - c * s) * B := by
  induction L with
  | zero =>
    intro x B _ _ _ j _
    simp [haarRecon, haarDecomp]
  | succ L ih =>
    intro x B hx hB hxB j hj
    have hpw : 2 ^ (L + 1) = 2 ^ L * 2 := pow_succ 2 L
    have h2 : x.length / 2 = 2 ^ L := by omega
    have hlow : (haarLow c x).length = 2 ^ L := by rw [haarLow_length, h2]
    have hdl : (haarDecomp c L (haarLow c x)).length = 2 ^ L := haarDecomp_length c L _ hlow
    have hi : j / 2 < 2 ^ L := by omega
    have hR : (haarRecon s L (haarDecomp c L (haarLow c x))).length = 2 ^ L :=
      haarRecon_length s L _ hdl
    have hcB : 0 ≤ 2 * c * B := by positivity
    have hih := ih (haarLow c x) (2 * c * B) hlow hcB (haarLow_bound c hc x B hB hxB) (j / 2) hi
    rw [haarLow_getD c x _ (by omega)] at hih
    rw [haarRecon, haarDecomp, List.take_left' hdl, List.drop_left' hdl, haarUnstep, hR,
      getD_map_range _ _ _ (by omega), haarHigh_getD c x _ (by omega)]
    have hδ : 0 ≤ 1 - c * s := by linarith
    have hLn : (0 : K) ≤ (L : K) := Nat.cast_nonneg L
    have key : ∀ u v : K, |u| ≤ (L : K) * (1 - c * s) * (2 * c * B) → |v| ≤ B →
        |u * s * (1 / 2) + v * (c * s - 1)| ≤ ((L + 1 : Nat) : K) * (1 - c * s) * B := by
      intro u v hu hv
      have a1 : |u * s * (1 / 2)| ≤ (L : K) * (1 - c * s) * (2 * c * B) * s * (1 / 2) := by
        rw [abs_mul, abs_mul, abs_of_nonneg hs, abs_of_nonneg (by norm_num : (0 : K) ≤ 1 / 2)]
        exact mul_le_mul_of_nonneg_right (mul_le_mul_of_nonneg_right hu hs) (by norm_num)
      have a2 : |v * (c * s - 1)| ≤ B * (1 - c * s) := by
        rw [abs_mul, abs_sub_comm, abs_of_nonneg hδ]
        exact mul_le_mul_of_nonneg_right hv hδ
      have a3 : (L : K) * (1 - c * s) * B * (c * s) ≤ (L : K) * (1 - c * s) * B :=
        mul_le_of_le_one_right (by positivity) hp
      have a4 := abs_add (u * s * (1 / 2)) (v * (c * s - 1))
      push_cast
      nlinarith
    by_cases hm : j % 2 = 0
    · have e : 2 * (j / 2) = j := by omega
      rw [if_pos hm]
      have := key (List.getD (haarRecon s L (haarDecomp c L (haarLow c x))) (j / 2) 0 -
        (x.getD (2 * (j / 2)) 0 + x.getD (2 * (j / 2) + 1) 0) * c) (x.getD j 0) hih (hxB j)
      rw [e] at this ⊢
      refine le_trans (le_of_eq ?_) this
      congr 1
      ring
    · have e : 2 * (j / 2) + 1 = j := by omega
      rw [if_neg hm]
      have := key (List.getD (haarRecon s L (haarDecomp c L (haarLow c x))) (j / 2) 0 -
        (x.getD (2 * (j / 2)) 0 + x.getD (2 * (j / 2) + 1) 0) * c) (x.getD j 0) hih (hxB j)
      rw [e] at this ⊢
      refine le_trans (le_of_eq ?_) this
      congr 1
      ring

/-- C1 (amended): for `k = 1..10` and a signal of length `2 ^ k` whose samples lie in
`[-1, 1]`, computing with the values of the two `float` constants of the source,
`InverseHaarTransformCPU` applied to the output of `ForwardHaarTransformCPU` meets every
sample within `0.001`; with constants whose product is `1` it gives back the signal. -/
theorem roundTrip_within_tolerance (k : Nat) (x out₀ out₁ : List ℚ) (hk : 1 ≤ k)
    (hk' : k ≤ 10) (hx : x.length = 2 ^ k) (h₀ : out₀.length = 2 ^ k)
    (h₁ : out₁.length = 2 ^ k) (hB : ∀ i, |x.getD i 0| ≤ 1) :
    (∀ i, i < 2 ^ k →
      |(InverseHaarTransformCPU SQRT_2_f32
          (ForwardHaarTransformCPU INV_SQRT_2_f32 x (2 ^ k) out₀) (2 ^ k) out₁).getD i 0 -
        x.getD i 0| ≤ 1 / 1000) ∧
    (∀ c s : ℚ, c * s = 1 →
      InverseHaarTransformCPU s (ForwardHaarTransformCPU c x (2 ^ k) out₀) (2 ^ k) out₁ = x) := by
  refine ⟨fun i hi => ?_, fun c s h => roundTrip_exact c s h k x out₀ out₁ hk hx h₀ h₁⟩
  rw [ForwardHaarTransformCPU_eq _ k x out₀ hk hx h₀,
    InverseHaarTransformCPU_eq _ k _ out₁ hk (haarDecomp_length _ k x hx) h₁]
  have hb := roundTrip_error INV_SQRT_2_f32 SQRT_2_f32 (by norm_num [INV_SQRT_2_f32])
    (by norm_num [SQRT_2_f32]) (by norm_num [INV_SQRT_2_f32, SQRT_2_f32]) k x 1 hx
    (by norm_num) hB i hi
  refine le_trans hb ?_
  have hkq : (k : ℚ) ≤ 10 := by exact_mod_cast hk'
  have hδ : (0 : ℚ) ≤ 1 - INV_SQRT_2_f32 * SQRT_2_f32 := by
    norm_num [INV_SQRT_2_f32, SQRT_2_f32]
  calc (k : ℚ) * (1 - INV_SQRT_2_f32 * SQRT_2_f32) * 1
      ≤ 10 * (1 - INV_SQRT_2_f32 * SQRT_2_f32) * 1 := by
        gcongr
    _ ≤ 1 / 1000 := by norm_num [INV_SQRT_2_f32, SQRT_2_f32]

theorem roundTrip_within_tolerance_witness :
    (∀ i, i < 2 ^ 1 →
      |(InverseHaarTransformCPU SQRT_2_f32
          (ForwardHaarTransformCPU INV_SQRT_2_f32 [1, 1 / 2] (2 ^ 1) [0, 0]) (2 ^ 1)
          [0, 0]).getD i 0 - ([1, 1 / 2] : List ℚ).getD i 0| ≤ 1 / 1000) ∧
    (∀ c s : ℚ, c * s = 1 →
      InverseHaarTransformCPU s (ForwardHaarTransformCPU c [1, 1 / 2] (2 ^ 1) [0, 0]) (2 ^ 1)
        [0, 0] = [1, 1 / 2]) :=
  roundTrip_within_tolerance 1 [1, 1 / 2] [0, 0] [0, 0] (le_refl 1) (by norm_num) rfl rfl rfl
    (fun i => by
      rcases i with _ | _ | i
      · norm_num
      · norm_num [abs_of_pos]
      · norm_num)

/-! ## Runs without runtime errors -/

theorem checked_ok {α : Type} (env : OpenCLEnv) (hok : ∀ n, env.clErr n = CL_SUCCESS)
    (e : Event) (effect : (Mem → List α) → Mem → List α) (d : Device α) :
    env.checked e effect d =
      .ret { mem := effect d.mem, events := d.events ++ [e], calls := d.calls + 1 } := by
  simp [OpenCLEnv.checked, CheckForError, hok, Run.bind]

theorem waitAndTime_ok {α : Type} (env : OpenCLEnv) (hok : ∀ n, env.clErr n = CL_SUCCESS)
    (d : Device α) :
    waitAndTime env d =
      .ret { mem := d.mem
             events := d.events ++ [.clWaitForEvents] ++ [.clGetEventProfilingInfo] ++
              [.clGetEventProfilingInfo]
             calls := d.calls + 1 + 1 + 1 } := by
  simp [waitAndTime, GetKernelTime, checked_ok env hok, Run.bind]

/-! ## Thresholding -/

theorem kernelName_hard : kernelName .MAT_HT_THRESH_KERNEL = "Mat_HT_Threshold_kernel" := rfl

theorem kernelName_soft : kernelName .MAT_ST_THRESH_KERNEL = "Mat_ST_Threshold_kernel" := rfl

theorem thresholdWorkItem_hard (thresh : K) (gInBuff gOutBuff : Mem) (mem : Mem → List K)
    (gid : Nat) :
    thresholdWorkItem "Mat_HT_Threshold_kernel" thresh gInBuff gOutBuff mem gid =
      if gid < (mem gInBuff).length then
        Function.update mem gOutBuff
          ((mem gOutBuff).set gid (Mat_HT_Threshold thresh ((mem gInBuff).getD gid 0)))
      else mem := by
  simp [thresholdWorkItem]

theorem thresholdWorkItem_soft (thresh : K) (gInBuff gOutBuff : Mem) (mem : Mem → List K)
    (gid : Nat) :
    thresholdWorkItem "Mat_ST_Threshold_kernel" thresh gInBuff gOutBuff mem gid =
      if gid < (mem gInBuff).length then
        Function.update mem gOutBuff
          ((mem gOutBuff).set gid (Mat_ST_Threshold thresh ((mem gInBuff).getD gid 0)))
      else mem := by
  simp [thresholdWorkItem]

theorem elementwise_fold (f : K → K) (item : (Mem → List K) → Nat → Mem → List K)
    (gInBuff gOutBuff : Mem) (hne : gInBuff ≠ gOutBuff)
    (hitem : ∀ mem gid, item mem gid =
      if gid < (mem gInBuff).length then
        Function.update mem gOutBuff ((mem gOutBuff).set gid (f ((mem gInBuff).getD gid 0)))
      else mem)
    (mem : Mem → List K) (n : Nat) :
    ((List.range n).foldl item mem) gInBuff = mem gInBuff ∧
    (((List.range n).foldl item mem) gOutBuff).length = (mem gOutBuff).length ∧
    ∀ j, (((List.range n).foldl item mem) gOutBuff).getD j 0 =
      if j < n ∧ j < (mem gInBuff).length ∧ j < (mem gOutBuff).length then
        f ((mem gInBuff).getD j 0)
      else (mem gOutBuff).getD j 0 := by
  induction n with
  | zero =>
    refine ⟨rfl, rfl, fun j => ?_⟩
    rw [List.range_zero, List.foldl_nil, if_neg (by omega)]
  | succ n ih =>
    obtain ⟨h1, h2, h3⟩ := ih
    rw [List.range_succ, List.foldl_append, List.foldl_cons, List.foldl_nil, hitem, h1]
    by_cases hn : n < (mem gInBuff).length
    · rw [if_pos hn]
      refine ⟨?_, ?_, fun j => ?_⟩
      · rw [Function.update_noteq hne, h1]
      · rw [Function.update_same, List.length_set, h2]
      · rw [Function.update_same, getD_set_eq, h2, h3 j]
        by_cases hj : n = j
        · subst hj
          split_ifs <;> first | rfl | (exfalso; omega)
        · rw [if_neg (fun h => hj h.1)]
          split_ifs <;> first | rfl | (exfalso; omega)
    · rw [if_neg hn]
      refine ⟨h1, h2, fun j => ?_⟩
      rw [h3 j]
      split_ifs <;> first | rfl | (exfalso; omega)

theorem getD_map_of_lt (f : K → K) (l : List K) (j : Nat) (h : j < l.length) :
    (l.map f).getD j 0 = f (l.getD j 0) := by
  simp [List.getD_eq_getElem?_getD, List.getElem?_map, List.getElem?_eq_getElem h]

theorem grid_covers (n t : Nat) (ht : 0 < t) (hn : n < 2 ^ 32) :
    n ≤ (subOne32 n / t + 1) * t := by
  rcases Nat.eq_zero_or_pos n with h | h
  · subst h
    exact Nat.zero_le _
  · have e : subOne32 n = n - 1 := by
      unfold subOne32
      omega
    rw [e]
    have := @Nat.lt_div_mul_add (n - 1) t ht
    have h2 : (n - 1) / t * t + t = ((n - 1) / t + 1) * t := by ring
    omega

theorem elementwise_dispatch (f : K → K) (item : (Mem → List K) → Nat → Mem → List K)
    (gInBuff gOutBuff : Mem) (hne : gInBuff ≠ gOutBuff)
    (hitem : ∀ mem gid, item mem gid =
      if gid < (mem gInBuff).length then
        Function.update mem gOutBuff ((mem gOutBuff).set gid (f ((mem gInBuff).getD gid 0)))
      else mem)
    (mem : Mem → List K) (n : Nat) (hn : (mem gInBuff).length ≤ n)
    (hlen : (mem gOutBuff).length = (mem gInBuff).length) :
    ((List.range n).foldl item mem) gOutBuff = (mem gInBuff).map f := by
  obtain ⟨_, h2, h3⟩ := elementwise_fold f item gInBuff gOutBuff hne hitem mem n
  apply ext_getD
  · rw [h2, hlen, List.length_map]
  · intro j hj
    rw [h2] at hj
    rw [h3 j, if_pos ⟨by omega, by omega, hj⟩, getD_map_of_lt f _ j (by omega)]

theorem MatrixThreshGPU_run (env : OpenCLEnv) (hok : ∀ n, env.clErr n = CL_SUCCESS)
    (gInBuff gOutBuff : Mem) (dataLen : Nat) (thresh : K) (isSoftThresh : Bool)
    (d : Device K) :
    MatrixThreshGPU env gInBuff gOutBuff dataLen thresh isSoftThresh d =
      .ret (true,
        { mem := (List.range ((subOne32 dataLen / 256 + 1) * 256)).foldl
            (thresholdWorkItem
              (kernelName (if isSoftThresh then KernelIndices.MAT_ST_THRESH_KERNEL
                else KernelIndices.MAT_HT_THRESH_KERNEL)) thresh gInBuff gOutBuff) d.mem
          events := d.events ++
            [.clEnqueueNDRangeKernel
              (if isSoftThresh then KernelIndices.MAT_ST_THRESH_KERNEL
                else KernelIndices.MAT_HT_THRESH_KERNEL) [gInBuff, gOutBuff] []
              [(subOne32 dataLen / 256 + 1) * 256] [256]] ++
            [.clWaitForEvents] ++ [.clGetEventProfilingInfo] ++ [.clGetEventProfilingInfo]
          calls := d.calls + 1 + 1 + 1 + 1 }) := by
  simp only [MatrixThreshGPU, checked_ok env hok, waitAndTime_ok env hok, Run.bind]

theorem MatrixThreshGPU_ok (env : OpenCLEnv) (hok : ∀ n, env.clErr n = CL_SUCCESS)
    (gInBuff gOutBuff : Mem) (hne : gInBuff ≠ gOutBuff) (thresh : K) (isSoftThresh : Bool)
    (d : Device K) (h32 : (d.mem gInBuff).length < 2 ^ 32)
    (hlen : (d.mem gOutBuff).length = (d.mem gInBuff).length) :
    ∃ d', MatrixThreshGPU env gInBuff gOutBuff (d.mem gInBuff).length thresh isSoftThresh d =
        .ret (true, d') ∧
      d'.mem gOutBuff = (d.mem gInBuff).map
        (if isSoftThresh then Mat_ST_Threshold thresh else Mat_HT_Threshold thresh) := by
  have hg := grid_covers (d.mem gInBuff).length 256 (by norm_num) h32
  refine ⟨_, MatrixThreshGPU_run env hok gInBuff gOutBuff _ thresh isSoftThresh d, ?_⟩
  cases isSoftThresh with
  | false =>
    exact elementwise_dispatch (Mat_HT_Threshold thresh) _ gInBuff gOutBuff hne
      (fun mem gid => by
        simp only [Bool.false_eq_true, if_false, kernelName_hard]
        exact thresholdWorkItem_hard thresh gInBuff gOutBuff mem gid)
      d.mem _ hg hlen
  | true =>
    exact elementwise_dispatch (Mat_ST_Threshold thresh) _ gInBuff gOutBuff hne
      (fun mem gid => by
        simp only [if_true, kernelName_soft]
        exact thresholdWorkItem_soft thresh gInBuff gOutBuff mem gid)
      d.mem _ hg hlen

theorem hard_example : ([0, -1, 2, -3, 4] : List K).map (Mat_HT_Threshold 1) =
    [0, 0, 2, -3, 4] := by
  have h2 : |(2 : K)| = 2 := abs_of_pos (by norm_num)
  have h3 : |(3 : K)| = 3 := abs_of_pos (by norm_num)
  have h4 : |(4 : K)| = 4 := abs_of_pos (by norm_num)
  simp [Mat_HT_Threshold, h2, h3, h4]

theorem soft_example : ([0, -1, 2, -3, 4] : List K).map (Mat_ST_Threshold 1) =
    [0, 0, 1, -2, 3] := by
  have h2 : |(2 : K)| = 2 := abs_of_pos (by norm_num)
  have h3 : |(3 : K)| = 3 := abs_of_pos (by norm_num)
  have h4 : |(4 : K)| = 4 := abs_of_pos (by norm_num)
  simp [Mat_ST_Threshold, sgn, h2, h3, h4]
  norm_num

/-- C7: with `isSoftThresh = false`, `MatrixThreshGPU` returns `true` and leaves in the output
buffer, cell by cell, `in[i]` where `|in[i]| > thresh` and `0` elsewhere; a cell with
`|in[i]| = thresh` becomes `0`, and `[0, -1, 2, -3, 4]` with cutoff `1` gives
`[0, 0, 2, -3, 4]`. -/
theorem MatrixThreshGPU_hard (env : OpenCLEnv) (hok : ∀ n, env.clErr n = CL_SUCCESS)
    (gInBuff gOutBuff : Mem) (hne : gInBuff ≠ gOutBuff) (thresh : K) (d : Device K)
    (h32 : (d.mem gInBuff).length < 2 ^ 32)
    (hlen : (d.mem gOutBuff).length = (d.mem gInBuff).length) :
    ∃ d', MatrixThreshGPU env gInBuff gOutBuff (d.mem gInBuff).length thresh false d =
        .ret (true, d') ∧
      (d'.mem gOutBuff).length = (d.mem gInBuff).length ∧
      (∀ i, i < (d.mem gInBuff).length → (d'.mem gOutBuff).getD i 0 =
        if |(d.mem gInBuff).getD i 0| > thresh then (d.mem gInBuff).getD i 0 else 0) ∧
      (∀ i, i < (d.mem gInBuff).length → |(d.mem gInBuff).getD i 0| = thresh →
        (d'.mem gOutBuff).getD i 0 = 0) ∧
      (d.mem gInBuff = [0, -1, 2, -3, 4] → thresh = 1 →
        d'.mem gOutBuff = [0, 0, 2, -3, 4]) := by
  obtain ⟨d', h1, h2⟩ := MatrixThreshGPU_ok env hok gInBuff gOutBuff hne thresh false d h32 hlen
  simp only [Bool.false_eq_true, if_false] at h2
  have hp : ∀ i, i < (d.mem gInBuff).length → (d'.mem gOutBuff).getD i 0 =
      if |(d.mem gInBuff).getD i 0| > thresh then (d.mem gInBuff).getD i 0 else 0 := by
    intro i hi
    rw [h2, getD_map_of_lt _ _ i hi, Mat_HT_Threshold]
  refine ⟨d', h1, ?_, hp, ?_, ?_⟩
  · rw [h2, List.length_map]
  · intro i hi he
    rw [hp i hi, if_neg (by rw [he]; exact lt_irrefl thresh)]
  · intro hin ht
    rw [h2, hin, ht]
    exact hard_example

theorem MatrixThreshGPU_hard_witness :
    ∃ d', MatrixThreshGPU okEnv .inBuff .outBuff 5 (1 : ℚ) false (deviceWith tempBuff) =
        .ret (true, d') ∧ d'.mem .outBuff = [0, 0, 2, -3, 4] := by
  obtain ⟨d', h1, _, _, _, h5⟩ := MatrixThreshGPU_hard okEnv (fun _ => rfl) .inBuff .outBuff
    (by decide) (1 : ℚ) (deviceWith tempBuff) (by decide) rfl
  exact ⟨d', h1, h5 rfl rfl⟩

/-- C8: with `isSoftThresh = true`, `MatrixThreshGPU` enqueues the kernel
`Mat_ST_Threshold_kernel`, returns `true` and leaves in the output buffer, cell by cell,
`sign(in[i]) * max(|in[i]| - thresh, 0)`; `[0, -1, 2, -3, 4]` with cutoff `1` gives
`[0, 0, 1, -2, 3]`. -/
theorem MatrixThreshGPU_soft (env : OpenCLEnv) (hok : ∀ n, env.clErr n = CL_SUCCESS)
    (gInBuff gOutBuff : Mem) (hne : gInBuff ≠ gOutBuff) (thresh : K) (d : Device K)
    (h32 : (d.mem gInBuff).length < 2 ^ 32)
    (hlen : (d.mem gOutBuff).length = (d.mem gInBuff).length) :
    ∃ d', MatrixThreshGPU env gInBuff gOutBuff (d.mem gInBuff).length thresh true d =
        .ret (true, d') ∧
      d'.events = d.events ++
        [.clEnqueueNDRangeKernel .MAT_ST_THRESH_KERNEL [gInBuff, gOutBuff] []
            [(subOne32 (d.mem gInBuff).length / 256 + 1) * 256] [256],
          .clWaitForEvents, .clGetEventProfilingInfo, .clGetEventProfilingInfo] ∧
      kernelName .MAT_ST_THRESH_KERNEL = "Mat_ST_Threshold_kernel" ∧
      kernelName .MAT_ST_THRESH_KERNEL ≠ kernelName .MAT_HT_THRESH_KERNEL ∧
      (d'.mem gOutBuff).length = (d.mem gInBuff).length ∧
      (∀ i, i < (d.mem gInBuff).length → (d'.mem gOutBuff).getD i 0 =
        sgn ((d.mem gInBuff).getD i 0) * max (|(d.mem gInBuff).getD i 0| - thresh) 0) ∧
      (d.mem gInBuff = [0, -1, 2, -3, 4] → thresh = 1 →
        d'.mem gOutBuff = [0, 0, 1, -2, 3]) := by
  have hrun := MatrixThreshGPU_run env hok gInBuff gOutBuff (d.mem gInBuff).length thresh true d
  obtain ⟨d', h1, h2⟩ := MatrixThreshGPU_ok env hok gInBuff gOutBuff hne thresh true d h32 hlen
  simp only [if_true] at h2
  have hd : d' = _ := (Prod.mk.inj (Run.ret.inj (h1.symm.trans hrun))).2
  refine ⟨d', h1, ?_, rfl, by decide, ?_, ?_, ?_⟩
  · rw [hd]
    simp
  · rw [h2, List.length_map]
  · intro i hi
    rw [h2, getD_map_of_lt _ _ i hi, Mat_ST_Threshold]
  · intro hin ht
    rw [h2, hin, ht]
    exact soft_example

theorem MatrixThreshGPU_soft_witness :
    ∃ d', MatrixThreshGPU okEnv .inBuff .outBuff 5 (1 : ℚ) true (deviceWith tempBuff) =
        .ret (true, d') ∧ d'.mem .outBuff = [0, 0, 1, -2, 3] := by
  obtain ⟨d', h1, _, _, _, _, _, h7⟩ := MatrixThreshGPU_soft okEnv (fun _ => rfl) .inBuff
    .outBuff (by decide) (1 : ℚ) (deviceWith tempBuff) (by decide) rfl
  exact ⟨d', h1, h7 rfl rfl⟩

/-! ## Matrix transpose -/

theorem cell_mod (x y H : Nat) (hy : y < H) : (x * H + y) % H = y := by
  rw [Nat.mul_comm, Nat.mul_add_mod, Nat.mod_eq_of_lt hy]

theorem cell_div (x y H : Nat) (hy : y < H) : (x * H + y) / H = x := by
  rw [Nat.mul_comm, Nat.mul_add_div (by omega), Nat.div_eq_of_lt hy, Nat.add_zero]

theorem cell_lt (x y W H : Nat) (hx : x < W) (hy : y < H) : x * H + y < W * H := by
  calc x * H + y < x * H + H := by omega
    _ = (x + 1) * H := by ring
    _ ≤ W * H := Nat.mul_le_mul_right H hx

theorem tile_grid_covers (n t : Nat) (ht : 0 < t) : n ≤ ((n - 1) / t + 1) * t := by
  have := @Nat.lt_div_mul_add (n - 1) t ht
  have h2 : (n - 1) / t * t + t = ((n - 1) / t + 1) * t := by ring
  omega

theorem transpose_fold (W H : Nat) (gInBuff gOutBuff : Mem) (hne : gInBuff ≠ gOutBuff)
    (ps : List (Nat × Nat)) : ∀ mem : Mem → List K,
    (ps.foldl (transposeWorkItem W H gInBuff gOutBuff) mem) gInBuff = mem gInBuff ∧
    ((ps.foldl (transposeWorkItem W H gInBuff gOutBuff) mem) gOutBuff).length =
      (mem gOutBuff).length ∧
    (∀ j, (∃ p ∈ ps, p.1 < W ∧ p.2 < H ∧ p.1 * H + p.2 = j) → j < (mem gOutBuff).length →
      ((ps.foldl (transposeWorkItem W H gInBuff gOutBuff) mem) gOutBuff).getD j 0 =
        (mem gInBuff).getD (j % H * W + j / H) 0) ∧
    (∀ j, ¬ (∃ p ∈ ps, p.1 < W ∧ p.2 < H ∧ p.1 * H + p.2 = j) →
      ((ps.foldl (transposeWorkItem W H gInBuff gOutBuff) mem) gOutBuff).getD j 0 =
        (mem gOutBuff).getD j 0) := by
  induction ps with
  | nil =>
    intro mem
    refine ⟨rfl, rfl, ?_, fun j _ => rfl⟩
    rintro j ⟨p, hp, _⟩
    exact absurd hp (List.not_mem_nil p)
  | cons q rest ih =>
    intro mem
    rw [List.foldl_cons]
    obtain ⟨i1, i2, i3, i4⟩ := ih (transposeWorkItem W H gInBuff gOutBuff mem q)
    have m1 : (transposeWorkItem W H gInBuff gOutBuff mem q) gInBuff = mem gInBuff := by
      unfold transposeWorkItem
      split_ifs
      · rw [Function.update_noteq hne]
      · rfl
    have m2 : ((transposeWorkItem W H gInBuff gOutBuff mem q) gOutBuff).length =
        (mem gOutBuff).length := by
      unfold transposeWorkItem
      split_ifs
      · rw [Function.update_same, List.length_set]
      · rfl
    have m3 : ∀ j, ((transposeWorkItem W H gInBuff gOutBuff mem q) gOutBuff).getD j 0 =
        if (q.1 < W ∧ q.2 < H) ∧ q.1 * H + q.2 = j ∧ j < (mem gOutBuff).length then
          (mem gInBuff).getD (j % H * W + j / H) 0
        else (mem gOutBuff).getD j 0 := by
      intro j
      unfold transposeWorkItem
      by_cases hg : q.1 < W ∧ q.2 < H
      · rw [if_pos hg, Function.update_same, getD_set_eq]
        by_cases hj : q.1 * H + q.2 = j
        · by_cases hl : j < (mem gOutBuff).length
          · rw [if_pos ⟨hj, by omega⟩, if_pos ⟨hg, hj, hl⟩, ← hj, cell_mod _ _ _ hg.2,
              cell_div _ _ _ hg.2]
          · rw [if_neg (fun h => hl (by omega)), if_neg (fun h => hl h.2.2)]
        · rw [if_neg (fun h => hj h.1), if_neg (fun h => hj h.2.1)]
      · rw [if_neg hg, if_neg (fun h => hg h.1)]
    refine ⟨i1.trans m1, i2.trans m2, ?_, ?_⟩
    · intro j hex hj
      by_cases hr : ∃ p ∈ rest, p.1 < W ∧ p.2 < H ∧ p.1 * H + p.2 = j
      · rw [i3 j hr (by rw [m2]; exact hj), m1]
      · rw [i4 j hr, m3 j]
        obtain ⟨p, hp, hp1, hp2, hp3⟩ := hex
        rcases List.mem_cons.mp hp with rfl | hp'
        · rw [if_pos ⟨⟨hp1, hp2⟩, hp3, hj⟩]
        · exact absurd ⟨p, hp', hp1, hp2, hp3⟩ hr
    · intro j hex
      have hr : ¬ ∃ p ∈ rest, p.1 < W ∧ p.2 < H ∧ p.1 * H + p.2 = j := by
        rintro ⟨p, hp, h⟩
        exact hex ⟨p, List.mem_cons_of_mem q hp, h⟩
      rw [i4 j hr, m3 j, if_neg]
      rintro ⟨⟨h1, h2⟩, h3, _⟩
      exact hex ⟨q, List.mem_cons_self q rest, h1, h2, h3⟩

theorem TransposeMatrixGPU_run (env : OpenCLEnv) (hok : ∀ n, env.clErr n = CL_SUCCESS)
    (gInBuff gOutBuff : Mem) (width height : Nat) (d : Device K) :
    TransposeMatrixGPU env gInBuff gOutBuff width height d =
      .ret (true,
        { mem := (List.product (List.range (((width - 1) / TILE_SIZE + 1) * TILE_SIZE))
              (List.range (((height - 1) / TILE_SIZE + 1) * TILE_SIZE))).foldl
              (transposeWorkItem width height gInBuff gOutBuff) d.mem
          events := d.events ++
            [.clEnqueueNDRangeKernel .MAT_TRANSPOSE_KERNEL [gInBuff, gOutBuff] [width, height]
              [((width - 1) / TILE_SIZE + 1) * TILE_SIZE,
                ((height - 1) / TILE_SIZE + 1) * TILE_SIZE] [TILE_SIZE, TILE_SIZE]] ++
            [.clWaitForEvents] ++ [.clGetEventProfilingInfo] ++ [.clGetEventProfilingInfo]
          calls := d.calls + 1 + 1 + 1 + 1 }) := by
  simp only [TransposeMatrixGPU, checked_ok env hok, waitAndTime_ok env hok, Run.bind]

theorem TransposeMatrixGPU_ok (env : OpenCLEnv) (hok : ∀ n, env.clErr n = CL_SUCCESS)
    (gInBuff gOutBuff : Mem) (hne : gInBuff ≠ gOutBuff) (width height : Nat) (d : Device K)
    (hout : (d.mem gOutBuff).length = width * height) :
    ∃ d', TransposeMatrixGPU env gInBuff gOutBuff width height d = .ret (true, d') ∧
      d'.mem gInBuff = d.mem gInBuff ∧
      (d'.mem gOutBuff).length = width * height ∧
      ∀ x y, x < width → y < height →
        (d'.mem gOutBuff).getD (x * height + y) 0 = (d.mem gInBuff).getD (y * width + x) 0 := by
  obtain ⟨f1, f2, f3, _⟩ := transpose_fold width height gInBuff gOutBuff hne
    (List.product (List.range (((width - 1) / TILE_SIZE + 1) * TILE_SIZE))
      (List.range (((height - 1) / TILE_SIZE + 1) * TILE_SIZE))) d.mem
  refine ⟨_, TransposeMatrixGPU_run env hok gInBuff gOutBuff width height d, f1,
    f2.trans hout, ?_⟩
  intro x y hx hy
  have hT : 0 < TILE_SIZE := by decide
  have hmem : (x, y) ∈ List.product (List.range (((width - 1) / TILE_SIZE + 1) * TILE_SIZE))
      (List.range (((height - 1) / TILE_SIZE + 1) * TILE_SIZE)) := by
    rw [List.pair_mem_product, List.mem_range, List.mem_range]
    exact ⟨lt_of_lt_of_le hx (tile_grid_covers width TILE_SIZE hT),
      lt_of_lt_of_le hy (tile_grid_covers height TILE_SIZE hT)⟩
  have := f3 (x * height + y) ⟨(x, y), hmem, hx, hy, rfl⟩
    (by rw [hout]; exact cell_lt x y width height hx hy)
  rw [cell_mod _ _ _ hy, cell_div _ _ _ hy] at this
  exact this

/-- C9: `TransposeMatrixGPU(in, out, width, height)` returns `true` and writes
`out[x * height + y] = in[y * width + x]` for every `x < width`, `y < height`; a matrix filled
row by row with `0, 1, 2, ...` comes out as the same values in column-major order. -/
theorem TransposeMatrixGPU_spec (env : OpenCLEnv) (hok : ∀ n, env.clErr n = CL_SUCCESS)
    (gInBuff gOutBuff : Mem) (hne : gInBuff ≠ gOutBuff) (width height : Nat) (d : Device K)
    (hout : (d.mem gOutBuff).length = width * height) :
    ∃ d', TransposeMatrixGPU env gInBuff gOutBuff width height d = .ret (true, d') ∧
      (∀ x y, x < width → y < height →
        (d'.mem gOutBuff).getD (x * height + y) 0 =
          (d.mem gInBuff).getD (y * width + x) 0) ∧
      (d.mem gInBuff = (List.range (width * height)).map (fun n : Nat => (n : K)) →
        ∀ x y, x < width → y < height →
          (d'.mem gOutBuff).getD (x * height + y) 0 = ((y * width + x : Nat) : K)) := by
  obtain ⟨d', h1, _, _, h4⟩ :=
    TransposeMatrixGPU_ok env hok gInBuff gOutBuff hne width height d hout
  refine ⟨d', h1, h4, ?_⟩
  intro hin x y hx hy
  rw [h4 x y hx hy, hin, getD_map_range]
  rw [Nat.mul_comm width height]
  exact cell_lt y x height width hy hx

theorem deviceWith_in (buf : List K) : (deviceWith buf).mem .inBuff = buf := rfl

theorem deviceWith_out_length (buf : List K) :
    ((deviceWith buf).mem .outBuff).length = buf.length := by
  simp [deviceWith]

theorem pTempBuff_length : pTempBuff.length = 512 * 512 := by
  unfold pTempBuff
  rw [List.length_map, List.length_range]

theorem TransposeMatrixGPU_spec_witness :
    ∃ d', TransposeMatrixGPU okEnv .inBuff .outBuff 512 512 (deviceWith pTempBuff) =
        .ret (true, d') ∧
      ∀ i j, i < 512 → j < 512 →
        (d'.mem .outBuff).getD (j * 512 + i) 0 = ((i * 512 + j : Nat) : ℚ) := by
  obtain ⟨d', h1, _, h3⟩ := TransposeMatrixGPU_spec okEnv (fun _ => rfl) .inBuff .outBuff
    (by decide) 512 512 (deviceWith pTempBuff)
    (by rw [deviceWith_out_length, pTempBuff_length])
  exact ⟨d', h1, fun i j hi hj => h3 (deviceWith_in pTempBuff) j i hj hi⟩

/-- C10: transposing a `W × H` matrix with dimensions `(W, H)` and transposing the result,
wherever it then lies, with dimensions `(H, W)` gives back the matrix, cell for cell. -/
theorem TransposeMatrixGPU_twice (env : OpenCLEnv) (hok : ∀ n, env.clErr n = CL_SUCCESS)
    (gInBuff gOutBuff : Mem) (hne : gInBuff ≠ gOutBuff) (W H : Nat) (d : Device K)
    (hin : (d.mem gInBuff).length = W * H) (hout : (d.mem gOutBuff).length = W * H) :
    ∃ d₁, TransposeMatrixGPU env gInBuff gOutBuff W H d = .ret (true, d₁) ∧
      ∀ d₂ : Device K, d₂.mem gInBuff = d₁.mem gOutBuff →
        (d₂.mem gOutBuff).length = W * H →
        ∃ d₃, TransposeMatrixGPU env gInBuff gOutBuff H W d₂ = .ret (true, d₃) ∧
          d₃.mem gOutBuff = d.mem gInBuff := by
  obtain ⟨d₁, h1, _, _, h4⟩ := TransposeMatrixGPU_ok env hok gInBuff gOutBuff hne W H d hout
  refine ⟨d₁, h1, fun d₂ h2 hl => ?_⟩
  obtain ⟨d₃, g1, _, g3, g4⟩ := TransposeMatrixGPU_ok env hok gInBuff gOutBuff hne H W d₂
    (by rw [hl, Nat.mul_comm])
  refine ⟨d₃, g1, ?_⟩
  apply ext_getD
  · rw [g3, hin, Nat.mul_comm]
  · intro j hj
    rw [g3] at hj
    have hW : 0 < W := by
      rcases Nat.eq_zero_or_pos W with h | h
      · rw [h, Nat.mul_zero] at hj
        exact absurd hj (Nat.not_lt_zero j)
      · exact h
    have hx : j / W < H := (Nat.div_lt_iff_lt_mul hW).mpr hj
    have hy : j % W < W := Nat.mod_lt j hW
    have e : j / W * W + j % W = j := by
      rw [Nat.mul_comm]
      exact Nat.div_add_mod j W
    have := g4 (j / W) (j % W) hx hy
    rw [e, h2, h4 (j % W) (j / W) hy hx, e] at this
    exact this

theorem TransposeMatrixGPU_twice_witness :
    ∃ d₁, TransposeMatrixGPU okEnv .inBuff .outBuff 2 4
        (deviceWith ([1, 2, 3, 4, 5, 6, 7, 8] : List ℚ)) = .ret (true, d₁) ∧
      ∀ d₂ : Device ℚ, d₂.mem .inBuff = d₁.mem .outBuff →
        (d₂.mem .outBuff).length = 2 * 4 →
        ∃ d₃, TransposeMatrixGPU okEnv .inBuff .outBuff 4 2 d₂ = .ret (true, d₃) ∧
          d₃.mem .outBuff = [1, 2, 3, 4, 5, 6, 7, 8] :=
  TransposeMatrixGPU_twice okEnv (fun _ => rfl) .inBuff .outBuff (by decide) 2 4
    (deviceWith [1, 2, 3, 4, 5, 6, 7, 8]) rfl rfl

/-! ## `CleanNoise`: rejected dimensions -/

theorem GetNumLevels_100 : (GetNumLevels 100).1 = false := by
  rw [GetNumLevels_eq 100 (by norm_num) (by norm_num)]
  have : Nat.log 2 100 = 6 := by
    rw [Nat.log_eq_iff (by norm_num)]
    norm_num
  simp [this]

/-- C2 (the code at the failing input): on a 100 × 256 image `CleanNoise` returns the status
`0`, the status of a successful run, with `out` and the device as they were. -/
theorem CleanNoise_100_256 [FloorRing K] (env : OpenCLEnv) (INV_SQRT_2 SQRT_2 : K)
    (inp out : List Nat) (thresh : K) (isSoftThresh : Bool) (d : Device K) :
    CleanNoise env INV_SQRT_2 SQRT_2 inp out 100 256 thresh isSoftThresh d =
      .ret (0, out, d) := by
  unfold CleanNoise
  rw [if_pos GetNumLevels_100]
  rfl

theorem GetNumLevels_not_pow (N : Nat) (h : ¬ ∃ k, N = 2 ^ k) : (GetNumLevels N).1 = false := by
  simp only [GetNumLevels, logQuotient, Nat.one_shiftLeft, decide_eq_false_iff_not]
  intro heq
  by_cases hL : Nat.log 2 N < 32
  · have hlt : 2 ^ Nat.log 2 N < 2 ^ 32 := Nat.pow_lt_pow_right (by norm_num) hL
    rw [Nat.mod_eq_of_lt hlt] at heq
    exact h ⟨_, heq.symm⟩
  · have hdvd : 2 ^ 32 ∣ 2 ^ Nat.log 2 N := Nat.pow_dvd_pow 2 (by omega)
    rw [Nat.mod_eq_zero_of_dvd hdvd] at heq
    rw [← heq] at hL
    exact hL (by simp)

/-- C3: when the width or the height is not a power of two, `CleanNoise` returns with `out`
and the state of the device as they were at the call: no host or device buffer has been
allocated, no runtime call has been issued, no cell of `out` has been written. -/
theorem CleanNoise_rejected_untouched [FloorRing K] (env : OpenCLEnv) (INV_SQRT_2 SQRT_2 : K)
    (inp out : List Nat) (width height : Nat) (thresh : K) (isSoftThresh : Bool)
    (d : Device K) (hbad : (¬ ∃ k, width = 2 ^ k) ∨ (¬ ∃ k, height = 2 ^ k)) :
    ∃ status, CleanNoise env INV_SQRT_2 SQRT_2 inp out width height thresh isSoftThresh d =
      .ret (status, out, d) := by
  unfold CleanNoise
  by_cases h : (GetNumLevels width).1 = false
  · rw [if_pos h]
    exact ⟨_, rfl⟩
  · rw [if_neg h]
    have hhn : (GetNumLevels height).1 = false := by
      rcases hbad with hb | hb
      · exact absurd (GetNumLevels_not_pow width hb) h
      · exact GetNumLevels_not_pow height hb
    rw [if_pos hhn]
    exact ⟨_, rfl⟩

theorem CleanNoise_rejected_untouched_witness :
    ∃ status, CleanNoise okEnv INV_SQRT_2_f32 SQRT_2_f32 [] [7, 7, 7] 256 100 (3 / 25) true
      (deviceWith ([] : List ℚ)) = .ret (status, [7, 7, 7], deviceWith []) :=
  CleanNoise_rejected_untouched okEnv INV_SQRT_2_f32 SQRT_2_f32 [] [7, 7, 7] 256 100 (3 / 25)
    true (deviceWith [])
    (Or.inr (by
      rintro ⟨k, hk⟩
      have h7 : k < 7 := by
        by_contra hc
        have : 2 ^ 7 ≤ 2 ^ k := Nat.pow_le_pow_right (by norm_num) (by omega)
        omega
      interval_cases k <;> omega))

/-! ## The execution capacity -/

/-! ## Dispatch grids -/

theorem roundedUp (n t : Nat) (hn : 1 ≤ n) (ht : 0 < t) :
    IsRoundedUp t n (((n - 1) / t + 1) * t) ∧ ((n - 1) / t + 1) * t < n + t ∧
    (t ∣ n → ((n - 1) / t + 1) * t = n) := by
  have h1 := tile_grid_covers n t ht
  have h2 : (n - 1) / t * t ≤ n - 1 := Nat.div_mul_le_self (n - 1) t
  have h3 : ((n - 1) / t + 1) * t = (n - 1) / t * t + t := by ring
  have hleast : ∀ m, t ∣ m → n ≤ m → ((n - 1) / t + 1) * t ≤ m := by
    rintro m ⟨q, rfl⟩ hm
    rw [Nat.mul_comm t q]
    apply Nat.mul_le_mul_right
    by_contra hc
    have hq : q ≤ (n - 1) / t := by omega
    have : q * t ≤ (n - 1) / t * t := Nat.mul_le_mul_right t hq
    rw [Nat.mul_comm t q] at hm
    omega
  refine ⟨⟨Dvd.intro_left _ rfl, h1, hleast⟩, by omega, fun hd => ?_⟩
  exact le_antisymm (hleast n hd le_rfl) h1

theorem subOne32_pos (n : Nat) (hn : 1 ≤ n) (h32 : n < 2 ^ 32) : subOne32 n = n - 1 := by
  unfold subOne32
  omega

/-- C19: for an element count `n ≥ 1` the grid `((n - 1) / t + 1) * t` of a dispatch is the
smallest multiple of `t` that is at least `n`, it equals `n` when `t` divides `n` and exceeds
`n` by less than `t`; `MatrixThreshGPU` enqueues its kernel on such a grid with `t = 256`,
`TransposeMatrixGPU` on such a grid with `t = 16` for the width and for the height. -/
theorem dispatch_grid_spec (env : OpenCLEnv) (hok : ∀ n, env.clErr n = CL_SUCCESS)
    (gInBuff gOutBuff : Mem) (thresh : K) (isSoftThresh : Bool) (d : Device K)
    (n width height : Nat) (hn : 1 ≤ n) (h32 : n < 2 ^ 32) (hw : 1 ≤ width)
    (hh : 1 ≤ height) :
    (∃ d', MatrixThreshGPU env gInBuff gOutBuff n thresh isSoftThresh d = .ret (true, d') ∧
      d'.events = d.events ++
        [.clEnqueueNDRangeKernel
          (if isSoftThresh then .MAT_ST_THRESH_KERNEL else .MAT_HT_THRESH_KERNEL)
          [gInBuff, gOutBuff] [] [((n - 1) / 256 + 1) * 256] [256],
        .clWaitForEvents, .clGetEventProfilingInfo, .clGetEventProfilingInfo]) ∧
    (IsRoundedUp 256 n (((n - 1) / 256 + 1) * 256) ∧ ((n - 1) / 256 + 1) * 256 < n + 256 ∧
      (256 ∣ n → ((n - 1) / 256 + 1) * 256 = n)) ∧
    (∃ d', TransposeMatrixGPU env gInBuff gOutBuff width height d = .ret (true, d') ∧
      d'.events = d.events ++ [.clEnqueueNDRangeKernel .MAT_TRANSPOSE_KERNEL
          [gInBuff, gOutBuff] [width, height]
          [((width - 1) / 16 + 1) * 16, ((height - 1) / 16 + 1) * 16] [16, 16],
        .clWaitForEvents, .clGetEventProfilingInfo, .clGetEventProfilingInfo]) ∧
    (IsRoundedUp 16 width (((width - 1) / 16 + 1) * 16) ∧
      ((width - 1) / 16 + 1) * 16 < width + 16 ∧
      (16 ∣ width → ((width - 1) / 16 + 1) * 16 = width)) ∧
    (IsRoundedUp 16 height (((height - 1) / 16 + 1) * 16) ∧
      ((height - 1) / 16 + 1) * 16 < height + 16 ∧
      (16 ∣ height → ((height - 1) / 16 + 1) * 16 = height)) := by
  refine ⟨⟨_, MatrixThreshGPU_run env hok gInBuff gOutBuff n thresh isSoftThresh d, ?_⟩,
    roundedUp n 256 hn (by norm_num),
    ⟨_, TransposeMatrixGPU_run env hok gInBuff gOutBuff width height d, ?_⟩,
    roundedUp width 16 hw (by norm_num), roundedUp height 16 hh (by norm_num)⟩
  · simp only [List.append_assoc, List.singleton_append, subOne32_pos n hn h32]
    rfl
  · simp only [List.append_assoc, List.singleton_append, TILE_SIZE]
    rfl

theorem dispatch_grid_spec_witness :
    IsRoundedUp 256 5 (((5 - 1) / 256 + 1) * 256) ∧ ((5 - 1) / 256 + 1) * 256 < 5 + 256 ∧
      (256 ∣ 5 → ((5 - 1) / 256 + 1) * 256 = 5) :=
  (dispatch_grid_spec okEnv (fun _ => rfl) .inBuff .outBuff (1 : ℚ) false (deviceWith tempBuff)
    5 512 512 (by norm_num) (by norm_num) (by norm_num) (by norm_num)).2.1

/-! ## The scaling coefficient -/

theorem rows_flat {α : Type} (g : Nat → List α) (N : Nat) (ng : Nat) :
    (∀ r, r < ng → (g r).length = N) →
    (((List.range ng).map g).flatten.length = ng * N ∧
      ∀ (tail : List α) (r : Nat), r < ng →
        ((((List.range ng).map g).flatten ++ tail).drop (r * N)).take N = g r) := by
  induction ng with
  | zero =>
    intro _
    exact ⟨by simp, fun _ r hr => absurd hr (Nat.not_lt_zero r)⟩
  | succ ng ih =>
    intro hg
    obtain ⟨hl, hr⟩ := ih (fun r hr => hg r (by omega))
    have hN := hg ng (by omega)
    rw [List.range_succ, List.map_append, List.flatten_append, List.map_cons, List.map_nil,
      List.flatten_cons, List.flatten_nil, List.append_nil]
    refine ⟨?_, fun tail r hlt => ?_⟩
    · rw [List.length_append, hl, hN]
      ring
    · rw [List.append_assoc]
      rcases Nat.lt_succ_iff_lt_or_eq.mp hlt with h | h
      · exact hr (g ng ++ tail) r h
      · subst h
        rw [List.drop_left' hl, List.take_left' hN]

theorem rowOf_mapRows {α : Type} (ng N : Nat) (f : List α → List α → List α) (a b : List α)
    (hf : ∀ r, r < ng → (f (rowOf N a r) (rowOf N b r)).length = N) (r : Nat) (hr : r < ng) :
    rowOf N (mapRows ng N f a b) r = f (rowOf N a r) (rowOf N b r) := by
  rw [rowOf, mapRows]
  exact (rows_flat (fun r => f (rowOf N a r) (rowOf N b r)) N ng hf).2 _ r hr

theorem length_mapRows {α : Type} (ng N : Nat) (f : List α → List α → List α) (a b : List α)
    (hf : ∀ r, r < ng → (f (rowOf N a r) (rowOf N b r)).length = N)
    (hb : b.length = ng * N) : (mapRows ng N f a b).length = ng * N := by
  rw [mapRows, List.length_append,
    (rows_flat (fun r => f (rowOf N a r) (rowOf N b r)) N ng hf).1, List.length_drop, hb]
  omega

theorem length_rowOf {α : Type} (N : Nat) (m : List α) (ng r : Nat) (hm : m.length = ng * N)
    (hr : r < ng) : (rowOf N m r).length = N := by
  rw [rowOf, List.length_take, List.length_drop, hm]
  have : (r + 1) * N ≤ ng * N := Nat.mul_le_mul_right N hr
  have e : (r + 1) * N = r * N + N := by ring
  omega

theorem rowOf_single {α : Type} (N : Nat) (m : List α) (hm : m.length = N) : rowOf N m 0 = m := by
  rw [rowOf, Nat.zero_mul, List.drop_zero, ← hm, List.take_length]

/-! ## Several levels of the decomposition -/

theorem haarDecomp_length_le (c : K) (k : Nat) : ∀ (n : Nat) (z : List K), z.length = 2 ^ n →
    k ≤ n → (haarDecomp c k z).length = 2 ^ n := by
  induction k with
  | zero => intro n z hz _; exact hz
  | succ k ih =>
    intro n z hz hk
    obtain ⟨n', rfl⟩ : ∃ n', n = n' + 1 := ⟨n - 1, by omega⟩
    have hp : 2 ^ (n' + 1) = 2 ^ n' * 2 := pow_succ 2 n'
    have h2 : z.length / 2 = 2 ^ n' := by omega
    rw [haarDecomp, List.length_append, ih n' _ (by rw [haarLow_length, h2]) (by omega),
      haarHigh_length, h2, hp]
    omega

theorem fwdGPUWhile_zero (env : OpenCLEnv) (c : K) (gInBuff gOutBuff gPartialBuff : Mem)
    (numGroups dataLen C l : Nat) (d : Device K) :
    fwdGPUWhile env c gInBuff gOutBuff gPartialBuff numGroups dataLen C 0 l d =
      .ret (0, l, d) := by
  rw [fwdGPUWhile, if_neg (lt_irrefl 0)]

theorem fwdGPUWhile_step (env : OpenCLEnv) (hok : ∀ n, env.clErr n = CL_SUCCESS) (c : K)
    (gInBuff gOutBuff gPartialBuff : Mem) (numGroups dataLen C t l k : Nat) (d : Device K)
    (ht : 0 < t) (hk : k = if l < C then l else C) (hk0 : k ≠ 0) :
    fwdGPUWhile env c gInBuff gOutBuff gPartialBuff numGroups dataLen C t l d =
      fwdGPUWhile env c gInBuff gOutBuff gPartialBuff numGroups dataLen C (t >>> k) (l - k)
        { mem := FWT_kernel c gInBuff gOutBuff k dataLen t (t * numGroups % 2 ^ 32 / t) d.mem
          events := d.events ++
            [.clEnqueueNDRangeKernel .FWT_KERNEL_IDX [gInBuff, gOutBuff, gPartialBuff]
              [k, dataLen] [t * numGroups % 2 ^ 32] [1 <<< subOne32 k]] ++
            [.clWaitForEvents] ++ [.clGetEventProfilingInfo] ++ [.clGetEventProfilingInfo]
          calls := d.calls + 1 + 1 + 1 + 1 } := by
  subst hk
  rw [fwdGPUWhile, if_pos ht, if_neg hk0]
  simp only [checked_ok env hok, waitAndTime_ok env hok, Run.bind]

theorem fwdDispatchLevels_step (events : List Event) (bufs : List Mem) (k dataLen : Nat)
    (g l : List Nat) :
    fwdDispatchLevels (events ++
        [.clEnqueueNDRangeKernel .FWT_KERNEL_IDX bufs [k, dataLen] g l] ++
        [.clWaitForEvents] ++ [.clGetEventProfilingInfo] ++ [.clGetEventProfilingInfo]) =
      fwdDispatchLevels events ++ [k] := by
  simp [fwdDispatchLevels, List.filterMap_append, fwdLevelOf]

theorem ceil_step (l C k : Nat) (hC : 1 ≤ C) (hl : 1 ≤ l) (hk : k = if l < C then l else C) :
    (l + C - 1) / C = (l - k + C - 1) / C + 1 := by
  split_ifs at hk with h
  · subst hk
    rw [Nat.sub_self, Nat.zero_add, Nat.div_eq_of_lt (by omega : C - 1 < C)]
    exact Nat.div_eq_of_lt_le (by omega) (by omega)
  · subst hk
    rw [← Nat.add_div_right _ (by omega : 0 < k)]
    congr 1
    omega

theorem shift_step (l k : Nat) (hk1 : 1 ≤ k) (hkl : k ≤ l) :
    2 ^ (l - 1) >>> k = if l - k = 0 then 0 else 2 ^ (l - k - 1) := by
  rw [Nat.shiftRight_eq_div_pow]
  split_ifs with h
  · exact Nat.div_eq_of_lt (Nat.pow_lt_pow_right (by norm_num) (by omega))
  · rw [Nat.pow_div (by omega) (by norm_num)]
    congr 1
    omega

theorem FWT_kernel_in (c : K) (gInBuff gOutBuff : Mem) (k dataLen t numGroups : Nat)
    (mem : Mem → List K) :
    FWT_kernel c gInBuff gOutBuff k dataLen t numGroups mem gInBuff =
      mapRows numGroups dataLen
        (fun a b => haarDecomp c k (a.take (2 * t)) ++ b.drop (2 * t))
        (mem gInBuff) (mem gInBuff) := by
  simp [FWT_kernel]

theorem FWT_kernel_out (c : K) (gInBuff gOutBuff : Mem) (hne : gInBuff ≠ gOutBuff)
    (k dataLen t numGroups : Nat) (mem : Mem → List K) :
    FWT_kernel c gInBuff gOutBuff k dataLen t numGroups mem gOutBuff =
      mapRows numGroups dataLen
        (fun a b => haarDecomp c k (a.take (2 * t)) ++ b.drop (2 * t))
        (mem gInBuff) (mem gOutBuff) := by
  simp [FWT_kernel, Function.update_noteq hne.symm]

theorem fwdStep_length (c : K) (k l N : Nat) (a b : List K) (hkl : k ≤ l) (hN : 2 ^ l ≤ N)
    (ha : a.length = N) (hb : b.length = N) :
    (haarDecomp c k (a.take (2 ^ l)) ++ b.drop (2 ^ l)).length = N := by
  rw [List.length_append, haarDecomp_length_le c k l _ (by rw [List.length_take, ha]; omega) hkl,
    List.length_drop, hb]
  omega

/-- The loop of `ForwardHaarTransformGPU` entered with `l` levels left and `2 ^ (l - 1)`
threads, when every runtime call succeeds: the exit, the number of calls and the levels of
the dispatches. -/
theorem fwdGPUWhile_pow (env : OpenCLEnv) (hok : ∀ n, env.clErr n = CL_SUCCESS) (c : K)
    (gInBuff gOutBuff gPartialBuff : Mem) (numGroups dataLen C : Nat) (hC : 1 ≤ C) :
    ∀ (l : Nat) (d : Device K),
      ∃ d', fwdGPUWhile env c gInBuff gOutBuff gPartialBuff numGroups dataLen C
          (if l = 0 then 0 else 2 ^ (l - 1)) l d = .ret (0, 0, d') ∧
        d'.calls = d.calls + 4 * ((l + C - 1) / C) ∧
        (∃ sched, fwdDispatchLevels d'.events = fwdDispatchLevels d.events ++ sched ∧
          sched.length = (l + C - 1) / C ∧ (∀ k ∈ sched, 1 ≤ k ∧ k ≤ C) ∧ sched.sum = l) := by
  intro l
  induction l using Nat.strong_induction_on with
  | _ l ih =>
    intro d
    by_cases hl : l = 0
    · subst hl
      refine ⟨d, ?_, ?_, ⟨[], ?_, ?_, ?_, ?_⟩⟩
      · rw [if_pos rfl, fwdGPUWhile_zero]
      · rw [Nat.zero_add, Nat.div_eq_of_lt (by omega : C - 1 < C)]; rfl
      · rw [List.append_nil]
      · rw [Nat.zero_add, Nat.div_eq_of_lt (by omega : C - 1 < C)]; rfl
      · intro k hk; cases hk
      · rfl
    · obtain ⟨k, hk⟩ : ∃ k, k = if l < C then l else C := ⟨_, rfl⟩
      have hk1 : 1 ≤ k := by split_ifs at hk <;> omega
      have hkl : k ≤ l := by split_ifs at hk <;> omega
      have hkC : k ≤ C := by split_ifs at hk <;> omega
      rw [if_neg hl, fwdGPUWhile_step env hok c gInBuff gOutBuff gPartialBuff numGroups dataLen C
        (2 ^ (l - 1)) l k d (by positivity) hk (by omega), shift_step l k hk1 hkl]
      obtain ⟨d', hrun, hcalls, ⟨sched, hs1, hs2, hs3, hs4⟩⟩ :=
        ih (l - k) (by omega)
          { mem := FWT_kernel c gInBuff gOutBuff k dataLen (2 ^ (l - 1))
              (2 ^ (l - 1) * numGroups % 2 ^ 32 / 2 ^ (l - 1)) d.mem
            events := d.events ++
              [.clEnqueueNDRangeKernel .FWT_KERNEL_IDX [gInBuff, gOutBuff, gPartialBuff]
                [k, dataLen] [2 ^ (l - 1) * numGroups % 2 ^ 32] [1 <<< subOne32 k]] ++
              [.clWaitForEvents] ++ [.clGetEventProfilingInfo] ++ [.clGetEventProfilingInfo]
            calls := d.calls + 1 + 1 + 1 + 1 }
      refine ⟨d', hrun, ?_, ⟨k :: sched, ?_, ?_, ?_, ?_⟩⟩
      · rw [hcalls, ceil_step l C k hC (by omega) hk]
        show d.calls + 1 + 1 + 1 + 1 + _ = _
        ring
      · rw [hs1, fwdDispatchLevels_step, List.append_assoc, List.singleton_append]
      · rw [List.length_cons, hs2, ceil_step l C k hC (by omega) hk]
      · intro j hj
        rcases List.mem_cons.mp hj with h | h
        · subst h; exact ⟨hk1, hkC⟩
        · exact hs3 j h
      · rw [List.sum_cons, hs4]; omega

theorem half_pow (L : Nat) (hL : 1 ≤ L) : 2 ^ L >>> 1 = if L = 0 then 0 else 2 ^ (L - 1) := by
  rw [if_neg (by omega), Nat.shiftRight_eq_div_pow, pow_one]
  obtain ⟨l, rfl⟩ : ∃ l, L = l + 1 := ⟨L - 1, by omega⟩
  rw [pow_succ, Nat.add_sub_cancel, Nat.mul_div_cancel _ (by norm_num)]

theorem ceil_div_spec (L C : Nat) (hC : 1 ≤ C) (hL : 1 ≤ L) :
    L ≤ (L + C - 1) / C * C ∧ ((L + C - 1) / C - 1) * C < L := by
  have h1 := Nat.div_add_mod (L + C - 1) C
  have h2 := Nat.mod_lt (L + C - 1) (by omega : 0 < C)
  have h3 : 1 ≤ (L + C - 1) / C := (Nat.one_le_div_iff (by omega)).mpr (by omega)
  obtain ⟨q, hq⟩ : ∃ q, (L + C - 1) / C = q + 1 := ⟨(L + C - 1) / C - 1, by omega⟩
  rw [hq] at h1 ⊢
  rw [Nat.add_sub_cancel]
  have e1 : C * (q + 1) = q * C + C := by ring
  have e2 : (q + 1) * C = q * C + C := by ring
  constructor <;> omega

theorem maxLevelsOnDevice_pow (env : OpenCLEnv) (kernel : KernelIndices) (c : Nat)
    (hc : c < 32) (h : env.m_kernelWorkGroupSizes kernel = 2 ^ c) :
    maxLevelsOnDevice env kernel = c + 1 := by
  rw [maxLevelsOnDevice, h, GetNumLevels_eq (2 ^ c) Nat.one_le_two_pow
    (Nat.pow_lt_pow_right (by norm_num) hc), Nat.log_pow (by norm_num)]

/-- C12: with every runtime call succeeding, `dataLen = 2 ^ L`, `numLevels = L ≥ 1` and
capacity `C ≥ 1`, the loop of `ForwardHaarTransformGPU` exits with `numThreadsLeft = 0` and
`numLevelsLeft = 0` after `(L + C - 1) / C` dispatches, the least `n` with `L ≤ n * C`; each
dispatch takes between 1 and `C` levels and the levels add up to `L`; one iteration entered
with `l ≥ 1` levels left passes to `l - min l C < l` levels left. -/
theorem fwdGPUWhile_terminates (env : OpenCLEnv) (hok : ∀ n, env.clErr n = CL_SUCCESS)
    (INV_SQRT_2 : K) (gInBuff gOutBuff gPartialBuff : Mem) (numGroups C L : Nat)
    (d : Device K) (hC : 1 ≤ C) (hL : 1 ≤ L) :
    (∃ d', fwdGPUWhile env INV_SQRT_2 gInBuff gOutBuff gPartialBuff numGroups (2 ^ L) C
        (2 ^ L >>> 1) L d = .ret (0, 0, d') ∧
      ∃ sched, fwdDispatchLevels d'.events = fwdDispatchLevels d.events ++ sched ∧
        sched.length = (L + C - 1) / C ∧ (∀ k ∈ sched, 1 ≤ k ∧ k ≤ C) ∧ sched.sum = L) ∧
    (L ≤ (L + C - 1) / C * C ∧ ((L + C - 1) / C - 1) * C < L) ∧
    (∀ (t l : Nat) (d0 : Device K), 0 < t → 1 ≤ l →
      l - min l C < l ∧
      ∃ d1, fwdGPUWhile env INV_SQRT_2 gInBuff gOutBuff gPartialBuff numGroups (2 ^ L) C t l
          d0 =
        fwdGPUWhile env INV_SQRT_2 gInBuff gOutBuff gPartialBuff numGroups (2 ^ L) C
          (t >>> min l C) (l - min l C) d1) := by
  obtain ⟨d', hrun, _, hs⟩ :=
    fwdGPUWhile_pow env hok INV_SQRT_2 gInBuff gOutBuff gPartialBuff numGroups (2 ^ L) C hC L d
  refine ⟨⟨d', ?_, hs⟩, ceil_div_spec L C hC hL, fun t l d0 ht hl => ?_⟩
  · rw [half_pow L hL, hrun]
  · have hm : min l C = if l < C then l else C := by
      rw [Nat.min_def]
      split_ifs <;> omega
    have hm1 : 1 ≤ min l C := le_min hl hC
    exact ⟨by omega, _, fwdGPUWhile_step env hok INV_SQRT_2 gInBuff gOutBuff gPartialBuff
      numGroups (2 ^ L) C t l (min l C) d0 ht hm (by omega)⟩

theorem fwdGPUWhile_terminates_witness :
    (∃ d', fwdGPUWhile okEnv (1 / 2 : ℚ) .inBuff .outBuff .partBuff 1 (2 ^ 7) 3
        (2 ^ 7 >>> 1) 7 (deviceWith []) = .ret (0, 0, d') ∧
      ∃ sched, fwdDispatchLevels d'.events =
          fwdDispatchLevels (deviceWith ([] : List ℚ)).events ++ sched ∧
        sched.length = (7 + 3 - 1) / 3 ∧ (∀ k ∈ sched, 1 ≤ k ∧ k ≤ 3) ∧ sched.sum = 7) ∧
    (7 ≤ (7 + 3 - 1) / 3 * 3 ∧ ((7 + 3 - 1) / 3 - 1) * 3 < 7) :=
  ⟨(fwdGPUWhile_terminates okEnv (fun _ => rfl) (1 / 2 : ℚ) .inBuff .outBuff .partBuff 1 3 7
      (deviceWith []) (by decide) (by decide)).1,
    (fwdGPUWhile_terminates okEnv (fun _ => rfl) (1 / 2 : ℚ) .inBuff .outBuff .partBuff 1 3 7
      (deviceWith ([] : List ℚ)) (by decide) (by decide)).2.1⟩

/-! ## `InverseHaarTransformGPU` -/

theorem rowOf_append_left {α : Type} (N : Nat) (x y : List α) (r : Nat)
    (h : (r + 1) * N ≤ x.length) : rowOf N (x ++ y) r = rowOf N x r := by
  have e : (r + 1) * N = r * N + N := by ring
  rw [rowOf, rowOf, List.drop_append_of_le_length (by omega),
    List.take_append_of_le_length (by rw [List.length_drop]; omega)]

theorem InverseHaarTransformGPU_run (env : OpenCLEnv) (hok : ∀ n, env.clErr n = CL_SUCCESS)
    (SQRT_2 : K) (gInBuff gOutBuff gPartialBuff : Mem) (numGroups numLevels dataLen k : Nat)
    (d : Device K)
    (hk : k = if numLevels < maxLevelsOnDevice env .IWT_KERNEL then numLevels
      else maxLevelsOnDevice env .IWT_KERNEL) (hk0 : k ≠ 0) :
    InverseHaarTransformGPU env SQRT_2 gInBuff gOutBuff gPartialBuff numGroups numLevels
        dataLen d =
      .ret (true,
        { mem := Function.update (IWT_kernel SQRT_2 gInBuff k dataLen numGroups d.mem) gOutBuff
            (memcpy (IWT_kernel SQRT_2 gInBuff k dataLen numGroups d.mem gOutBuff)
              (IWT_kernel SQRT_2 gInBuff k dataLen numGroups d.mem gInBuff)
              (numGroups * dataLen % 2 ^ 32))
          events := d.events ++
            [.clEnqueueNDRangeKernel .IWT_KERNEL [gInBuff] [k, dataLen]
              [1 <<< subOne32 k * numGroups] [1 <<< subOne32 k]] ++
            [.clWaitForEvents] ++ [.clGetEventProfilingInfo] ++ [.clGetEventProfilingInfo] ++
            [.clEnqueueCopyBuffer gInBuff gOutBuff (numGroups * dataLen % 2 ^ 32 * 4)] ++
            [.clWaitForEvents]
          calls := d.calls + 1 + 1 + 1 + 1 + 1 + 1 }) := by
  subst hk
  rw [InverseHaarTransformGPU]
  simp only [if_neg hk0, checked_ok env hok, waitAndTime_ok env hok, Run.bind, id]

theorem IWT_kernel_in (s : K) (gInBuff : Mem) (k dataLen numGroups : Nat)
    (mem : Mem → List K) :
    IWT_kernel s gInBuff k dataLen numGroups mem gInBuff =
      mapRows numGroups dataLen
        (fun a _ => haarRecon s k (a.take (2 ^ k)) ++ a.drop (2 ^ k))
        (mem gInBuff) (mem gInBuff) := by
  simp [IWT_kernel]

theorem invStep_length (s : K) (k N : Nat) (a : List K) (hN : 2 ^ k ≤ N)
    (ha : a.length = N) :
    (haarRecon s k (a.take (2 ^ k)) ++ a.drop (2 ^ k)).length = N := by
  rw [List.length_append, haarRecon_length s k _ (by rw [List.length_take, ha]; omega),
    List.length_drop, ha]
  omega

theorem InverseHaarTransformGPU_rows (s : K) (gInBuff gOutBuff : Mem)
    (numGroups dataLen k : Nat) (mem : Mem → List K)
    (hin : (mem gInBuff).length = numGroups * dataLen) (hN : 2 ^ k ≤ dataLen) (r : Nat)
    (hr : r < numGroups) :
    rowOf dataLen
        (Function.update (IWT_kernel s gInBuff k dataLen numGroups mem) gOutBuff
          (memcpy (IWT_kernel s gInBuff k dataLen numGroups mem gOutBuff)
            (IWT_kernel s gInBuff k dataLen numGroups mem gInBuff) (numGroups * dataLen))
          gOutBuff) r =
      haarRecon s k ((rowOf dataLen (mem gInBuff) r).take (2 ^ k)) ++
        (rowOf dataLen (mem gInBuff) r).drop (2 ^ k) := by
  have hlen : ∀ r, r < numGroups →
      (haarRecon s k ((rowOf dataLen (mem gInBuff) r).take (2 ^ k)) ++
        (rowOf dataLen (mem gInBuff) r).drop (2 ^ k)).length = dataLen := fun r hr =>
    invStep_length s k dataLen _ hN (length_rowOf dataLen _ numGroups r hin hr)
  have hl := length_mapRows numGroups dataLen
    (fun a _ => haarRecon s k (a.take (2 ^ k)) ++ a.drop (2 ^ k)) (mem gInBuff) (mem gInBuff)
    hlen hin
  rw [Function.update_same, memcpy, IWT_kernel_in, List.take_of_length_le (le_of_eq hl),
    rowOf_append_left _ _ _ _ (by rw [hl]; exact Nat.mul_le_mul_right dataLen hr),
    rowOf_mapRows _ _ _ _ _ hlen r hr]

theorem shift_subOne32 (k : Nat) (hk : 1 ≤ k) (h32 : k < 2 ^ 32) :
    1 <<< subOne32 k = 2 ^ (k - 1) := by
  rw [subOne32_pos k hk h32, Nat.one_shiftLeft]

/-- C14: with every runtime call succeeding, capacity `C = maxLevelsOnDevice`,
`numLevels = L` with `1 ≤ L ≤ 30` (so that the shifts stay inside `int`) and
`numGroups * dataLen < 2 ^ 32` (so that the 32-bit product of the copy does not wrap),
`InverseHaarTransformGPU` returns after one dispatch of `IWT_kernel` with
`currLevels = min L C`, local size `2 ^ (currLevels - 1)` and global size
`2 ^ (currLevels - 1) * numGroups`, its wait and two profiling queries, one copy of
`numGroups * dataLen` floats from `gInBuff` to `gOutBuff` and its wait; `L - min L C` is `0`
exactly when `L ≤ C`; each row of `gOutBuff` then holds `min L C` inverse levels of the row
of `gInBuff`, which for `L ≤ C` and `dataLen = 2 ^ L` is what `InverseHaarTransformCPU`
computes. -/
theorem InverseHaarTransformGPU_spec (env : OpenCLEnv) (hok : ∀ n, env.clErr n = CL_SUCCESS)
    (SQRT_2 : K) (gInBuff gOutBuff gPartialBuff : Mem) (numGroups C L dataLen : Nat)
    (d : Device K) (hcap : maxLevelsOnDevice env .IWT_KERNEL = C) (hC : 1 ≤ C) (hL : 1 ≤ L)
    (hL30 : L ≤ 30) (hcopy : numGroups * dataLen < 2 ^ 32) :
    ∃ d', InverseHaarTransformGPU env SQRT_2 gInBuff gOutBuff gPartialBuff numGroups L dataLen
        d = .ret (true, d') ∧
      d'.events = d.events ++
        [.clEnqueueNDRangeKernel .IWT_KERNEL [gInBuff] [min L C, dataLen]
            [2 ^ (min L C - 1) * numGroups] [2 ^ (min L C - 1)],
          .clWaitForEvents, .clGetEventProfilingInfo, .clGetEventProfilingInfo,
          .clEnqueueCopyBuffer gInBuff gOutBuff (numGroups * dataLen * 4),
          .clWaitForEvents] ∧
      (L - min L C = 0 ↔ L ≤ C) ∧
      ((d.mem gInBuff).length = numGroups * dataLen → 2 ^ min L C ≤ dataLen →
        ∀ r, r < numGroups →
          rowOf dataLen (d'.mem gOutBuff) r =
            haarRecon SQRT_2 (min L C) ((rowOf dataLen (d.mem gInBuff) r).take (2 ^ min L C)) ++
              (rowOf dataLen (d.mem gInBuff) r).drop (2 ^ min L C)) ∧
      (L ≤ C → dataLen = 2 ^ L → (d.mem gInBuff).length = numGroups * dataLen →
        ∀ r, r < numGroups → ∀ out : List K, out.length = 2 ^ L →
          rowOf dataLen (d'.mem gOutBuff) r =
            InverseHaarTransformCPU SQRT_2 (rowOf dataLen (d.mem gInBuff) r) (2 ^ L) out) := by
  have hm : min L C = if L < maxLevelsOnDevice env .IWT_KERNEL then L
      else maxLevelsOnDevice env .IWT_KERNEL := by
    rw [hcap, Nat.min_def]
    split_ifs <;> omega
  have hm1 : 1 ≤ min L C := le_min hL hC
  have hm32 : min L C < 2 ^ 32 :=
    lt_of_le_of_lt (min_le_left L C) (lt_of_le_of_lt hL30 (by norm_num))
  have hrun := InverseHaarTransformGPU_run env hok SQRT_2 gInBuff gOutBuff gPartialBuff
    numGroups L dataLen (min L C) d hm (by omega)
  rw [Nat.mod_eq_of_lt hcopy] at hrun
  refine ⟨_, hrun, ?_, ?_, ?_, ?_⟩
  · simp only [List.append_assoc, List.singleton_append, shift_subOne32 _ hm1 hm32]
    rfl
  · constructor
    · intro h
      have := min_le_right L C
      omega
    · intro h
      rw [min_eq_left h, Nat.sub_self]
  · intro hin hN r hr
    exact InverseHaarTransformGPU_rows SQRT_2 gInBuff gOutBuff numGroups dataLen (min L C) d.mem
      hin hN r hr
  · intro hLC hN hin r hr out ho
    subst hN
    have ha := length_rowOf (2 ^ L) _ numGroups r hin hr
    have h := InverseHaarTransformGPU_rows SQRT_2 gInBuff gOutBuff numGroups (2 ^ L) (min L C)
      d.mem hin (by rw [min_eq_left hLC]) r hr
    refine h.trans ?_
    rw [min_eq_left hLC,
      InverseHaarTransformCPU_eq SQRT_2 L _ out hL ha ho,
      List.take_of_length_le (le_of_eq ha), List.drop_of_length_le (le_of_eq ha),
      List.append_nil]

theorem InverseHaarTransformGPU_spec_witness :
    maxLevelsOnDevice (envWith 4) .IWT_KERNEL = 3 ∧
    ∃ d', InverseHaarTransformGPU (envWith 4) (2 : ℚ) .inBuff .outBuff .partBuff 1 4 16
        (deviceWith [1, 2, 3, 4, 5, 6, 7, 8, 9, 10, 11, 12, 13, 14, 15, 16]) =
          .ret (true, d') ∧
      d'.events =
        (deviceWith ([1, 2, 3, 4, 5, 6, 7, 8, 9, 10, 11, 12, 13, 14, 15, 16] : List ℚ)).events ++
        [.clEnqueueNDRangeKernel .IWT_KERNEL [.inBuff] [min 4 3, 16]
            [2 ^ (min 4 3 - 1) * 1] [2 ^ (min 4 3 - 1)],
          .clWaitForEvents, .clGetEventProfilingInfo, .clGetEventProfilingInfo,
          .clEnqueueCopyBuffer .inBuff .outBuff (1 * 16 * 4),
          .clWaitForEvents] ∧
      (4 - min 4 3 = 0 ↔ 4 ≤ 3) := by
  obtain ⟨d', h1, h2, h3, _⟩ := InverseHaarTransformGPU_spec (envWith 4) (fun _ => rfl) (2 : ℚ)
    .inBuff .outBuff .partBuff 1 3 4 16
    (deviceWith [1, 2, 3, 4, 5, 6, 7, 8, 9, 10, 11, 12, 13, 14, 15, 16])
    (maxLevelsOnDevice_pow (envWith 4) .IWT_KERNEL 2 (by decide) rfl) (by decide) (by decide)
    (by decide) (by norm_num)
  exact ⟨maxLevelsOnDevice_pow (envWith 4) .IWT_KERNEL 2 (by decide) rfl, d', h1, h2, h3⟩

/-! ## `ReadFileFloat` -/

theorem readWhile_stop {α : Type} (fh : fstream α) (token : α) (dataRead : List α)
    (h : fh.good = false) : readWhile fh token dataRead = dataRead := by
  rw [readWhile, if_neg (by rw [h]; exact Bool.noConfusion)]

theorem readWhile_last {α : Type} (tw : Bool) (token : α) (dataRead : List α) :
    readWhile { rest := [], trailingWhitespace := tw, eofbit := false, failbit := false } token
      dataRead = dataRead ++ [token] := by
  have hg : fstream.good
      ({ rest := [], trailingWhitespace := tw, eofbit := false, failbit := false } :
        fstream α) = true := rfl
  rw [readWhile, if_pos hg]
  exact readWhile_stop _ _ _ rfl

theorem readWhile_cons {α : Type} (tw : Bool) (v : α) (rest : List α) (token : α)
    (dataRead : List α) :
    readWhile { rest := v :: rest, trailingWhitespace := tw, eofbit := false, failbit := false }
        token dataRead =
      readWhile { rest := rest, trailingWhitespace := tw, eofbit := rest.isEmpty && !tw,
                  failbit := false } v (dataRead ++ [v]) := by
  have hg : fstream.good
      ({ rest := v :: rest, trailingWhitespace := tw, eofbit := false, failbit := false } :
        fstream α) = true := rfl
  rw [readWhile, if_pos hg]
  rfl

theorem readWhile_trailing {α : Type} (vs : List α) : ∀ (token : α) (dataRead : List α),
    ∃ t, readWhile { rest := vs, trailingWhitespace := true, eofbit := false, failbit := false }
      token dataRead = dataRead ++ vs ++ [t] := by
  induction vs with
  | nil =>
    intro token dataRead
    exact ⟨token, by rw [readWhile_last, List.append_nil]⟩
  | cons v rest ih =>
    intro token dataRead
    obtain ⟨t, ht⟩ := ih v (dataRead ++ [v])
    refine ⟨t, ?_⟩
    rw [readWhile_cons, Bool.not_true, Bool.and_false, ht, List.append_assoc dataRead,
      List.singleton_append]

theorem readWhile_no_trailing {α : Type} (vs : List α) : ∀ (token : α) (dataRead : List α),
    vs ≠ [] →
    readWhile { rest := vs, trailingWhitespace := false, eofbit := false, failbit := false }
      token dataRead = dataRead ++ vs := by
  induction vs with
  | nil => intro _ _ h; exact absurd rfl h
  | cons v rest ih =>
    intro token dataRead _
    rw [readWhile_cons, Bool.not_false, Bool.and_true]
    cases rest with
    | nil => exact readWhile_stop _ _ _ rfl
    | cons w rest =>
      show readWhile
        { rest := w :: rest, trailingWhitespace := false, eofbit := false, failbit := false }
        v (dataRead ++ [v]) = _
      rw [ih v (dataRead ++ [v]) (List.cons_ne_nil w rest), List.append_assoc,
        List.singleton_append]

theorem memcpy_all (x : List K) (h : x.length < 2 ^ 32) :
    memcpy (List.replicate x.length 0) x (x.length % 2 ^ 32) = x := by
  rw [Nat.mod_eq_of_lt h, memcpy_fresh]

/-- C18 (the code on the files of the claim): for `k ≥ 1` values, `k < 2 ^ 32`, read with
`*data == NULL`, `ReadFileFloat` returns true; when whitespace follows the last value it
stores `k` in `*len` and the `k` values in file order, and when the file ends with the last
value it stores `k - 1` and leaves the last value out. -/
theorem ReadFileFloat_spec (vals : List K) (len : Nat) (token : K) (hk : 1 ≤ vals.length)
    (h32 : vals.length < 2 ^ 32) :
    ReadFileFloat (some { values := vals, trailingWhitespace := true }) none len token =
      (true, some vals, vals.length) ∧
    ReadFileFloat (some { values := vals, trailingWhitespace := false }) none len token =
      (true, some vals.dropLast, vals.length - 1) := by
  have hne : vals ≠ [] := by
    intro h
    rw [h] at hk
    simp at hk
  constructor
  · obtain ⟨t, ht⟩ := readWhile_trailing vals token []
    simp only [ReadFileFloat, ht, List.nil_append, List.dropLast_concat]
    rw [memcpy_all vals h32, Nat.mod_eq_of_lt h32]
  · simp only [ReadFileFloat, readWhile_no_trailing vals token [] hne, List.nil_append]
    have hl : vals.dropLast.length < 2 ^ 32 := by
      rw [List.length_dropLast]
      omega
    rw [memcpy_all _ hl, Nat.mod_eq_of_lt hl, List.length_dropLast]

theorem ReadFileFloat_spec_witness :
    ReadFileFloat (some { values := ([1, 2] : List ℚ), trailingWhitespace := true }) none 0 0 =
      (true, some [1, 2], 2) ∧
    ReadFileFloat (some { values := ([1, 2] : List ℚ), trailingWhitespace := false }) none 0 0 =
      (true, some [1], 1) :=
  ReadFileFloat_spec ([1, 2] : List ℚ) 0 0 (by decide) (by decide)

/-! ## The order of the stages of `CleanNoise` -/

theorem runStages_nil_bind {β : Type} (env : OpenCLEnv) (c s thresh : K) (soft : Bool)
    (d : Device K) (k : Bool × Device K → Run β) :
    (runStages env c s thresh soft [] d).bind k = k (true, d) := rfl

theorem runStages_cons_bind {β : Type} (env : OpenCLEnv) (c s thresh : K) (soft : Bool)
    (st : Stage) (rest : List Stage) (d : Device K) (k : Bool × Device K → Run β) :
    (runStages env c s thresh soft (st :: rest) d).bind k =
      (st.run env c s thresh soft d).bind fun r =>
        if r.1 = false then k (false, r.2)
        else (runStages env c s thresh soft rest r.2).bind k := by
  rw [runStages]
  cases st.run env c s thresh soft d with
  | ret r =>
    simp only [Run.bind]
    split_ifs <;> rfl
  | exit code => rfl
  | ub => rfl

/-- C15: for every accepted `width` and `height` with `width * height < 2 ^ 30` (the pixel
count and the buffer size in bytes fit their 32-bit variables), `CleanNoise` is the upload of
the pixels to `inBuff`, then the stages forward (`height` signals, `log2 width` levels, length
`width`), transpose (`width`, `height`), forward (`width` signals, `log2 height` levels, length
`height`), threshold over `width * height` cells, inverse (`width`, `log2 height`, `height`),
transpose (`height`, `width`), inverse (`height`, `log2 width`, `width`) in this order, then the
download of `width * height` floats from `outBuff`, the conversion of each of them to a gray
level and the release of the three buffers; a stage that returns false ends the run with
status 1.  Each stage reads the buffer the stage before it wrote, the first reads the uploaded
buffer and the download reads the buffer the last stage wrote.  What the conversion
`(char)(v*255.f)` makes of a value is left open. -/
theorem CleanNoise_stages [FloorRing K] (env : OpenCLEnv) (INV_SQRT_2 SQRT_2 : K)
    (inp out : List Nat) (width height : Nat) (thresh : K) (isSoftThresh : Bool)
    (d : Device K) (hw : (GetNumLevels width).1 = true)
    (hh : (GetNumLevels height).1 = true) (hpix : width * height < 2 ^ 30) :
    (∃ toGray : K → Nat,
      CleanNoise env INV_SQRT_2 SQRT_2 inp out width height thresh isSoftThresh d =
        ((env.checked (.clEnqueueWriteBuffer .inBuff (width * height * 4))
          (fun mem => Function.update mem .inBuff
            (memcpy (mem .inBuff)
              ((List.range (width * height)).map fun i => (inp.getD i 0 : K) / 255)
              (width * height)))
          ((((d.record (.newFloats (width * height))).create .inBuff (width * height)).create
            .outBuff (width * height)).create .partBuff width)).bind fun d =>
        (runStages env INV_SQRT_2 SQRT_2 thresh isSoftThresh (specStages width height) d).bind
          fun r =>
          if r.1 = false then .ret (1, out, r.2)
          else
            (env.checked (.clEnqueueReadBuffer .outBuff (width * height * 4)) id r.2).bind
              fun d =>
              .ret (0,
                (List.range (width * height)).foldl
                  (fun o i => o.set i (toGray ((memcpy
                    ((List.range (width * height)).map fun i => (inp.getD i 0 : K) / 255)
                    (d.mem .outBuff) (width * height)).getD i 0))) out,
                ((d.record (.clReleaseMemObject .inBuff)).record
                  (.clReleaseMemObject .outBuff)).record (.clReleaseMemObject .partBuff)))) ∧
    specStages width height =
      [.forward .inBuff .outBuff height (Nat.log 2 width) width,
       .transpose .outBuff .inBuff width height,
       .forward .inBuff .outBuff width (Nat.log 2 height) height,
       .threshold .outBuff .inBuff (width * height),
       .inverse .inBuff .outBuff width (Nat.log 2 height) height,
       .transpose .outBuff .inBuff height width,
       .inverse .inBuff .outBuff height (Nat.log 2 width) width] ∧
    chained (specStages width height) = true ∧
    (specStages width height).head?.map Stage.reads = some .inBuff ∧
    (specStages width height).getLast?.map Stage.writes = some .outBuff := by
  have e1 : width * height % 2 ^ 32 = width * height :=
    Nat.mod_eq_of_lt (lt_trans hpix (by norm_num))
  have e2 : width * height * 4 % 2 ^ 32 = width * height * 4 :=
    Nat.mod_eq_of_lt (by omega)
  have e3 : width * height * 4 / 4 = width * height := Nat.mul_div_cancel _ (by norm_num)
  refine ⟨⟨toGrayLevel, ?_⟩, rfl, rfl, rfl, rfl⟩
  rw [CleanNoise, if_neg (by rw [hw]; exact Bool.noConfusion),
    if_neg (by rw [hh]; exact Bool.noConfusion)]
  simp only [e1, e2, e3, specStages, runStages_cons_bind, runStages_nil_bind, Stage.run]
  rfl

theorem GetNumLevels_four : (GetNumLevels 4).1 = true :=
  (GetNumLevels_iff 4 (by norm_num) (by norm_num)).mpr ⟨2, rfl⟩

theorem CleanNoise_stages_witness :
    (GetNumLevels 4).1 = true ∧ 4 * 4 < 2 ^ 30 ∧
    (∃ toGray : ℚ → Nat,
      CleanNoise okEnv (1 / 2 : ℚ) 2 (List.replicate 16 255) (List.replicate 16 0) 4 4 0 true
          (deviceWith []) =
        ((okEnv.checked (.clEnqueueWriteBuffer .inBuff (4 * 4 * 4))
          (fun mem => Function.update mem .inBuff
            (memcpy (mem .inBuff)
              ((List.range (4 * 4)).map fun i =>
                (((List.replicate 16 255).getD i 0 : Nat) : ℚ) / 255)
              (4 * 4)))
          ((((Device.record (deviceWith ([] : List ℚ)) (.newFloats (4 * 4))).create .inBuff
            (4 * 4)).create .outBuff (4 * 4)).create .partBuff 4)).bind fun d =>
        (runStages okEnv (1 / 2 : ℚ) 2 0 true (specStages 4 4) d).bind
          fun r =>
          if r.1 = false then .ret (1, List.replicate 16 0, r.2)
          else
            (okEnv.checked (.clEnqueueReadBuffer .outBuff (4 * 4 * 4)) id r.2).bind
              fun d =>
              .ret (0,
                (List.range (4 * 4)).foldl
                  (fun o i => o.set i (toGray ((memcpy
                    ((List.range (4 * 4)).map fun i =>
                      (((List.replicate 16 255).getD i 0 : Nat) : ℚ) / 255)
                    (d.mem .outBuff) (4 * 4)).getD i 0))) (List.replicate 16 0),
                ((d.record (.clReleaseMemObject .inBuff)).record
                  (.clReleaseMemObject .outBuff)).record (.clReleaseMemObject .partBuff)))) ∧
    chained (specStages 4 4) = true :=
  ⟨GetNumLevels_four, by norm_num,
    (CleanNoise_stages okEnv (1 / 2 : ℚ) 2 (List.replicate 16 255) (List.replicate 16 0) 4 4 0
      true (deviceWith []) GetNumLevels_four GetNumLevels_four (by norm_num)).1,
    (CleanNoise_stages okEnv (1 / 2 : ℚ) 2 (List.replicate 16 255) (List.replicate 16 0) 4 4 0
      true (deviceWith []) GetNumLevels_four GetNumLevels_four (by norm_num)).2.2.1⟩

/-! ## Failing runtime calls -/

theorem Window.ret {X : Type} (env : OpenCLEnv) (post : X → Prop) (c : Nat) (x : X)
    (h : post x) : Window env post 0 c (.ret x) := by
  refine ⟨fun _ => ⟨x, rfl, h⟩, ?_⟩
  rintro ⟨m, h1, h2, _⟩
  omega

theorem Window.weaken {X : Type} (env : OpenCLEnv) (post post' : X → Prop) (T T' c : Nat)
    (run : Run X) (h : Window env post T c run) (hT : T = T') (hp : ∀ x, post x → post' x) :
    Window env post' T' c run := by
  subst hT
  refine ⟨fun hok => ?_, h.2⟩
  obtain ⟨x, hx, hpx⟩ := h.1 hok
  exact ⟨x, hx, hp x hpx⟩

theorem Window.checked {α : Type} (env : OpenCLEnv) (e : Event)
    (effect : (Mem → List α) → Mem → List α) (d : Device α) (c : Nat) (hc : d.calls = c) :
    Window env (fun d' : Device α => d'.calls = c + 1) 1 c (env.checked e effect d) := by
  subst hc
  constructor
  · intro hok
    have h := hok d.calls (le_refl _) (by omega)
    refine ⟨{ mem := effect d.mem, events := d.events ++ [e], calls := d.calls + 1 }, ?_, rfl⟩
    simp [OpenCLEnv.checked, CheckForError, h, Run.bind]
  · rintro ⟨m, h1, h2, h3⟩
    have hm : m = d.calls := by omega
    subst hm
    simp [OpenCLEnv.checked, CheckForError, h3, Run.bind]

theorem Window.bind {X Y : Type} (env : OpenCLEnv) (post₁ : X → Prop) (post₂ : Y → Prop)
    (T₁ T₂ c : Nat) (run : Run X) (f : X → Run Y) (h₁ : Window env post₁ T₁ c run)
    (h₂ : ∀ x, post₁ x → Window env post₂ T₂ (c + T₁) (f x)) :
    Window env post₂ (T₁ + T₂) c (run.bind f) := by
  constructor
  · intro hok
    obtain ⟨x, hx, hpx⟩ := h₁.1 (fun m h1 h2 => hok m h1 (by omega))
    obtain ⟨y, hy, hpy⟩ := (h₂ x hpx).1 (fun m h1 h2 => hok m (by omega) (by omega))
    exact ⟨y, by rw [hx]; exact hy, hpy⟩
  · rintro ⟨m, h1, h2, h3⟩
    by_cases hfail : ∃ m, c ≤ m ∧ m < c + T₁ ∧ env.clErr m ≠ CL_SUCCESS
    · rw [h₁.2 hfail]
      rfl
    · have hok : ∀ m, c ≤ m → m < c + T₁ → env.clErr m = CL_SUCCESS := by
        intro m' h1' h2'
        by_contra hne
        exact hfail ⟨m', h1', h2', hne⟩
      obtain ⟨x, hx, hpx⟩ := h₁.1 hok
      have hm : c + T₁ ≤ m := by
        by_contra hlt
        exact h3 (hok m h1 (by omega))
      rw [hx]
      exact (h₂ x hpx).2 ⟨m, hm, by omega, h3⟩

theorem waitAndTime_window {α : Type} (env : OpenCLEnv) (d : Device α) (c : Nat)
    (hc : d.calls = c) :
    Window env (fun d' : Device α => d'.calls = c + 3) 3 c (waitAndTime env d) := by
  refine Window.weaken env _ _ _ _ _ _
    (Window.bind env _ (fun d' : Device α => d'.calls = c + 1 + (1 + 1)) 1 (1 + 1) c _ _
      (Window.checked env .clWaitForEvents id d c hc)
      (fun x hx => Window.weaken env _ _ _ _ _ _
        (Window.bind env _ (fun d' : Device α => d'.calls = c + 1 + 1 + 1) 1 1 (c + 1) _ _
          (Window.checked env .clGetEventProfilingInfo id x (c + 1) hx)
          (fun y hy => Window.checked env .clGetEventProfilingInfo id y (c + 1 + 1) hy))
        rfl (fun _ h => h))) rfl (fun _ h => h)

theorem dispatch_window {α : Type} (env : OpenCLEnv) (e : Event)
    (effect : (Mem → List α) → Mem → List α) (d : Device α) (c : Nat) (hc : d.calls = c) :
    Window env (fun r : Bool × Device α => r.1 = true ∧ r.2.calls = c + 4) 4 c
      ((env.checked e effect d).bind fun d =>
        (waitAndTime env d).bind fun d => .ret (true, d)) := by
  refine Window.weaken env _ _ _ _ _ _
    (Window.bind env _ (fun r : Bool × Device α => r.1 = true ∧ r.2.calls = c + 1 + 3) 1
      (3 + 0) c _ _ (Window.checked env e effect d c hc)
      (fun x hx => Window.bind env _ _ 3 0 (c + 1) _ _ (waitAndTime_window env x (c + 1) hx)
        (fun y hy => Window.ret env _ _ _ ⟨rfl, hy⟩))) rfl (fun _ h => h)

theorem MatrixThreshGPU_window (env : OpenCLEnv) (gInBuff gOutBuff : Mem) (dataLen : Nat)
    (thresh : K) (isSoftThresh : Bool) (d : Device K) (c : Nat) (hc : d.calls = c) :
    Window env (fun r : Bool × Device K => r.1 = true ∧ r.2.calls = c + 4) 4 c
      (MatrixThreshGPU env gInBuff gOutBuff dataLen thresh isSoftThresh d) :=
  dispatch_window env _ _ d c hc

theorem TransposeMatrixGPU_window (env : OpenCLEnv) (gInBuff gOutBuff : Mem)
    (width height : Nat) (d : Device K) (c : Nat) (hc : d.calls = c) :
    Window env (fun r : Bool × Device K => r.1 = true ∧ r.2.calls = c + 4) 4 c
      (TransposeMatrixGPU env gInBuff gOutBuff width height d) :=
  dispatch_window env _ _ d c hc

theorem InverseHaarTransformGPU_window (env : OpenCLEnv) (SQRT_2 : K)
    (gInBuff gOutBuff gPartialBuff : Mem) (numGroups numLevels dataLen : Nat) (d : Device K)
    (c : Nat) (hc : d.calls = c) (hL : 1 ≤ numLevels) :
    Window env (fun r : Bool × Device K => r.1 = true ∧ r.2.calls = c + 6) 6 c
      (InverseHaarTransformGPU env SQRT_2 gInBuff gOutBuff gPartialBuff numGroups numLevels
        dataLen d) := by
  have hk0 : (if numLevels < maxLevelsOnDevice env .IWT_KERNEL then numLevels
      else maxLevelsOnDevice env .IWT_KERNEL) ≠ 0 := by
    unfold maxLevelsOnDevice
    split_ifs <;> omega
  rw [InverseHaarTransformGPU]
  simp only [if_neg hk0]
  refine Window.weaken env _ _ _ _ _ _
    (Window.bind env _ (fun r : Bool × Device K => r.1 = true ∧ r.2.calls = c + 1 + 3 + 1 + 1)
      1 (3 + (1 + (1 + 0))) c _ _ (Window.checked env _ _ d c hc)
      (fun x hx => Window.bind env _ _ 3 (1 + (1 + 0)) (c + 1) _ _
        (waitAndTime_window env x (c + 1) hx)
        (fun y hy => Window.bind env _ _ 1 (1 + 0) (c + 1 + 3) _ _
          (Window.checked env _ _ y (c + 1 + 3) hy)
          (fun z hz => Window.bind env _ _ 1 0 (c + 1 + 3 + 1) _ _
            (Window.checked env _ _ z (c + 1 + 3 + 1) hz)
            (fun w hw => Window.ret env _ _ _ ⟨rfl, hw⟩))))) rfl (fun _ h => h)

theorem fwdGPUWhile_window (env : OpenCLEnv) (c : K) (gInBuff gOutBuff gPartialBuff : Mem)
    (numGroups dataLen C : Nat) (hC : 1 ≤ C) :
    ∀ (l : Nat) (d : Device K) (n : Nat), d.calls = n →
      Window env (fun r : Nat × Nat × Device K => r.2.2.calls = n + 4 * ((l + C - 1) / C))
        (4 * ((l + C - 1) / C)) n
        (fwdGPUWhile env c gInBuff gOutBuff gPartialBuff numGroups dataLen C
          (if l = 0 then 0 else 2 ^ (l - 1)) l d) := by
  intro l
  induction l using Nat.strong_induction_on with
  | _ l ih =>
    intro d n hn
    by_cases hl : l = 0
    · subst hl
      rw [if_pos rfl, fwdGPUWhile_zero, Nat.zero_add, Nat.div_eq_of_lt (by omega : C - 1 < C)]
      exact Window.ret env _ _ _ hn
    · obtain ⟨k, hk⟩ : ∃ k, k = if l < C then l else C := ⟨_, rfl⟩
      have hk1 : 1 ≤ k := by split_ifs at hk <;> omega
      have hkl : k ≤ l := by split_ifs at hk <;> omega
      have hk0 : (if l < C then l else C) ≠ 0 := by rw [← hk]; omega
      rw [if_neg hl, fwdGPUWhile, if_pos (by positivity), if_neg hk0]
      simp only [← hk]
      rw [shift_step l k hk1 hkl]
      refine Window.weaken env _ _ _ _ _ _
        (Window.bind env _
          (fun r : Nat × Nat × Device K =>
            r.2.2.calls = n + 1 + 3 + 4 * ((l - k + C - 1) / C)) 1
          (3 + 4 * ((l - k + C - 1) / C)) n _ _ (Window.checked env _ _ d n hn)
          (fun x hx => Window.bind env _ _ 3 (4 * ((l - k + C - 1) / C)) (n + 1) _ _
            (waitAndTime_window env x (n + 1) hx)
            (fun y hy => ih (l - k) (by omega) y (n + 1 + 3) hy)))
        (by rw [ceil_step l C k hC (by omega) hk]; ring)
        (fun r hr => by rw [hr, ceil_step l C k hC (by omega) hk]; ring)

theorem ForwardHaarTransformGPU_window (env : OpenCLEnv) (INV_SQRT_2 : K)
    (gInBuff gOutBuff gPartialBuff : Mem) (numGroups L : Nat) (d : Device K) (n : Nat)
    (hn : d.calls = n) (hL : 1 ≤ L) :
    Window env
      (fun r : Bool × Device K => r.1 = true ∧ r.2.calls = n +
        4 * ((L + maxLevelsOnDevice env .FWT_KERNEL_IDX - 1) /
          maxLevelsOnDevice env .FWT_KERNEL_IDX))
      (4 * ((L + maxLevelsOnDevice env .FWT_KERNEL_IDX - 1) /
        maxLevelsOnDevice env .FWT_KERNEL_IDX)) n
      (ForwardHaarTransformGPU env INV_SQRT_2 gInBuff gOutBuff gPartialBuff numGroups L
        (2 ^ L) d) := by
  rw [ForwardHaarTransformGPU, half_pow L hL]
  exact Window.weaken env _ _ _ _ _ _
    (Window.bind env _ _ _ 0 n _ _
      (fwdGPUWhile_window env INV_SQRT_2 gInBuff gOutBuff gPartialBuff numGroups (2 ^ L)
        (maxLevelsOnDevice env .FWT_KERNEL_IDX) (Nat.succ_le_succ (Nat.zero_le _)) L d n hn)
      (fun x hx => Window.ret env
        (fun r : Bool × Device K => r.1 = true ∧ r.2.calls = n +
          4 * ((L + maxLevelsOnDevice env .FWT_KERNEL_IDX - 1) /
            maxLevelsOnDevice env .FWT_KERNEL_IDX)) _ _ ⟨rfl, hx⟩))
    rfl (fun _ h => h)

theorem GetNumLevels_pow (a : Nat) (ha : a < 32) : GetNumLevels (2 ^ a) = (true, a) := by
  rw [GetNumLevels_eq (2 ^ a) Nat.one_le_two_pow (Nat.pow_lt_pow_right (by norm_num) ha),
    Nat.log_pow (by norm_num)]
  simp

theorem CleanNoise_window [FloorRing K] (env : OpenCLEnv) (INV_SQRT_2 SQRT_2 : K)
    (inp out : List Nat) (a b : Nat) (thresh : K) (isSoftThresh : Bool) (d : Device K)
    (ha : 1 ≤ a) (hb : 1 ≤ b) (ha32 : a < 32) (hb32 : b < 32) :
    Window env
      (fun r : Int × List Nat × Device K =>
        r.1 = 0 ∧ r.2.2.calls = d.calls + cleanNoiseCalls env a b)
      (cleanNoiseCalls env a b) d.calls
      (CleanNoise env INV_SQRT_2 SQRT_2 inp out (2 ^ a) (2 ^ b) thresh isSoftThresh d) := by
  obtain ⟨F, hF⟩ : ∃ F : Nat → Nat, F = fun L =>
      4 * ((L + maxLevelsOnDevice env .FWT_KERNEL_IDX - 1) /
        maxLevelsOnDevice env .FWT_KERNEL_IDX) := ⟨_, rfl⟩
  have hfwd : ∀ (gI gO gP : Mem) (g L : Nat) (x : Device K) (n : Nat), x.calls = n → 1 ≤ L →
      Window env (fun r : Bool × Device K => r.1 = true ∧ r.2.calls = n + F L) (F L) n
        (ForwardHaarTransformGPU env INV_SQRT_2 gI gO gP g L (2 ^ L) x) := by
    intro gI gO gP g L x n hn hL
    rw [hF]
    exact ForwardHaarTransformGPU_window env INV_SQRT_2 gI gO gP g L x n hn hL
  have hT : 1 + (F a + (4 + (F b + (4 + (6 + (4 + (6 + (1 + 0)))))))) =
      cleanNoiseCalls env a b := by
    rw [hF, cleanNoiseCalls]
    ring
  have hno : ∀ r : Bool × Device K, r.1 = true → ¬ r.1 = false := by
    intro r h
    rw [h]
    exact Bool.noConfusion
  rw [CleanNoise, GetNumLevels_pow a ha32, GetNumLevels_pow b hb32,
    if_neg Bool.noConfusion, if_neg Bool.noConfusion]
  refine Window.weaken env
    (fun r : Int × List Nat × Device K =>
      r.1 = 0 ∧ r.2.2.calls = d.calls + 1 + F a + 4 + F b + 4 + 6 + 4 + 6 + 1) _
    (1 + (F a + (4 + (F b + (4 + (6 + (4 + (6 + (1 + 0))))))))) _ _ _ ?_ hT
    (fun r hr => ⟨hr.1, by rw [hr.2, ← hT]; ring⟩)
  refine Window.bind env _ _ 1 _ d.calls _ _ (Window.checked env _ _ _ d.calls rfl)
    (fun x hx => ?_)
  refine Window.bind env _ _ (F a) _ (d.calls + 1) _ _
    (hfwd .inBuff .outBuff .partBuff (2 ^ b) a x (d.calls + 1) hx ha) (fun r hr => ?_)
  rw [if_neg (hno r hr.1)]
  refine Window.bind env _ _ 4 _ (d.calls + 1 + F a) _ _
    (TransposeMatrixGPU_window env .outBuff .inBuff (2 ^ a) (2 ^ b) r.2 _ hr.2)
    (fun r hr => ?_)
  rw [if_neg (hno r hr.1)]
  refine Window.bind env _ _ (F b) _ (d.calls + 1 + F a + 4) _ _
    (hfwd .inBuff .outBuff .partBuff (2 ^ a) b r.2 _ hr.2 hb) (fun r hr => ?_)
  rw [if_neg (hno r hr.1)]
  refine Window.bind env _ _ 4 _ (d.calls + 1 + F a + 4 + F b) _ _
    (MatrixThreshGPU_window env .outBuff .inBuff _ thresh isSoftThresh r.2 _ hr.2)
    (fun r hr => ?_)
  rw [if_neg (hno r hr.1)]
  refine Window.bind env _ _ 6 _ (d.calls + 1 + F a + 4 + F b + 4) _ _
    (InverseHaarTransformGPU_window env SQRT_2 .inBuff .outBuff .partBuff (2 ^ a) b (2 ^ b)
      r.2 _ hr.2 hb) (fun r hr => ?_)
  rw [if_neg (hno r hr.1)]
  refine Window.bind env _ _ 4 _ (d.calls + 1 + F a + 4 + F b + 4 + 6) _ _
    (TransposeMatrixGPU_window env .outBuff .inBuff (2 ^ b) (2 ^ a) r.2 _ hr.2)
    (fun r hr => ?_)
  rw [if_neg (hno r hr.1)]
  refine Window.bind env _ _ 6 _ (d.calls + 1 + F a + 4 + F b + 4 + 6 + 4) _ _
    (InverseHaarTransformGPU_window env SQRT_2 .inBuff .outBuff .partBuff (2 ^ b) a (2 ^ a)
      r.2 _ hr.2 ha) (fun r hr => ?_)
  rw [if_neg (hno r hr.1)]
  refine Window.bind env _ _ 1 0 (d.calls + 1 + F a + 4 + F b + 4 + 6 + 4 + 6) _ _
    (Window.checked env _ _ r.2 _ hr.2) (fun y hy => ?_)
  exact Window.ret env _ _ _ ⟨rfl, hy⟩

theorem cleanNoiseCalls_ge (env : OpenCLEnv) (a b : Nat) : 26 ≤ cleanNoiseCalls env a b := by
  unfold cleanNoiseCalls
  omega

/-- C16 (the claim as stated fails): when the enqueue of the first kernel fails on a 2 × 2
image, `CleanNoise` does not return a status to its caller; the process is ended by
`exit(1)`. -/
theorem CleanNoise_failure_counterexample :
    (failingEnv 1).clErr 1 ≠ CL_SUCCESS ∧
    CleanNoise (failingEnv 1) (1 / 2 : ℚ) 2 [255, 255, 255, 255] [0, 0, 0, 0] (2 ^ 1) (2 ^ 1) 0
      false (deviceWith []) = .exit 1 ∧
    ¬ ∃ r, CleanNoise (failingEnv 1) (1 / 2 : ℚ) 2 [255, 255, 255, 255] [0, 0, 0, 0] (2 ^ 1)
      (2 ^ 1) 0 false (deviceWith []) = .ret r := by
  have hf : (failingEnv 1).clErr 1 ≠ CL_SUCCESS := by decide
  have h := (CleanNoise_window (failingEnv 1) (1 / 2 : ℚ) 2 [255, 255, 255, 255] [0, 0, 0, 0]
    1 1 0 false (deviceWith []) (by decide) (by decide) (by decide) (by decide)).2
    ⟨1, Nat.zero_le 1, by
      have := cleanNoiseCalls_ge (failingEnv 1) 1 1
      show 1 < 0 + cleanNoiseCalls (failingEnv 1) 1 1
      omega, hf⟩
  refine ⟨hf, h, ?_⟩
  rintro ⟨r, hr⟩
  rw [h] at hr
  exact Run.noConfusion hr

/-- C16 (amended): on a `2 ^ a × 2 ^ b` image with `1 ≤ a, b < 32` the run of `CleanNoise`
started at call number `d.calls` is decided by the next `cleanNoiseCalls env a b` runtime
calls: when one of them fails (upload, kernel enqueue, wait, profiling query, copy or
download) the process is ended by `exit(1)` and nothing is returned to the caller; when all of
them succeed `CleanNoise` returns `0` after exactly that many calls. -/
theorem CleanNoise_failure_exits [FloorRing K] (env : OpenCLEnv) (INV_SQRT_2 SQRT_2 : K)
    (inp out : List Nat) (a b : Nat) (thresh : K) (isSoftThresh : Bool) (d : Device K)
    (ha : 1 ≤ a) (hb : 1 ≤ b) (ha32 : a < 32) (hb32 : b < 32) :
    ((∃ m, d.calls ≤ m ∧ m < d.calls + cleanNoiseCalls env a b ∧
        env.clErr m ≠ CL_SUCCESS) →
      CleanNoise env INV_SQRT_2 SQRT_2 inp out (2 ^ a) (2 ^ b) thresh isSoftThresh d =
        .exit 1) ∧
    ((∀ m, d.calls ≤ m → m < d.calls + cleanNoiseCalls env a b →
        env.clErr m = CL_SUCCESS) →
      ∃ out' d', CleanNoise env INV_SQRT_2 SQRT_2 inp out (2 ^ a) (2 ^ b) thresh isSoftThresh
          d = .ret (0, out', d') ∧
        d'.calls = d.calls + cleanNoiseCalls env a b) := by
  have h := CleanNoise_window env INV_SQRT_2 SQRT_2 inp out a b thresh isSoftThresh d ha hb
    ha32 hb32
  refine ⟨h.2, fun hok => ?_⟩
  obtain ⟨⟨v, out', d'⟩, hr, hv, hc⟩ := h.1 hok
  subst hv
  exact ⟨out', d', hr, hc⟩

theorem CleanNoise_failure_exits_witness :
    (failingEnv 7).clErr 7 ≠ CL_SUCCESS ∧
    CleanNoise (failingEnv 7) (1 / 2 : ℚ) 2 (List.replicate 32 255) (List.replicate 32 0)
      (2 ^ 2) (2 ^ 3) 0 true (deviceWith []) = .exit 1 :=
  ⟨by decide,
    (CleanNoise_failure_exits (failingEnv 7) (1 / 2 : ℚ) 2 (List.replicate 32 255)
      (List.replicate 32 0) 2 3 0 true (deviceWith []) (by decide) (by decide) (by decide)
      (by decide)).1
      ⟨7, Nat.zero_le 7,
        lt_of_lt_of_le (by decide : 7 < 26)
          (le_trans (cleanNoiseCalls_ge (failingEnv 7) 2 3) (Nat.le_add_left _ _)),
        by decide⟩⟩

/-! ## The forward transform after the inverse transform -/

theorem bind_ret {X Y : Type} (run : Run X) (f : X → Run Y) (y : Y)
    (h : run.bind f = .ret y) : ∃ x, run = .ret x ∧ f x = .ret y := by
  cases run with
  | ret x => exact ⟨x, rfl, h⟩
  | exit code => exact Run.noConfusion h
  | ub => exact Run.noConfusion h

theorem dispatch_ret_true {α : Type} (env : OpenCLEnv) (e : Event)
    (effect : (Mem → List α) → Mem → List α) (d : Device α) (r : Bool × Device α)
    (h : ((env.checked e effect d).bind fun d =>
      (waitAndTime env d).bind fun d => .ret (true, d)) = .ret r) : r.1 = true := by
  obtain ⟨d₁, _, h₁⟩ := bind_ret _ _ _ h
  obtain ⟨d₂, _, h₂⟩ := bind_ret _ _ _ h₁
  rw [← Run.ret.inj h₂]

theorem MatrixThreshGPU_ret_true (env : OpenCLEnv) (gInBuff gOutBuff : Mem) (dataLen : Nat)
    (thresh : K) (isSoftThresh : Bool) (d : Device K) (r : Bool × Device K)
    (h : MatrixThreshGPU env gInBuff gOutBuff dataLen thresh isSoftThresh d = .ret r) :
    r.1 = true :=
  dispatch_ret_true env _ _ d r h

theorem TransposeMatrixGPU_ret_true (env : OpenCLEnv) (gInBuff gOutBuff : Mem)
    (width height : Nat) (d : Device K) (r : Bool × Device K)
    (h : TransposeMatrixGPU env gInBuff gOutBuff width height d = .ret r) : r.1 = true :=
  dispatch_ret_true env _ _ d r h

theorem ForwardHaarTransformGPU_ret_true (env : OpenCLEnv) (INV_SQRT_2 : K)
    (gInBuff gOutBuff gPartialBuff : Mem) (numGroups numLevels dataLen : Nat) (d : Device K)
    (r : Bool × Device K)
    (h : ForwardHaarTransformGPU env INV_SQRT_2 gInBuff gOutBuff gPartialBuff numGroups
      numLevels dataLen d = .ret r) : r.1 = true := by
  rw [ForwardHaarTransformGPU] at h
  obtain ⟨x, _, hx⟩ := bind_ret _ _ _ h
  rw [← Run.ret.inj hx]

theorem InverseHaarTransformGPU_ret_true (env : OpenCLEnv) (SQRT_2 : K)
    (gInBuff gOutBuff gPartialBuff : Mem) (numGroups numLevels dataLen : Nat) (d : Device K)
    (r : Bool × Device K)
    (h : InverseHaarTransformGPU env SQRT_2 gInBuff gOutBuff gPartialBuff numGroups numLevels
      dataLen d = .ret r) : r.1 = true := by
  rw [InverseHaarTransformGPU] at h
  simp only at h
  split_ifs at h
  all_goals
    obtain ⟨d₁, _, h₁⟩ := bind_ret _ _ _ h
    obtain ⟨d₂, _, h₂⟩ := bind_ret _ _ _ h₁
    obtain ⟨d₃, _, h₃⟩ := bind_ret _ _ _ h₂
    obtain ⟨d₄, _, h₄⟩ := bind_ret _ _ _ h₃
    rw [← Run.ret.inj h₄]

theorem CleanNoise_ret_zero [FloorRing K] (env : OpenCLEnv) (INV_SQRT_2 SQRT_2 : K)
    (inp out : List Nat) (width height : Nat) (thresh : K) (isSoftThresh : Bool)
    (d : Device K) (res : Int × List Nat × Device K)
    (h : CleanNoise env INV_SQRT_2 SQRT_2 inp out width height thresh isSoftThresh d =
      .ret res) : res.1 = 0 := by
  have hno : ∀ r : Bool × Device K, r.1 = true → ¬ r.1 = false := by
    intro r h
    rw [h]
    exact Bool.noConfusion
  rw [CleanNoise] at h
  split_ifs at h with hw hh
  · rw [← Run.ret.inj h]
    rfl
  · rw [← Run.ret.inj h]
    rfl
  · simp only at h
    obtain ⟨d₀, _, h⟩ := bind_ret _ _ _ h
    obtain ⟨r₁, e₁, h⟩ := bind_ret _ _ _ h
    rw [if_neg (hno r₁ (ForwardHaarTransformGPU_ret_true _ _ _ _ _ _ _ _ _ _ e₁))] at h
    obtain ⟨r₂, e₂, h⟩ := bind_ret _ _ _ h
    rw [if_neg (hno r₂ (TransposeMatrixGPU_ret_true _ _ _ _ _ _ _ e₂))] at h
    obtain ⟨r₃, e₃, h⟩ := bind_ret _ _ _ h
    rw [if_neg (hno r₃ (ForwardHaarTransformGPU_ret_true _ _ _ _ _ _ _ _ _ _ e₃))] at h
    obtain ⟨r₄, e₄, h⟩ := bind_ret _ _ _ h
    rw [if_neg (hno r₄ (MatrixThreshGPU_ret_true _ _ _ _ _ _ _ _ e₄))] at h
    obtain ⟨r₅, e₅, h⟩ := bind_ret _ _ _ h
    rw [if_neg (hno r₅ (InverseHaarTransformGPU_ret_true _ _ _ _ _ _ _ _ _ _ e₅))] at h
    obtain ⟨r₆, e₆, h⟩ := bind_ret _ _ _ h
    rw [if_neg (hno r₆ (TransposeMatrixGPU_ret_true _ _ _ _ _ _ _ e₆))] at h
    obtain ⟨r₇, e₇, h⟩ := bind_ret _ _ _ h
    rw [if_neg (hno r₇ (InverseHaarTransformGPU_ret_true _ _ _ _ _ _ _ _ _ _ e₇))] at h
    obtain ⟨d₈, _, h⟩ := bind_ret _ _ _ h
    rw [← Run.ret.inj h]

/-- C21: whatever the runtime does, a call of `CleanNoise` that returns, returns `0`: an
input rejected for its dimensions returns `0` (the `false` of `return false;`) with nothing
done, and `ForwardHaarTransformGPU`, `TransposeMatrixGPU`, `MatrixThreshGPU` and
`InverseHaarTransformGPU` return `true` whenever they return, so no `return 1;` is reached. -/
theorem CleanNoise_returns_zero [FloorRing K] (env : OpenCLEnv) (INV_SQRT_2 SQRT_2 : K)
    (inp out : List Nat) (width height : Nat) (thresh : K) (isSoftThresh : Bool)
    (d : Device K) :
    (∀ (v : Int) (out' : List Nat) (d' : Device K),
      CleanNoise env INV_SQRT_2 SQRT_2 inp out width height thresh isSoftThresh d =
        .ret (v, out', d') → v = 0) ∧
    ((GetNumLevels width).1 = false ∨ (GetNumLevels height).1 = false →
      CleanNoise env INV_SQRT_2 SQRT_2 inp out width height thresh isSoftThresh d =
        .ret (0, out, d)) ∧
    (∀ (gInBuff gOutBuff gPartialBuff : Mem) (numGroups numLevels dataLen : Nat)
      (x : Device K) (r : Bool × Device K),
      ForwardHaarTransformGPU env INV_SQRT_2 gInBuff gOutBuff gPartialBuff numGroups numLevels
        dataLen x = .ret r → r.1 = true) ∧
    (∀ (gInBuff gOutBuff gPartialBuff : Mem) (numGroups numLevels dataLen : Nat)
      (x : Device K) (r : Bool × Device K),
      InverseHaarTransformGPU env SQRT_2 gInBuff gOutBuff gPartialBuff numGroups numLevels
        dataLen x = .ret r → r.1 = true) ∧
    (∀ (gInBuff gOutBuff : Mem) (w h : Nat) (x : Device K) (r : Bool × Device K),
      TransposeMatrixGPU env gInBuff gOutBuff w h x = .ret r → r.1 = true) ∧
    (∀ (gInBuff gOutBuff : Mem) (dataLen : Nat) (x : Device K) (r : Bool × Device K),
      MatrixThreshGPU env gInBuff gOutBuff dataLen thresh isSoftThresh x = .ret r →
        r.1 = true) := by
  refine ⟨fun v out' d' h => CleanNoise_ret_zero env INV_SQRT_2 SQRT_2 inp out width height
      thresh isSoftThresh d _ h, ?_,
    fun gI gO gP g l n x r h => ForwardHaarTransformGPU_ret_true env INV_SQRT_2 gI gO gP g l n
      x r h,
    fun gI gO gP g l n x r h => InverseHaarTransformGPU_ret_true env SQRT_2 gI gO gP g l n x r
      h,
    fun gI gO w h x r hr => TransposeMatrixGPU_ret_true env gI gO w h x r hr,
    fun gI gO n x r h => MatrixThreshGPU_ret_true env gI gO n thresh isSoftThresh x r h⟩
  intro h
  rw [CleanNoise]
  by_cases hw : (GetNumLevels width).1 = false
  · rw [if_pos hw]
    rfl
  · rw [if_neg hw, if_pos (h.resolve_left hw)]
    rfl

theorem CleanNoise_returns_zero_witness :
    (∃ out' d', CleanNoise okEnv (1 / 2 : ℚ) 2 [255, 0, 0, 255] [0, 0, 0, 0] (2 ^ 1) (2 ^ 1)
      (1 / 10) true (deviceWith []) = .ret (0, out', d')) ∧
    CleanNoise okEnv (1 / 2 : ℚ) 2 [255, 0, 0, 255] [0, 0, 0, 0] 100 256 (1 / 10) true
      (deviceWith []) = .ret (0, [0, 0, 0, 0], deviceWith []) := by
  constructor
  · obtain ⟨⟨v, out', d'⟩, hr, _⟩ := (CleanNoise_window okEnv (1 / 2 : ℚ) 2 [255, 0, 0, 255]
      [0, 0, 0, 0] 1 1 (1 / 10) true (deviceWith []) (by decide) (by decide) (by decide)
      (by decide)).1 (fun _ _ _ => rfl)
    have hv := (CleanNoise_returns_zero okEnv (1 / 2 : ℚ) 2 [255, 0, 0, 255] [0, 0, 0, 0]
      (2 ^ 1) (2 ^ 1) (1 / 10) true (deviceWith [])).1 v out' d' hr
    subst hv
    exact ⟨out', d', hr⟩
  · exact (CleanNoise_returns_zero okEnv (1 / 2 : ℚ) 2 [255, 0, 0, 255] [0, 0, 0, 0] 100 256
      (1 / 10) true (deviceWith [])).2.1 (Or.inl GetNumLevels_100)

/-! ## Images with a side of one pixel -/

theorem bind_eq_ub {X Y : Type} (run : Run X) (f : X → Run Y) (h₁ : ∃ x, run = .ret x)
    (h₂ : ∀ x, run = .ret x → f x = .ub) : run.bind f = .ub := by
  obtain ⟨x, hx⟩ := h₁
  rw [hx]
  exact h₂ x hx

theorem InverseHaarTransformGPU_zero (env : OpenCLEnv) (SQRT_2 : K)
    (gInBuff gOutBuff gPartialBuff : Mem) (numGroups dataLen : Nat) (d : Device K) :
    InverseHaarTransformGPU env SQRT_2 gInBuff gOutBuff gPartialBuff numGroups 0 dataLen d =
      .ub := by
  have h : (if 0 < maxLevelsOnDevice env .IWT_KERNEL then 0
      else maxLevelsOnDevice env .IWT_KERNEL) = 0 := by
    have hpos : 0 < maxLevelsOnDevice env .IWT_KERNEL := Nat.succ_pos _
    rw [if_pos hpos]
  rw [InverseHaarTransformGPU]
  simp only [if_pos h]

theorem ForwardHaarTransformGPU_one (env : OpenCLEnv) (INV_SQRT_2 : K)
    (gInBuff gOutBuff gPartialBuff : Mem) (numGroups numLevels : Nat) (d : Device K) :
    ForwardHaarTransformGPU env INV_SQRT_2 gInBuff gOutBuff gPartialBuff numGroups numLevels 1
      d = .ret (true, d) := by
  rw [ForwardHaarTransformGPU]
  show (fwdGPUWhile env INV_SQRT_2 gInBuff gOutBuff gPartialBuff numGroups 1
    (maxLevelsOnDevice env .FWT_KERNEL_IDX) 0 numLevels d).bind _ = _
  rw [fwdGPUWhile_zero]
  rfl

theorem ForwardHaarTransformGPU_returns (env : OpenCLEnv)
    (hok : ∀ n, env.clErr n = CL_SUCCESS) (INV_SQRT_2 : K)
    (gInBuff gOutBuff gPartialBuff : Mem) (numGroups L : Nat) (d : Device K) :
    ∃ r, ForwardHaarTransformGPU env INV_SQRT_2 gInBuff gOutBuff gPartialBuff numGroups L
      (2 ^ L) d = .ret r := by
  by_cases hL : L = 0
  · subst hL
    exact ⟨_, ForwardHaarTransformGPU_one env INV_SQRT_2 gInBuff gOutBuff gPartialBuff
      numGroups 0 d⟩
  · obtain ⟨d', hrun, _⟩ := fwdGPUWhile_pow env hok INV_SQRT_2 gInBuff gOutBuff gPartialBuff
      numGroups (2 ^ L) (maxLevelsOnDevice env .FWT_KERNEL_IDX) (Nat.succ_pos _) L d
    refine ⟨(true, d'), ?_⟩
    rw [ForwardHaarTransformGPU, half_pow L (by omega), hrun]
    rfl

theorem CleanNoise_ub [FloorRing K] (env : OpenCLEnv) (hok : ∀ n, env.clErr n = CL_SUCCESS)
    (INV_SQRT_2 SQRT_2 : K) (inp out : List Nat) (a b : Nat) (thresh : K)
    (isSoftThresh : Bool) (d : Device K) (ha32 : a < 32) (hb32 : b < 32)
    (h : a = 0 ∨ b = 0) :
    CleanNoise env INV_SQRT_2 SQRT_2 inp out (2 ^ a) (2 ^ b) thresh isSoftThresh d = .ub := by
  have hno : ∀ r : Bool × Device K, r.1 = true → ¬ r.1 = false := by
    intro r h
    rw [h]
    exact Bool.noConfusion
  rw [CleanNoise, GetNumLevels_pow a ha32, GetNumLevels_pow b hb32,
    if_neg Bool.noConfusion, if_neg Bool.noConfusion]
  refine bind_eq_ub _ _ ⟨_, checked_ok env hok _ _ _⟩ (fun x _ => ?_)
  refine bind_eq_ub _ _ (ForwardHaarTransformGPU_returns env hok _ _ _ _ _ _ _)
    (fun r hr => ?_)
  rw [if_neg (hno r (ForwardHaarTransformGPU_ret_true _ _ _ _ _ _ _ _ _ _ hr))]
  refine bind_eq_ub _ _ ⟨_, TransposeMatrixGPU_run env hok _ _ _ _ _⟩ (fun r hr => ?_)
  rw [if_neg (hno r (TransposeMatrixGPU_ret_true _ _ _ _ _ _ _ hr))]
  refine bind_eq_ub _ _ (ForwardHaarTransformGPU_returns env hok _ _ _ _ _ _ _)
    (fun r hr => ?_)
  rw [if_neg (hno r (ForwardHaarTransformGPU_ret_true _ _ _ _ _ _ _ _ _ _ hr))]
  refine bind_eq_ub _ _ ⟨_, MatrixThreshGPU_run env hok _ _ _ _ _ _⟩ (fun r hr => ?_)
  rw [if_neg (hno r (MatrixThreshGPU_ret_true _ _ _ _ _ _ _ _ hr))]
  by_cases hb : b = 0
  · subst hb
    show (InverseHaarTransformGPU env SQRT_2 .inBuff .outBuff .partBuff (2 ^ a) 0 (2 ^ 0)
      r.2).bind _ = _
    rw [InverseHaarTransformGPU_zero]
    rfl
  · have ha : a = 0 := h.resolve_right hb
    subst ha
    refine bind_eq_ub _ _ ⟨_, InverseHaarTransformGPU_run env hok SQRT_2 _ _ _ _ b _ _ _ rfl
      (by unfold maxLevelsOnDevice; split_ifs <;> omega)⟩ (fun r hr => ?_)
    rw [if_neg (hno r (InverseHaarTransformGPU_ret_true _ _ _ _ _ _ _ _ _ _ hr))]
    refine bind_eq_ub _ _ ⟨_, TransposeMatrixGPU_run env hok _ _ _ _ _⟩ (fun r hr => ?_)
    rw [if_neg (hno r (TransposeMatrixGPU_ret_true _ _ _ _ _ _ _ hr))]
    show (InverseHaarTransformGPU env SQRT_2 .inBuff .outBuff .partBuff (2 ^ b) 0 (2 ^ 0)
      r.2).bind _ = _
    rw [InverseHaarTransformGPU_zero]
    rfl

/-- C23 (the code on images with a side of one pixel): `width = 2 ^ a` and `height = 2 ^ b`
pass the validation of `CleanNoise` for every `a, b < 32`, also for `a = 0` or `b = 0`.  On a
signal of one cell `ForwardHaarTransformGPU` returns without any dispatch, and with
`numLevels = 0` `InverseHaarTransformGPU` takes `currLevels = 0` and evaluates
`1 << (currLevels - 1)`.  With every runtime call succeeding `CleanNoise` therefore runs into
that shift when a side is one pixel, and returns `0` when both sides are at least two. -/
theorem CleanNoise_side_one [FloorRing K] (env : OpenCLEnv)
    (hok : ∀ n, env.clErr n = CL_SUCCESS) (INV_SQRT_2 SQRT_2 : K) (inp out : List Nat)
    (a b : Nat) (thresh : K) (isSoftThresh : Bool) (d : Device K) (ha32 : a < 32)
    (hb32 : b < 32) :
    (GetNumLevels (2 ^ a)).1 = true ∧ (GetNumLevels (2 ^ b)).1 = true ∧
    (a = 0 ∨ b = 0 →
      CleanNoise env INV_SQRT_2 SQRT_2 inp out (2 ^ a) (2 ^ b) thresh isSoftThresh d = .ub) ∧
    (1 ≤ a → 1 ≤ b →
      ∃ out' d', CleanNoise env INV_SQRT_2 SQRT_2 inp out (2 ^ a) (2 ^ b) thresh isSoftThresh
        d = .ret (0, out', d')) ∧
    (∀ (gInBuff gOutBuff gPartialBuff : Mem) (numGroups numLevels : Nat) (x : Device K),
      ForwardHaarTransformGPU env INV_SQRT_2 gInBuff gOutBuff gPartialBuff numGroups numLevels
        1 x = .ret (true, x)) ∧
    (∀ (gInBuff gOutBuff gPartialBuff : Mem) (numGroups dataLen : Nat) (x : Device K),
      InverseHaarTransformGPU env SQRT_2 gInBuff gOutBuff gPartialBuff numGroups 0 dataLen x =
        .ub) := by
  refine ⟨by rw [GetNumLevels_pow a ha32], by rw [GetNumLevels_pow b hb32],
    CleanNoise_ub env hok INV_SQRT_2 SQRT_2 inp out a b thresh isSoftThresh d ha32 hb32,
    fun ha hb => ?_,
    fun gI gO gP g l x => ForwardHaarTransformGPU_one env INV_SQRT_2 gI gO gP g l x,
    fun gI gO gP g n x => InverseHaarTransformGPU_zero env SQRT_2 gI gO gP g n x⟩
  obtain ⟨⟨v, out', d'⟩, hr, hv, _⟩ := (CleanNoise_window env INV_SQRT_2 SQRT_2 inp out a b
    thresh isSoftThresh d ha hb ha32 hb32).1 (fun m _ _ => hok m)
  subst hv
  exact ⟨out', d', hr⟩

theorem CleanNoise_side_one_witness :
    (GetNumLevels (2 ^ 0)).1 = true ∧ (GetNumLevels (2 ^ 1)).1 = true ∧
    CleanNoise okEnv (1 / 2 : ℚ) 2 [255, 0] [0, 0] (2 ^ 0) (2 ^ 1) (1 / 10) true
      (deviceWith []) = .ub := by
  obtain ⟨h1, h2, h3, _⟩ := CleanNoise_side_one okEnv (fun _ => rfl) (1 / 2 : ℚ) 2 [255, 0]
    [0, 0] 0 1 (1 / 10) true (deviceWith []) (by decide) (by decide)
  exact ⟨h1, h2, h3 (Or.inl rfl)⟩

/-! ## The geometry of the dispatches of `ForwardHaarTransformGPU` -/

theorem min_ite (l C : Nat) : min l C = if l < C then l else C := by
  rw [Nat.min_def]
  split_ifs <;> omega

theorem fwdDispatches_step (events : List Event) (bufs : List Mem) (s g l : List Nat) :
    fwdDispatches (events ++ [.clEnqueueNDRangeKernel .FWT_KERNEL_IDX bufs s g l] ++
        [.clWaitForEvents] ++ [.clGetEventProfilingInfo] ++ [.clGetEventProfilingInfo]) =
      fwdDispatches events ++ [.clEnqueueNDRangeKernel .FWT_KERNEL_IDX bufs s g l] := by
  simp [fwdDispatches, List.filter_append, isFwdDispatch]

theorem fwdIterations_zero (C l : Nat) : fwdIterations C 0 l = [] := by
  rw [fwdIterations, if_neg (lt_irrefl 0)]

theorem fwdIterations_step (C t l k : Nat) (ht : 0 < t) (hk : k = if l < C then l else C)
    (hk0 : k ≠ 0) : fwdIterations C t l = (t, l) :: fwdIterations C (t >>> k) (l - k) := by
  subst hk
  rw [fwdIterations, if_pos ht, if_neg hk0]

/-- The loop of `ForwardHaarTransformGPU` entered with `l` levels left and `2 ^ (l - 1)`
threads, when every runtime call succeeds: its dispatches are those of the iterations
`fwdIterations`, and every iteration starts with `numThreadsLeft = 2 ^ (numLevelsLeft - 1)`. -/
theorem fwdGPUWhile_iterations (env : OpenCLEnv) (hok : ∀ n, env.clErr n = CL_SUCCESS) (c : K)
    (gInBuff gOutBuff gPartialBuff : Mem) (numGroups dataLen C : Nat) (hC : 1 ≤ C) :
    ∀ (l : Nat) (d : Device K),
      ∃ d', fwdGPUWhile env c gInBuff gOutBuff gPartialBuff numGroups dataLen C
          (if l = 0 then 0 else 2 ^ (l - 1)) l d = .ret (0, 0, d') ∧
        fwdDispatches d'.events = fwdDispatches d.events ++
          (fwdIterations C (if l = 0 then 0 else 2 ^ (l - 1)) l).map (fun p =>
            .clEnqueueNDRangeKernel .FWT_KERNEL_IDX [gInBuff, gOutBuff, gPartialBuff]
              [min p.2 C, dataLen] [p.1 * numGroups % 2 ^ 32]
              [1 <<< subOne32 (min p.2 C)]) ∧
        (∀ p ∈ fwdIterations C (if l = 0 then 0 else 2 ^ (l - 1)) l,
          1 ≤ p.2 ∧ p.2 ≤ l ∧ p.1 = 2 ^ (p.2 - 1)) ∧
        (1 ≤ l → fwdIterations C (if l = 0 then 0 else 2 ^ (l - 1)) l ≠ []) := by
  intro l
  induction l using Nat.strong_induction_on with
  | _ l ih =>
    intro d
    by_cases hl : l = 0
    · subst hl
      refine ⟨d, ?_, ?_, ?_, fun h => absurd h (by decide)⟩
      · rw [if_pos rfl, fwdGPUWhile_zero]
      · rw [if_pos rfl, fwdIterations_zero, List.map_nil, List.append_nil]
      · rw [if_pos rfl, fwdIterations_zero]
        intro p hp
        cases hp
    · obtain ⟨k, hk⟩ : ∃ k, k = if l < C then l else C := ⟨_, rfl⟩
      have hk1 : 1 ≤ k := by split_ifs at hk <;> omega
      have hkl : k ≤ l := by split_ifs at hk <;> omega
      have hkm : min l C = k := by rw [min_ite, hk]
      rw [if_neg hl, fwdGPUWhile_step env hok c gInBuff gOutBuff gPartialBuff numGroups dataLen C
        (2 ^ (l - 1)) l k d (by positivity) hk (by omega),
        fwdIterations_step C (2 ^ (l - 1)) l k (by positivity) hk (by omega),
        shift_step l k hk1 hkl]
      obtain ⟨d', hrun, hev, hit, _⟩ := ih (l - k) (by omega)
        { mem := FWT_kernel c gInBuff gOutBuff k dataLen (2 ^ (l - 1))
            (2 ^ (l - 1) * numGroups % 2 ^ 32 / 2 ^ (l - 1)) d.mem
          events := d.events ++
            [.clEnqueueNDRangeKernel .FWT_KERNEL_IDX [gInBuff, gOutBuff, gPartialBuff]
              [k, dataLen] [2 ^ (l - 1) * numGroups % 2 ^ 32] [1 <<< subOne32 k]] ++
            [.clWaitForEvents] ++ [.clGetEventProfilingInfo] ++ [.clGetEventProfilingInfo]
          calls := d.calls + 1 + 1 + 1 + 1 }
      refine ⟨d', hrun, ?_, ?_, fun _ => List.cons_ne_nil _ _⟩
      · rw [hev, fwdDispatches_step, List.map_cons, List.append_assoc, List.singleton_append,
          hkm]
      · intro p hp
        rcases List.mem_cons.mp hp with h | h
        · subst h
          exact ⟨by omega, le_refl l, rfl⟩
        · obtain ⟨h1, h2, h3⟩ := hit p h
          exact ⟨h1, by omega, h3⟩

theorem fwdIterations_length (C : Nat) (hC : 1 ≤ C) : ∀ l : Nat,
    (fwdIterations C (if l = 0 then 0 else 2 ^ (l - 1)) l).length = (l + C - 1) / C := by
  intro l
  induction l using Nat.strong_induction_on with
  | _ l ih =>
    by_cases hl : l = 0
    · subst hl
      rw [if_pos rfl, fwdIterations_zero, Nat.zero_add,
        Nat.div_eq_of_lt (by omega : C - 1 < C)]
      rfl
    · obtain ⟨k, hk⟩ : ∃ k, k = if l < C then l else C := ⟨_, rfl⟩
      have hk1 : 1 ≤ k := by split_ifs at hk <;> omega
      have hkl : k ≤ l := by split_ifs at hk <;> omega
      rw [if_neg hl, fwdIterations_step C (2 ^ (l - 1)) l k (by positivity) hk (by omega),
        shift_step l k hk1 hkl, List.length_cons, ih (l - k) (by omega),
        ceil_step l C k hC (by omega) hk]

theorem ForwardHaarTransformGPU_dispatches (env : OpenCLEnv)
    (hok : ∀ n, env.clErr n = CL_SUCCESS) (c : K) (gInBuff gOutBuff gPartialBuff : Mem)
    (numGroups C L : Nat) (d : Device K) (hcap : maxLevelsOnDevice env .FWT_KERNEL_IDX = C)
    (hL : 1 ≤ L) (hL32 : L < 32) (hg : 2 ^ (L - 1) * numGroups < 2 ^ 32) :
    ∃ d', ForwardHaarTransformGPU env c gInBuff gOutBuff gPartialBuff numGroups L (2 ^ L) d =
        .ret (true, d') ∧
      fwdDispatches d'.events = fwdDispatches d.events ++
        (fwdIterations C (2 ^ L >>> 1) L).map (fun p =>
          .clEnqueueNDRangeKernel .FWT_KERNEL_IDX [gInBuff, gOutBuff, gPartialBuff]
            [min p.2 C, 2 ^ L] [p.1 * numGroups] [2 ^ (min p.2 C - 1)]) ∧
      (∀ p ∈ fwdIterations C (2 ^ L >>> 1) L, 1 ≤ p.2 ∧ p.2 ≤ L ∧ p.1 = 2 ^ (p.2 - 1)) ∧
      (fwdIterations C (2 ^ L >>> 1) L).length = (L + C - 1) / C := by
  have hC : 1 ≤ C := by
    rw [← hcap]
    exact Nat.succ_pos _
  obtain ⟨d', hrun, hev, hit, _⟩ := fwdGPUWhile_iterations env hok c gInBuff gOutBuff
    gPartialBuff numGroups (2 ^ L) C hC L d
  have hlen := fwdIterations_length C hC L
  rw [← half_pow L hL] at hrun hev hit hlen
  refine ⟨d', ?_, ?_, hit, hlen⟩
  · rw [ForwardHaarTransformGPU, hcap, hrun]
    rfl
  · have hmap : ∀ p ∈ fwdIterations C (2 ^ L >>> 1) L,
        Event.clEnqueueNDRangeKernel .FWT_KERNEL_IDX [gInBuff, gOutBuff, gPartialBuff]
            [min p.2 C, 2 ^ L] [p.1 * numGroups % 2 ^ 32] [1 <<< subOne32 (min p.2 C)] =
          Event.clEnqueueNDRangeKernel .FWT_KERNEL_IDX [gInBuff, gOutBuff, gPartialBuff]
            [min p.2 C, 2 ^ L] [p.1 * numGroups] [2 ^ (min p.2 C - 1)] := by
      intro p hp
      obtain ⟨h1, h2, h3⟩ := hit p hp
      have h32 : p.2 < 2 ^ 32 := lt_of_le_of_lt h2 (lt_trans hL32 (by norm_num))
      have hle : p.1 * numGroups ≤ 2 ^ (L - 1) * numGroups := by
        rw [h3]
        exact Nat.mul_le_mul_right _ (Nat.pow_le_pow_right (by norm_num) (by omega))
      rw [shift_subOne32 _ (le_min h1 hC) (lt_of_le_of_lt (min_le_left _ _) h32),
        Nat.mod_eq_of_lt (lt_of_le_of_lt hle hg)]
    rw [hev, List.map_congr_left hmap]

/-- C22: with every runtime call succeeding, `dataLen = 2 ^ L`, `numLevels = L`,
`1 ≤ L < 32`, a work-group size `G ≥ 1` and `2 ^ (L - 1) * numGroups < 2 ^ 32` (the 32-bit
product `numThreadsLeft*numGroups` does not wrap), `ForwardHaarTransformGPU` issues one
dispatch for each iteration of its loop, at least one; every iteration starts with
`numLevelsLeft ≥ 1` and `numThreadsLeft = 2 ^ (numLevelsLeft - 1)`, takes
`currLevels = min numLevelsLeft maxLevelsOnDevice ≥ 1`, and its dispatch has the local size
`2 ^ (currLevels - 1)`, which divides the global size `numThreadsLeft * numGroups` and is at
most `G`. -/
theorem ForwardHaarTransformGPU_geometry (env : OpenCLEnv)
    (hok : ∀ n, env.clErr n = CL_SUCCESS) (INV_SQRT_2 : K)
    (gInBuff gOutBuff gPartialBuff : Mem) (numGroups G L : Nat) (d : Device K) (hG : 1 ≤ G)
    (hGk : env.m_kernelWorkGroupSizes .FWT_KERNEL_IDX = G) (hL : 1 ≤ L) (hL32 : L < 32)
    (hg : 2 ^ (L - 1) * numGroups < 2 ^ 32) :
    ∃ d', ForwardHaarTransformGPU env INV_SQRT_2 gInBuff gOutBuff gPartialBuff numGroups L
        (2 ^ L) d = .ret (true, d') ∧
      fwdDispatches d'.events = fwdDispatches d.events ++
        (fwdIterations (Nat.log 2 G + 1) (2 ^ L >>> 1) L).map (fun p =>
          .clEnqueueNDRangeKernel .FWT_KERNEL_IDX [gInBuff, gOutBuff, gPartialBuff]
            [min p.2 (Nat.log 2 G + 1), 2 ^ L] [p.1 * numGroups]
            [2 ^ (min p.2 (Nat.log 2 G + 1) - 1)]) ∧
      fwdIterations (Nat.log 2 G + 1) (2 ^ L >>> 1) L ≠ [] ∧
      ∀ p ∈ fwdIterations (Nat.log 2 G + 1) (2 ^ L >>> 1) L,
        1 ≤ p.2 ∧ p.1 = 2 ^ (p.2 - 1) ∧ 1 ≤ min p.2 (Nat.log 2 G + 1) ∧
        p.1 * numGroups < 2 ^ 32 ∧
        2 ^ (min p.2 (Nat.log 2 G + 1) - 1) ∣ p.1 * numGroups ∧
        2 ^ (min p.2 (Nat.log 2 G + 1) - 1) ≤ G := by
  have hcap : maxLevelsOnDevice env .FWT_KERNEL_IDX = Nat.log 2 G + 1 := by
    rw [maxLevelsOnDevice, hGk]
    rfl
  obtain ⟨d', hrun, hev, hit, hlen⟩ := ForwardHaarTransformGPU_dispatches env hok INV_SQRT_2
    gInBuff gOutBuff gPartialBuff numGroups (Nat.log 2 G + 1) L d hcap hL hL32 hg
  refine ⟨d', hrun, hev, ?_, fun p hp => ?_⟩
  · intro h
    rw [h, List.length_nil] at hlen
    have : 1 ≤ (L + (Nat.log 2 G + 1) - 1) / (Nat.log 2 G + 1) :=
      (Nat.one_le_div_iff (Nat.succ_pos _)).mpr (by omega)
    omega
  · obtain ⟨h1, h2, h3⟩ := hit p hp
    have hm1 : 1 ≤ min p.2 (Nat.log 2 G + 1) := le_min h1 (Nat.succ_pos _)
    have hml : min p.2 (Nat.log 2 G + 1) ≤ p.2 := min_le_left _ _
    have hmc : min p.2 (Nat.log 2 G + 1) ≤ Nat.log 2 G + 1 := min_le_right _ _
    have hle : p.1 * numGroups ≤ 2 ^ (L - 1) * numGroups := by
      rw [h3]
      exact Nat.mul_le_mul_right _ (Nat.pow_le_pow_right (by norm_num) (by omega))
    refine ⟨h1, h3, hm1, lt_of_le_of_lt hle hg, ?_, ?_⟩
    · rw [h3]
      exact Dvd.dvd.mul_right (pow_dvd_pow 2 (by omega)) numGroups
    · exact le_trans (Nat.pow_le_pow_right (by norm_num) (by omega))
        (Nat.pow_log_le_self 2 (by omega))

theorem ForwardHaarTransformGPU_geometry_witness :
    ∃ d', ForwardHaarTransformGPU (envWith 6) (1 / 2 : ℚ) .inBuff .outBuff .partBuff 3 5 (2 ^ 5)
        (deviceWith []) = .ret (true, d') ∧
      fwdDispatches d'.events = fwdDispatches (deviceWith ([] : List ℚ)).events ++
        (fwdIterations (Nat.log 2 6 + 1) (2 ^ 5 >>> 1) 5).map (fun p =>
          .clEnqueueNDRangeKernel .FWT_KERNEL_IDX [.inBuff, .outBuff, .partBuff]
            [min p.2 (Nat.log 2 6 + 1), 2 ^ 5] [p.1 * 3]
            [2 ^ (min p.2 (Nat.log 2 6 + 1) - 1)]) ∧
      fwdIterations (Nat.log 2 6 + 1) (2 ^ 5 >>> 1) 5 ≠ [] ∧
      ∀ p ∈ fwdIterations (Nat.log 2 6 + 1) (2 ^ 5 >>> 1) 5,
        1 ≤ p.2 ∧ p.1 = 2 ^ (p.2 - 1) ∧ 1 ≤ min p.2 (Nat.log 2 6 + 1) ∧
        p.1 * 3 < 2 ^ 32 ∧
        2 ^ (min p.2 (Nat.log 2 6 + 1) - 1) ∣ p.1 * 3 ∧
        2 ^ (min p.2 (Nat.log 2 6 + 1) - 1) ≤ 6 :=
  ForwardHaarTransformGPU_geometry (envWith 6) (fun _ => rfl) (1 / 2 : ℚ) .inBuff .outBuff
    .partBuff 3 6 5 (deviceWith []) (by decide) rfl (by decide) (by decide) (by norm_num)

/-! ## The cells the CPU transforms read and write -/

theorem mem_memcpyAccesses (dst src : Buffer) (n : Nat) (a : Access) :
    a ∈ memcpyAccesses dst src n ↔
      ∃ j, j < n ∧ (a = ⟨src, j, false⟩ ∨ a = ⟨dst, j, true⟩) := by
  simp only [memcpyAccesses, List.mem_flatten, List.mem_map, List.mem_range]
  constructor
  · rintro ⟨l, ⟨j, hj, rfl⟩, ha⟩
    simp only [List.mem_cons, List.mem_singleton, List.not_mem_nil, or_false] at ha
    exact ⟨j, hj, ha⟩
  · rintro ⟨j, hj, ha⟩
    refine ⟨_, ⟨j, hj, rfl⟩, ?_⟩
    simp only [List.mem_cons, List.mem_singleton, List.not_mem_nil, or_false]
    exact ha

theorem mem_fwdForAccesses (w : Nat) (a : Access) :
    a ∈ fwdForAccesses w ↔ ∃ i, i < w ∧ a ∈ fwdBodyAccesses w i := by
  simp only [fwdForAccesses, List.mem_flatten, List.mem_map, List.mem_range]
  constructor
  · rintro ⟨l, ⟨i, hi, rfl⟩, ha⟩
    exact ⟨i, hi, ha⟩
  · rintro ⟨i, hi, ha⟩
    exact ⟨_, ⟨i, hi, rfl⟩, ha⟩

theorem mem_invForAccesses (w : Nat) (a : Access) :
    a ∈ invForAccesses w ↔ ∃ i, i < w ∧ a ∈ invBodyAccesses w i := by
  simp only [invForAccesses, List.mem_flatten, List.mem_map, List.mem_range]
  constructor
  · rintro ⟨l, ⟨i, hi, rfl⟩, ha⟩
    exact ⟨i, hi, ha⟩
  · rintro ⟨i, hi, ha⟩
    exact ⟨_, ⟨i, hi, rfl⟩, ha⟩

theorem fwdBodyAccesses_lt (w i : Nat) (hi : i < w) (a : Access)
    (ha : a ∈ fwdBodyAccesses w i) : a.index < 2 * w := by
  simp only [fwdBodyAccesses, List.mem_cons, List.mem_singleton, List.not_mem_nil,
    or_false] at ha
  rcases ha with h | h | h | h | h | h <;> (subst h; dsimp only; omega)

theorem invBodyAccesses_lt (w i : Nat) (hi : i < w) (a : Access)
    (ha : a ∈ invBodyAccesses w i) : a.index < 2 * w := by
  simp only [invBodyAccesses, List.mem_cons, List.mem_singleton, List.not_mem_nil,
    or_false] at ha
  rcases ha with h | h | h | h | h | h <;> (subst h; dsimp only; omega)

theorem memcpyAccesses_lt (dst src : Buffer) (n : Nat) (a : Access)
    (ha : a ∈ memcpyAccesses dst src n) : a.index < n := by
  obtain ⟨j, hj, h | h⟩ := (mem_memcpyAccesses dst src n a).mp ha <;> (subst h; exact hj)

theorem fwdWhileAccesses_lt : ∀ (w : Nat) (a : Access), a ∈ fwdWhileAccesses w →
    a.index < w := by
  intro w
  induction w using Nat.strong_induction_on with
  | _ w ih =>
    intro a ha
    rw [fwdWhileAccesses] at ha
    split_ifs at ha with hw
    · rcases List.mem_append.mp ha with h | h
      · rcases List.mem_append.mp h with h | h
        · obtain ⟨i, hi, hb⟩ := (mem_fwdForAccesses _ a).mp h
          have := fwdBodyAccesses_lt _ i hi a hb
          omega
        · have := memcpyAccesses_lt _ _ _ a h
          omega
      · have := ih (w / 2) (by omega) a h
        omega
    · cases ha

theorem invWhileAccesses_lt (L : Nat) : ∀ (n j : Nat), j + n = L → ∀ a : Access,
    a ∈ invWhileAccesses (2 ^ L) (2 ^ j) (by positivity) → a.index < 2 ^ L := by
  intro n
  induction n with
  | zero =>
    intro j hj a ha
    have e : j = L := by omega
    subst e
    rw [invWhileAccesses, if_neg (lt_irrefl _)] at ha
    cases ha
  | succ n ih =>
    intro j hj a ha
    have hlt : 2 ^ j < 2 ^ L := Nat.pow_lt_pow_right (by norm_num) (by omega)
    have hle : 2 * 2 ^ j ≤ 2 ^ L := by
      rw [← pow_succ']
      exact Nat.pow_le_pow_right (by norm_num) (by omega)
    rw [invWhileAccesses, if_pos hlt] at ha
    rcases List.mem_append.mp ha with h | h
    · rcases List.mem_append.mp h with h | h
      · obtain ⟨i, hi, hb⟩ := (mem_invForAccesses _ a).mp h
        have := invBodyAccesses_lt _ i hi a hb
        omega
      · have := memcpyAccesses_lt _ _ _ a h
        omega
    · have e : 2 ^ j * 2 = 2 ^ (j + 1) := (pow_succ 2 j).symm
      simp only [e] at h
      exact ih (j + 1) (by omega) a h

theorem fwdWhileAccesses_writes (L : Nat) (hL : 1 ≤ L) (j : Nat) (hj : j < 2 ^ L) :
    (⟨.output, j, true⟩ : Access) ∈ fwdWhileAccesses (2 ^ L) := by
  obtain ⟨l, rfl⟩ : ∃ l, L = l + 1 := ⟨L - 1, by omega⟩
  have hp : 2 ^ (l + 1) = 2 ^ l * 2 := pow_succ 2 l
  have h2 : 2 ^ (l + 1) / 2 = 2 ^ l := by omega
  have h1 : 1 < 2 ^ (l + 1) := by
    have := Nat.one_le_two_pow (n := l)
    omega
  rw [fwdWhileAccesses, if_pos h1, h2]
  refine List.mem_append_left _ (List.mem_append_left _ ?_)
  rw [mem_fwdForAccesses]
  by_cases hlt : j < 2 ^ l
  · exact ⟨j, hlt, by simp [fwdBodyAccesses]⟩
  · refine ⟨j - 2 ^ l, by omega, ?_⟩
    have e : j - 2 ^ l + 2 ^ l = j := by omega
    simp [fwdBodyAccesses, e]

theorem invWhileAccesses_last (L : Nat) (hL : 1 ≤ L) : ∀ (n j : Nat), j + n = L - 1 →
    ∀ a : Access, a ∈ invForAccesses (2 ^ (L - 1)) →
      a ∈ invWhileAccesses (2 ^ L) (2 ^ j) (by positivity) := by
  intro n
  induction n with
  | zero =>
    intro j hj a ha
    have e : j = L - 1 := by omega
    subst e
    rw [invWhileAccesses, if_pos (Nat.pow_lt_pow_right (by norm_num) (by omega))]
    exact List.mem_append_left _ (List.mem_append_left _ ha)
  | succ n ih =>
    intro j hj a ha
    rw [invWhileAccesses, if_pos (Nat.pow_lt_pow_right (by norm_num) (by omega))]
    refine List.mem_append_right _ ?_
    have e : 2 ^ j * 2 = 2 ^ (j + 1) := (pow_succ 2 j).symm
    simp only [e]
    exact ih (j + 1) (by omega) a ha

theorem invWhileAccesses_writes (L : Nat) (hL : 1 ≤ L) (j : Nat) (hj : j < 2 ^ L) :
    (⟨.output, j, true⟩ : Access) ∈ invWhileAccesses (2 ^ L) 1 Nat.one_pos := by
  have hp : 2 ^ L = 2 ^ (L - 1) * 2 := by
    rw [← pow_succ]
    congr 1
    omega
  have h := invWhileAccesses_last L hL (L - 1) 0 (by omega) ⟨.output, j, true⟩ (by
    rw [mem_invForAccesses]
    refine ⟨j / 2, by omega, ?_⟩
    by_cases hm : j % 2 = 0
    · have e : 2 * (j / 2) = j := by omega
      simp [invBodyAccesses, e]
    · have e : 2 * (j / 2) + 1 = j := by omega
      simp [invBodyAccesses, e])
  exact h

/-- C24: on a buffer length `2 ^ L` with `L ≤ 30` (a length inside the range of
`int w = buffLen`), every cell `ForwardHaarTransformCPU` and `InverseHaarTransformCPU` read or
write, in `pInBuff`, in the copy `pTempIn` and in `pOutBuff`, has an index below the length,
and for `L ≥ 1` each of the two writes every cell of `pOutBuff`. -/
theorem CPU_transforms_in_bounds (L : Nat) (hL30 : L ≤ 30) :
    (∀ a ∈ ForwardHaarTransformCPUAccesses (2 ^ L), a.index < 2 ^ L) ∧
    (∀ a ∈ InverseHaarTransformCPUAccesses (2 ^ L), a.index < 2 ^ L) ∧
    (1 ≤ L → ∀ j, j < 2 ^ L →
      (⟨.output, j, true⟩ : Access) ∈ ForwardHaarTransformCPUAccesses (2 ^ L) ∧
      (⟨.output, j, true⟩ : Access) ∈ InverseHaarTransformCPUAccesses (2 ^ L)) := by
  have h31 : 2 ^ L < 2 ^ 31 := Nat.pow_lt_pow_right (by norm_num) (by omega)
  have hf : ForwardHaarTransformCPUAccesses (2 ^ L) =
      memcpyAccesses .temp .input (2 ^ L) ++ fwdWhileAccesses (2 ^ L) := by
    rw [ForwardHaarTransformCPUAccesses, if_pos h31]
  refine ⟨?_, ?_, fun hL j hj => ⟨?_, ?_⟩⟩
  · intro a ha
    rw [hf] at ha
    rcases List.mem_append.mp ha with h | h
    · exact memcpyAccesses_lt _ _ _ a h
    · exact fwdWhileAccesses_lt _ a h
  · intro a ha
    rcases List.mem_append.mp ha with h | h
    · exact memcpyAccesses_lt _ _ _ a h
    · exact invWhileAccesses_lt L L 0 (by omega) a h
  · rw [hf]
    exact List.mem_append_right _ (fwdWhileAccesses_writes L hL j hj)
  · exact List.mem_append_right _ (invWhileAccesses_writes L hL j hj)

theorem CPU_transforms_in_bounds_witness :
    (2 : Nat) ≤ 30 ∧
    (∀ a ∈ ForwardHaarTransformCPUAccesses (2 ^ 2), a.index < 2 ^ 2) ∧
    (∀ a ∈ InverseHaarTransformCPUAccesses (2 ^ 2), a.index < 2 ^ 2) ∧
    (1 ≤ 2 → ∀ j, j < 2 ^ 2 →
      (⟨.output, j, true⟩ : Access) ∈ ForwardHaarTransformCPUAccesses (2 ^ 2) ∧
      (⟨.output, j, true⟩ : Access) ∈ InverseHaarTransformCPUAccesses (2 ^ 2)) :=
  ⟨by decide, CPU_transforms_in_bounds 2 (by decide)⟩
/-! ## `CompareFloatBuffers` -/

theorem roundHalfEven_le_iff (y : ℚ) (m : Int) :
    roundHalfEven y ≤ m ↔ y < m + 1 / 2 ∨ (y = m + 1 / 2 ∧ m % 2 = 0) := by
  have h1 : ((⌊y⌋ : Int) : ℚ) ≤ y := Int.floor_le y
  have h2 : y < ((⌊y⌋ : Int) : ℚ) + 1 := Int.lt_floor_add_one y
  unfold roundHalfEven
  generalize ⌊y⌋ = f at h1 h2 ⊢
  rcases lt_trichotomy f m with hlt | heq | hgt
  · have c : (f : ℚ) + 1 ≤ m := by exact_mod_cast hlt
    constructor
    · intro _
      left
      linarith
    · intro _
      split_ifs <;> omega
  · subst heq
    split_ifs with a b e
    · constructor
      · intro _
        left
        linarith
      · intro _
        exact le_refl _
    · constructor
      · intro h
        omega
      · rintro (h | ⟨h, _⟩) <;> linarith
    · constructor
      · intro _
        right
        exact ⟨by linarith, e⟩
      · intro _
        exact le_refl _
    · constructor
      · intro h
        omega
      · rintro (h | ⟨_, h⟩)
        · linarith
        · exact absurd h e
  · have c : (m : ℚ) + 1 ≤ f := by exact_mod_cast hgt
    constructor
    · intro h
      exfalso
      split_ifs at h <;> omega
    · rintro (h | ⟨h, _⟩) <;> linarith

theorem le_roundHalfEven_iff (y : ℚ) (m : Int) :
    m ≤ roundHalfEven y ↔ (m : ℚ) - 1 / 2 < y ∨ (y = m - 1 / 2 ∧ m % 2 = 0) := by
  have h1 : ((⌊y⌋ : Int) : ℚ) ≤ y := Int.floor_le y
  have h2 : y < ((⌊y⌋ : Int) : ℚ) + 1 := Int.lt_floor_add_one y
  unfold roundHalfEven
  generalize ⌊y⌋ = f at h1 h2 ⊢
  rcases lt_trichotomy (f + 1) m with hlt | heq | hgt
  · have c : (f : ℚ) + 1 + 1 ≤ m := by exact_mod_cast hlt
    constructor
    · intro h
      exfalso
      split_ifs at h <;> omega
    · rintro (h | ⟨h, _⟩) <;> linarith
  · subst heq
    push_cast
    split_ifs with a b e
    · constructor
      · intro h
        omega
      · rintro (h | ⟨h, _⟩) <;> linarith
    · constructor
      · intro _
        left
        linarith
      · intro _
        exact le_refl _
    · constructor
      · intro h
        omega
      · rintro (h | ⟨_, h⟩)
        · linarith
        · omega
    · constructor
      · intro _
        right
        exact ⟨by linarith, by omega⟩
      · intro _
        exact le_refl _
  · have c : (m : ℚ) ≤ f := by exact_mod_cast Int.lt_add_one_iff.mp hgt
    constructor
    · intro _
      left
      linarith
    · intro _
      split_ifs <;> omega

theorem abs_roundHalfEven_le (y : ℚ) (N : Int) (h : |y| ≤ N) : |roundHalfEven y| ≤ N := by
  rw [abs_le] at h ⊢
  constructor
  · rw [le_roundHalfEven_iff]
    left
    push_cast
    linarith
  · rw [roundHalfEven_le_iff]
    left
    linarith

theorem le_abs_roundHalfEven (y : ℚ) (N : Int) (h : (N : ℚ) ≤ |y|) :
    N ≤ |roundHalfEven y| := by
  rcases le_abs.mp h with h | h
  · exact le_trans ((le_roundHalfEven_iff y N).mpr (Or.inl (by linarith))) (le_abs_self _)
  · have h' : roundHalfEven y ≤ -N :=
      (roundHalfEven_le_iff y (-N)).mpr (Or.inl (by push_cast; linarith))
    exact le_trans (by omega) (neg_le_abs _)

theorem abs_roundF32 (d : ℚ) :
    |roundF32 d| = (|roundHalfEven (d / 2 ^ ulpExponent d)| : Int) * 2 ^ ulpExponent d := by
  have hp : (0 : ℚ) < 2 ^ ulpExponent d := zpow_pos (by norm_num) _
  rw [roundF32, abs_mul, abs_of_pos hp, Int.cast_abs]

theorem two_zpow_split (j e : Int) (hj : e ≤ j) :
    (2 : ℚ) ^ j = ((2 ^ (j - e).toNat : Int) : ℚ) * 2 ^ e := by
  have hn : ((j - e).toNat : Int) = j - e := Int.toNat_of_nonneg (by omega)
  have e1 : j = ((j - e).toNat : Int) + e := by omega
  nth_rewrite 1 [e1]
  rw [zpow_add₀ (by norm_num), zpow_natCast]
  push_cast
  rfl

theorem abs_roundF32_le_zpow (d : ℚ) (j : Int) (hj : ulpExponent d ≤ j)
    (h : |d| ≤ 2 ^ j) : |roundF32 d| ≤ 2 ^ j := by
  have hp : (0 : ℚ) < 2 ^ ulpExponent d := zpow_pos (by norm_num) _
  rw [abs_roundF32, two_zpow_split j _ hj]
  refine mul_le_mul_of_nonneg_right ?_ hp.le
  have hy : |d / 2 ^ ulpExponent d| ≤ ((2 ^ (j - ulpExponent d).toNat : Int) : ℚ) := by
    rw [abs_div, abs_of_pos hp, div_le_iff₀ hp, ← two_zpow_split j _ hj]
    exact h
  exact_mod_cast abs_roundHalfEven_le _ _ hy

theorem zpow_le_abs_roundF32 (d : ℚ) (j : Int) (hj : ulpExponent d ≤ j)
    (h : 2 ^ j ≤ |d|) : 2 ^ j ≤ |roundF32 d| := by
  have hp : (0 : ℚ) < 2 ^ ulpExponent d := zpow_pos (by norm_num) _
  rw [abs_roundF32, two_zpow_split j _ hj]
  refine mul_le_mul_of_nonneg_right ?_ hp.le
  have hy : ((2 ^ (j - ulpExponent d).toNat : Int) : ℚ) ≤ |d / 2 ^ ulpExponent d| := by
    rw [abs_div, abs_of_pos hp, le_div_iff₀ hp, ← two_zpow_split j _ hj]
    exact h
  exact_mod_cast le_abs_roundHalfEven _ _ hy

theorem roundF32_zero : roundF32 0 = 0 := by
  simp [roundF32, roundHalfEven]

theorem abs_roundF32_le_EPSILON_iff (d : ℚ) :
    |roundF32 d| ≤ EPSILON_f32 ↔ |d| < 17179871 / 17179869184 := by
  by_cases h0 : d = 0
  · subst h0
    rw [roundF32_zero, EPSILON_f32]
    norm_num
  have hpos : 0 < |d| := abs_pos.mpr h0
  have hk1 : (2 : ℚ) ^ Int.log 2 |d| ≤ |d| := by
    have := Int.zpow_log_le_self (b := 2) (by norm_num) hpos
    exact_mod_cast this
  have hk2 : |d| < (2 : ℚ) ^ (Int.log 2 |d| + 1) := by
    have := Int.lt_zpow_succ_log_self (b := 2) (by norm_num) |d|
    exact_mod_cast this
  have he : ulpExponent d = max (Int.log 2 |d| - 23) (-149) := rfl
  rcases lt_trichotomy (Int.log 2 |d|) (-10) with hlt | heq | hgt
  · have hd : |d| ≤ (2 : ℚ) ^ (-10 : Int) :=
      le_trans hk2.le (zpow_le_zpow_right₀ (by norm_num) (by omega))
    have hr := abs_roundF32_le_zpow d (-10) (by rw [he]; omega) hd
    have e10 : (2 : ℚ) ^ (-10 : Int) = 1 / 1024 := by norm_num [zpow_neg]
    rw [e10] at hd hr
    rw [EPSILON_f32]
    constructor
    · intro _
      exact lt_of_le_of_lt hd (by norm_num)
    · intro _
      exact le_trans hr (by norm_num)
  · have hu : ulpExponent d = -33 := by
      rw [he, heq]
      rfl
    have hp : (0 : ℚ) < 2 ^ (-33 : Int) := zpow_pos (by norm_num) _
    have e33 : (2 : ℚ) ^ (-33 : Int) = 1 / 8589934592 := by norm_num [zpow_neg]
    rw [abs_roundF32, hu, EPSILON_f32, e33]
    have hi : ((|roundHalfEven (d / (1 / 8589934592))| : Int) : ℚ) * (1 / 8589934592) ≤
        8589935 / 8589934592 ↔ |roundHalfEven (d / (1 / 8589934592))| ≤ 8589935 := by
      rw [mul_one_div, div_le_div_iff_of_pos_right (by norm_num)]
      exact_mod_cast Iff.rfl
    rw [hi, abs_le, abs_lt, roundHalfEven_le_iff, le_roundHalfEven_iff]
    constructor
    · rintro ⟨h1 | ⟨_, h1⟩, h2 | ⟨_, h2⟩⟩
      · push_cast at h1 h2
        rw [div_div_eq_mul_div, lt_div_iff₀ (by norm_num)] at h1
        rw [div_div_eq_mul_div, div_lt_iff₀ (by norm_num)] at h2
        constructor <;> linarith
      · omega
      · omega
      · omega
    · rintro ⟨h1, h2⟩
      refine ⟨Or.inl ?_, Or.inl ?_⟩
      · push_cast
        rw [div_div_eq_mul_div, lt_div_iff₀ (by norm_num)]
        linarith
      · push_cast
        rw [div_div_eq_mul_div, div_lt_iff₀ (by norm_num)]
        linarith
  · have hd : (2 : ℚ) ^ (-9 : Int) ≤ |d| :=
      le_trans (zpow_le_zpow_right₀ (by norm_num) (by omega)) hk1
    have hr := zpow_le_abs_roundF32 d (Int.log 2 |d|) (by rw [he]; omega) hk1
    have hr' : (2 : ℚ) ^ (-9 : Int) ≤ |roundF32 d| :=
      le_trans (zpow_le_zpow_right₀ (by norm_num) (by omega)) hr
    have e9 : (2 : ℚ) ^ (-9 : Int) = 1 / 512 := by norm_num [zpow_neg]
    rw [e9] at hd hr'
    rw [EPSILON_f32]
    constructor
    · intro h
      exact absurd (le_trans hr' h) (by norm_num)
    · intro h
      exact absurd (lt_of_le_of_lt hd h) (by norm_num)

theorem ulpExponent_of_binade (x : ℚ) (k : Int) (hk : -126 ≤ k) (h1 : (2 : ℚ) ^ k ≤ |x|)
    (h2 : |x| < 2 ^ (k + 1)) : ulpExponent x = k - 23 := by
  have hpos : 0 < |x| := lt_of_lt_of_le (zpow_pos (by norm_num) _) h1
  have hlog : Int.log 2 |x| = k := by
    apply le_antisymm
    · have := (Int.lt_zpow_iff_log_lt (b := 2) (by norm_num) hpos).mp (by exact_mod_cast h2)
      omega
    · exact (Int.zpow_le_iff_le_log (b := 2) (by norm_num) hpos).mp (by exact_mod_cast h1)
  rw [ulpExponent, hlog]
  exact max_eq_left (by omega)

theorem roundF32_of_binade (x : ℚ) (k m : Int) (hk : -126 ≤ k) (h1 : (2 : ℚ) ^ k ≤ |x|)
    (h2 : |x| < 2 ^ (k + 1)) (hlo : (m : ℚ) - 1 / 2 < x / 2 ^ (k - 23))
    (hhi : x / 2 ^ (k - 23) < m + 1 / 2) : roundF32 x = m * 2 ^ (k - 23) := by
  rw [roundF32, ulpExponent_of_binade x k hk h1 h2]
  have hr : roundHalfEven (x / 2 ^ (k - 23)) = m :=
    le_antisymm ((roundHalfEven_le_iff _ m).mpr (Or.inl hhi))
      ((le_roundHalfEven_iff _ m).mpr (Or.inl hlo))
  rw [hr]

theorem float_gt_EPSILON_finite (p q : ℚ) :
    ((float.finite p).sub (.finite q)).fabs.gt EPSILON = false ↔
      |roundF32 (p - q)| ≤ EPSILON_f32 := by
  by_cases hov : FLT_MAX < |roundF32 (p - q)|
  · have e : (float.finite p).sub (.finite q) = .infinity (decide (p - q < 0)) := by
      rw [float.sub, if_pos hov]
    rw [e]
    have hE : EPSILON_f32 < FLT_MAX := by
      rw [EPSILON_f32, FLT_MAX]
      norm_num
    have ht : (float.infinity (decide (p - q < 0))).fabs.gt EPSILON = true := rfl
    rw [ht]
    constructor
    · intro h
      exact absurd h (by decide)
    · intro h
      exact absurd (lt_of_le_of_lt h hE) (not_lt.mpr hov.le)
  · have e : (float.finite p).sub (.finite q) = .finite (roundF32 (p - q)) := by
      rw [float.sub, if_neg hov]
    rw [e]
    show decide (EPSILON_f32 < |roundF32 (p - q)|) = false ↔ _
    rw [decide_eq_false_iff_not, not_lt]

theorem compareFrom_iff (a b : List float) (n : Nat) : ∀ i,
    compareFrom a b n i = true ↔
      ∀ j, i ≤ j → j < i + n →
        ((a.getD j (.finite 0)).sub (b.getD j (.finite 0))).fabs.gt EPSILON = false := by
  induction n with
  | zero =>
    intro i
    simp only [compareFrom, true_iff]
    intro j h1 h2
    omega
  | succ n ih =>
    intro i
    rw [compareFrom]
    by_cases h : ((a.getD i (.finite 0)).sub (b.getD i (.finite 0))).fabs.gt EPSILON = true
    · rw [if_pos h]
      constructor
      · intro hf
        exact absurd hf (by decide)
      · intro hall
        rw [hall i le_rfl (by omega)] at h
        exact absurd h (by decide)
    · rw [if_neg h, ih (i + 1)]
      constructor
      · intro hall j h1 h2
        rcases Nat.eq_or_lt_of_le h1 with rfl | hlt
        · exact Bool.eq_false_iff.mpr h
        · exact hall j hlt (by omega)
      · intro hall j h1 h2
        exact hall j (by omega) (by omega)

theorem CompareFloatBuffers_iff (a b : List float) (n : Nat) :
    CompareFloatBuffers a b n = true ↔
      ∀ i, i < n →
        ((a.getD i (.finite 0)).sub (b.getD i (.finite 0))).fabs.gt EPSILON = false := by
  rw [CompareFloatBuffers, compareFrom_iff]
  constructor
  · intro h i hi
    exact h i (Nat.zero_le i) (by omega)
  · intro h j _ hj
    exact h j (by omega)

theorem CompareFloatBuffers_finite_iff (x y : List ℚ) (n : Nat) :
    CompareFloatBuffers (x.map .finite) (y.map .finite) n = true ↔
      ∀ i, i < n → |x.getD i 0 - y.getD i 0| < 17179871 / 17179869184 := by
  rw [CompareFloatBuffers_iff]
  refine forall_congr' fun i => imp_congr_right fun _ => ?_
  rw [List.getD_map, List.getD_map, float_gt_EPSILON_finite, abs_roundF32_le_EPSILON_iff]

/-- C17: `CompareFloatBuffers(a, b, n)` returns true exactly when at no index `i < n` the
`float` difference `a[i] - b[i]` has an absolute value greater than `EPSILON = 0.001f`; a
difference with a NaN operand is never greater.  For finite values the difference is the exact
one rounded to binary32, and the function returns true exactly when
`|a[i] - b[i]| < 0.001f + 2 ^ (-34)` for every `i < n` in exact arithmetic; so it returns true
when `|a[i] - b[i]| ≤ 0.001` for every `i < n`, a difference of exactly `0.001` or of exactly
`0.001f` is accepted, and empty buffers compare equal. -/
theorem CompareFloatBuffers_spec (a b : List float) (n : Nat) :
    (CompareFloatBuffers a b n = true ↔
      ∀ i, i < n →
        ((a.getD i (.finite 0)).sub (b.getD i (.finite 0))).fabs.gt EPSILON = false) ∧
    (∀ u : float, (float.nan.sub u).fabs.gt EPSILON = false ∧
      (u.sub .nan).fabs.gt EPSILON = false) ∧
    (∀ p q : ℚ, ((float.finite p).sub (.finite q)).fabs.gt EPSILON = false ↔
      |roundF32 (p - q)| ≤ EPSILON_f32) ∧
    (∀ x y : List ℚ, CompareFloatBuffers (x.map .finite) (y.map .finite) n = true ↔
      ∀ i, i < n → |x.getD i 0 - y.getD i 0| < EPSILON_f32 + 1 / 2 ^ 34) ∧
    (∀ x y : List ℚ, (∀ i, i < n → |x.getD i 0 - y.getD i 0| ≤ 1 / 1000) →
      CompareFloatBuffers (x.map .finite) (y.map .finite) n = true) ∧
    (∀ x y : List ℚ, (∀ i, i < n → |x.getD i 0 - y.getD i 0| = EPSILON_f32) →
      CompareFloatBuffers (x.map .finite) (y.map .finite) n = true) ∧
    CompareFloatBuffers a b 0 = true := by
  have hb : EPSILON_f32 + 1 / 2 ^ 34 = 17179871 / 17179869184 := by
    rw [EPSILON_f32]
    norm_num
  refine ⟨CompareFloatBuffers_iff a b n, fun u => ?_, float_gt_EPSILON_finite, fun x y => ?_,
    fun x y h => ?_, fun x y h => ?_, rfl⟩
  · cases u <;> exact ⟨rfl, rfl⟩
  · rw [hb]
    exact CompareFloatBuffers_finite_iff x y n
  · exact (CompareFloatBuffers_finite_iff x y n).mpr fun i hi =>
      lt_of_le_of_lt (h i hi) (by norm_num)
  · exact (CompareFloatBuffers_finite_iff x y n).mpr fun i hi => by
      rw [h i hi, EPSILON_f32]
      norm_num

/-- C17, the claim as stated fails: `a = 0x1.54c988p-10f` and `b = 0x1.3a92a6p-12f` are two
values of binary32, their exact difference is `0.001f + 2 ^ (-35)`, above `0.001f` and above
`0.001`, and `CompareFloatBuffers` on the two one-cell buffers returns true. -/
theorem CompareFloatBuffers_not_exact :
    roundF32 (22333832 / 2 ^ 34) = 22333832 / 2 ^ 34 ∧
    roundF32 (20615846 / 2 ^ 36) = 20615846 / 2 ^ 36 ∧
    (22333832 / 2 ^ 34 - 20615846 / 2 ^ 36 : ℚ) = EPSILON_f32 + 1 / 2 ^ 35 ∧
    roundF32 (22333832 / 2 ^ 34 - 20615846 / 2 ^ 36) = EPSILON_f32 ∧
    CompareFloatBuffers [.finite (22333832 / 2 ^ 34)] [.finite (20615846 / 2 ^ 36)] 1 = true ∧
    ¬ (CompareFloatBuffers [.finite (22333832 / 2 ^ 34)] [.finite (20615846 / 2 ^ 36)] 1 = true ↔
      ∀ i, i < 1 → |([22333832 / 2 ^ 34] : List ℚ).getD i 0 -
        ([20615846 / 2 ^ 36] : List ℚ).getD i 0| ≤ 1 / 1000) := by
  have hc := (CompareFloatBuffers_finite_iff [22333832 / 2 ^ 34] [20615846 / 2 ^ 36] 1).mpr
    (fun i hi => by
      have hi0 : i = 0 := by omega
      subst hi0
      norm_num [abs_of_pos])
  refine ⟨?_, ?_, ?_, ?_, hc, fun h => ?_⟩
  · rw [roundF32_of_binade _ (-10) 11166916 (by norm_num) (by norm_num [zpow_neg, abs_of_pos])
      (by norm_num [zpow_neg, abs_of_pos]) (by norm_num [zpow_neg]) (by norm_num [zpow_neg])]
    norm_num [zpow_neg]
  · rw [roundF32_of_binade _ (-12) 10307923 (by norm_num) (by norm_num [zpow_neg, abs_of_pos])
      (by norm_num [zpow_neg, abs_of_pos]) (by norm_num [zpow_neg]) (by norm_num [zpow_neg])]
    norm_num [zpow_neg]
  · rw [EPSILON_f32]
    norm_num
  · rw [roundF32_of_binade _ (-10) 8589935 (by norm_num) (by norm_num [zpow_neg, abs_of_pos])
      (by norm_num [zpow_neg, abs_of_pos]) (by norm_num [zpow_neg]) (by norm_num [zpow_neg]),
      EPSILON_f32]
    norm_num [zpow_neg]
  · have h0 := h.mp hc 0 (by norm_num)
    norm_num [abs_of_pos] at h0

end DeNoising
